import Mathlib

/-!
# Smoke: a shallow embedding of the grid fluid solver of `index.js`
and of the shader loader of `ShaderUtils.js`

The class `Main` of `index.js` keeps five flat numeric buffers (`velX`, `velY`,
`density`, `pressure`, `divergence`) over a `W × H` grid and mutates them once
per frame.  The embedding below follows the source function by function.

* Numbers are exact rationals (`ℚ`): the solver part of the development is
  about the arithmetic the code writes down, not about `Float32` rounding.
  Division is the total division of `ℚ` (`x / 0 = 0`); statements whose
  content depends on a division by `cellSize` say what they assume of
  `cellSize`.  The scale and offsets of `loadImageToGrid`, where rounding
  decides on which side of an integer a value falls, are computed in double
  arithmetic: every operation is followed by `roundDouble`.
* A buffer is a `List ℚ` of fixed length.  Every subscript of the source goes
  through the checked accessors `rd` and `wr`, which yield `none` for an index
  outside the buffer (where a typed array would answer `undefined`, or drop
  the store).  An operation therefore returns `some` exactly when every access
  it performs is inside its buffer.
* A counting loop `for (let i = lo; i < hi; i++)` is `forRange lo hi`.
* Grid coordinates, loop counters and indices are integers, and so is the
  brush radius of `Main`.  The wheel handler can leave a radius that is not an
  integer; `applyBrushAt` embeds the brush for any rational radius, with
  rational offsets and subscripts, and agrees with `applyBrush` at an integer
  radius (`applyBrushAt_int`).
* The canvas that `loadImageToGrid` draws on is the browser's: its `drawImage`
  is a parameter of the embedding, and statements about the import say which
  laws of the canvas they rest on (`CanvasLaws`).
* A string of `ShaderUtils.js` is the list of its characters, which stand for
  its UTF-16 code units (text of the Basic Multilingual Plane).  The network
  is a parameter of `fetchShader`, and the `while` loop of `include` carries
  the `lastIndex` of its regular expression and a bound on its passes.

The file has two parts: the definitions (the embedding of the source, then the
vocabulary of the statements and a few concrete states), and the theorems
(what each loop nest computes, then the claims `C1`, `C2`, ... about the program).
-/

namespace Smoke

/-! ## Buffers and loops -/

/-- Checked read `a[i]`: `none` when `i` is not an index of the buffer. -/
def rd (a : List ℚ) (i : Int) : Option ℚ :=
  if 0 ≤ i then a[i.toNat]? else none

/-- Checked store `a[i] = v`: `none` when `i` is not an index of the buffer. -/
def wr (a : List ℚ) (i : Int) (v : ℚ) : Option (List ℚ) :=
  if 0 ≤ i ∧ i.toNat < a.length then some (a.set i.toNat v) else none

/-- Total view of a buffer used in statements: the entry at `i`, and `0` outside the buffer. -/
def peek (a : List ℚ) (i : Int) : ℚ :=
  (rd a i).getD 0

/-- Counting loop `for (let i = lo; i < hi; i++) body(i)` over a threaded state. -/
def forRange {σ : Type} (lo hi : Int) (body : Int → σ → Option σ) (s : σ) : Option σ :=
  (List.range (hi - lo).toNat).foldlM (fun acc (i : Nat) => body (lo + (i : Int)) acc) s

/-! ## The simulation object -/

/-- Fields of the class `Main` that the solver and the brush read or write. -/
structure Main where
  /-- Grid width, `gridSize.x`. -/
  W : Nat
  /-- Grid height, `gridSize.y`. -/
  H : Nat
  cellSize : ℚ
  timestep : ℚ
  smokeDecay : ℚ
  gsIterations : Int
  mouseDown : Bool
  mouseRight : Bool
  /-- Current pointer cell, unset until the first pointer move. -/
  gridCoord : Option (Int × Int)
  /-- Pointer velocity in cells, unset until the first pointer move. -/
  mouseVel : Option (ℚ × ℚ)
  /-- Brush radius, an integer as the initial value 8 and the slider (step 1) leave it.  The
  wheel handler can leave a radius that is not an integer; `applyBrushAt` is the brush for
  such a radius. -/
  radius : Int
  brushStrength : ℚ
  /-- Brush colour, the four entries of `brushColor`. -/
  brushColor : ℚ × ℚ × ℚ × ℚ
  velX : List ℚ
  velY : List ℚ
  density : List ℚ
  pressure : List ℚ
  divergence : List ℚ

/-- Buffer sizes fixed by `initGrid`, for a grid with at least one cell. -/
structure Main.Sized (s : Main) : Prop where
  hW : 1 ≤ s.W
  hH : 1 ≤ s.H
  velX : s.velX.length = (s.W + 1) * s.H
  velY : s.velY.length = s.W * (s.H + 1)
  density : s.density.length = s.W * s.H * 4
  pressure : s.pressure.length = s.W * s.H
  divergence : s.divergence.length = s.W * s.H

/-! ## Density advection -/

/-- Body of the two inner loops of `advectDensity` for the cell `(x, y)`:
backtrace, clamp, and bilinear sample of the four channels into `nd`. -/
def advectDensityCell (s : Main) (y x : Int) (nd : List ℚ) : Option (List ℚ) := do
  let W : Int := s.W
  let H : Int := s.H
  let idx := (y * W + x) * 4
  let vx ← rd s.velX (y * (W + 1) + x)
  let vy ← rd s.velY (y * W + x)
  let u : ℚ := x - vx * s.timestep
  let v : ℚ := y - vy * s.timestep
  let u := max 0 (min ((W : ℚ) - 1) u)
  let v := max 0 (min ((H : ℚ) - 1) v)
  let i0 := Int.floor u
  let j0 := Int.floor v
  let i1 := min (i0 + 1) (W - 1)
  let j1 := min (j0 + 1) (H - 1)
  let s1 := u - i0
  let s0 := 1 - s1
  let t1 := v - j0
  let t0 := 1 - t1
  let idx00 := (j0 * W + i0) * 4
  let idx10 := (j0 * W + i1) * 4
  let idx01 := (j1 * W + i0) * 4
  let idx11 := (j1 * W + i1) * 4
  forRange 0 4 (fun k nd => do
    let d00 ← rd s.density (idx00 + k)
    let d01 ← rd s.density (idx01 + k)
    let d10 ← rd s.density (idx10 + k)
    let d11 ← rd s.density (idx11 + k)
    wr nd (idx + k) (s0 * (t0 * d00 + t1 * d01) + s1 * (t0 * d10 + t1 * d11))) nd

/-- Embedding of `advectDensity`: a fresh zero buffer is filled cell by cell and swapped in. -/
def advectDensity (s : Main) : Option Main := do
  let W : Int := s.W
  let H : Int := s.H
  let newDensity := List.replicate s.density.length (0 : ℚ)
  let nd ← forRange 0 H (fun y nd => forRange 0 W (fun x nd => advectDensityCell s y x nd) nd) newDensity
  pure { s with density := nd }

/-! ## Velocity advection -/

/-- Body of the first loop nest of `advectVelocity` for the horizontal face `(x, y)`. -/
def advectVelXFace (s : Main) (y x : Int) (nv : List ℚ) : Option (List ℚ) := do
  let W : Int := s.W
  let H : Int := s.H
  let idx := y * (W + 1) + x
  let vx ← rd s.velX idx
  let vy ← rd s.velY (y * W + min x (W - 1))
  let px : ℚ := x - vx * s.timestep
  let py : ℚ := y - vy * s.timestep
  let px := max 0 (min (W : ℚ) px)
  let py := max 0 (min ((H : ℚ) - 1) py)
  let i0 := Int.floor px
  let j0 := Int.floor py
  let i1 := min (i0 + 1) W
  let j1 := min (j0 + 1) (H - 1)
  let sx := px - i0
  let sy := py - j0
  let idx00 := j0 * (W + 1) + i0
  let idx10 := j0 * (W + 1) + i1
  let idx01 := j1 * (W + 1) + i0
  let idx11 := j1 * (W + 1) + i1
  let v00 ← rd s.velX idx00
  let v01 ← rd s.velX idx01
  let v10 ← rd s.velX idx10
  let v11 ← rd s.velX idx11
  wr nv idx ((1 - sx) * ((1 - sy) * v00 + sy * v01) + sx * ((1 - sy) * v10 + sy * v11))

/-- Body of the second loop nest of `advectVelocity` for the vertical face `(x, y)`. -/
def advectVelYFace (s : Main) (y x : Int) (nv : List ℚ) : Option (List ℚ) := do
  let W : Int := s.W
  let H : Int := s.H
  let idx := y * W + x
  let vx ← rd s.velX (min y (H - 1) * (W + 1) + x)
  let vy ← rd s.velY idx
  let px : ℚ := x - vx * s.timestep
  let py : ℚ := y - vy * s.timestep
  let px := max 0 (min ((W : ℚ) - 1) px)
  let py := max 0 (min (H : ℚ) py)
  let i0 := Int.floor px
  let j0 := Int.floor py
  let i1 := min (i0 + 1) (W - 1)
  let j1 := min (j0 + 1) H
  let sx := px - i0
  let sy := py - j0
  let idx00 := j0 * W + i0
  let idx10 := j0 * W + i1
  let idx01 := j1 * W + i0
  let idx11 := j1 * W + i1
  let v00 ← rd s.velY idx00
  let v01 ← rd s.velY idx01
  let v10 ← rd s.velY idx10
  let v11 ← rd s.velY idx11
  wr nv idx ((1 - sx) * ((1 - sy) * v00 + sy * v01) + sx * ((1 - sy) * v10 + sy * v11))

/-- Embedding of `advectVelocity`: both components are sampled from the old field into
fresh zero buffers, which are swapped in at the end. -/
def advectVelocity (s : Main) : Option Main := do
  let W : Int := s.W
  let H : Int := s.H
  let newVelX := List.replicate s.velX.length (0 : ℚ)
  let newVelY := List.replicate s.velY.length (0 : ℚ)
  let nx ← forRange 0 H (fun y nv => forRange 0 (W + 1) (fun x nv => advectVelXFace s y x nv) nv) newVelX
  let ny ← forRange 0 (H + 1) (fun y nv => forRange 0 W (fun x nv => advectVelYFace s y x nv) nv) newVelY
  pure { s with velX := nx, velY := ny }

/-! ## Projection -/

/-- Body of the loops of `computeDivergence` for the cell `(x, y)`. -/
def computeDivergenceCell (s : Main) (y x : Int) (div : List ℚ) : Option (List ℚ) := do
  let W : Int := s.W
  let vxL ← rd s.velX (y * (W + 1) + x)
  let vxR ← rd s.velX (y * (W + 1) + x + 1)
  let vyB ← rd s.velY (y * W + x)
  let vyT ← rd s.velY ((y + 1) * W + x)
  wr div (y * W + x) ((vxR - vxL + vyT - vyB) / s.cellSize)

/-- Embedding of `computeDivergence`, which overwrites the divergence buffer in place. -/
def computeDivergence (s : Main) : Option Main := do
  let W : Int := s.W
  let H : Int := s.H
  let div ← forRange 0 H (fun y div => forRange 0 W (fun x div => computeDivergenceCell s y x div) div)
    s.divergence
  pure { s with divergence := div }

/-- Body of the loops of `gaussSeidelPressure` for the cell `(x, y)`: the relaxation
update, reading and writing the same buffer `p`. -/
def gaussSeidelCell (W : Int) (div : List ℚ) (y x : Int) (p : List ℚ) : Option (List ℚ) := do
  let idx := y * W + x
  let pl ← rd p (idx - 1)
  let pr ← rd p (idx + 1)
  let pb ← rd p (idx - W)
  let pt ← rd p (idx + W)
  let d ← rd div idx
  wr p idx ((pl + pr + pb + pt - d) / 4)

/-- One pass of the outer loop of `gaussSeidelPressure`: a sweep over the interior cells. -/
def gaussSeidelSweep (W H : Int) (div : List ℚ) (p : List ℚ) : Option (List ℚ) :=
  forRange 1 (H - 1) (fun y p => forRange 1 (W - 1) (fun x p => gaussSeidelCell W div y x p) p) p

/-- Embedding of `gaussSeidelPressure`: `gsIterations` sweeps over the pressure buffer. -/
def gaussSeidelPressure (s : Main) : Option Main := do
  let W : Int := s.W
  let H : Int := s.H
  let div := s.divergence
  let p ← forRange 0 s.gsIterations (fun _ p => gaussSeidelSweep W H div p) s.pressure
  pure { s with pressure := p }

/-- Body of the first loop nest of `subtractGradient` for the horizontal face `(x, y)`. -/
def subtractGradientX (s : Main) (y x : Int) (vx : List ℚ) : Option (List ℚ) := do
  let W : Int := s.W
  let p := s.pressure
  let idx := y * (W + 1) + x
  let i0 := max 0 (x - 1)
  let i1 := min (W - 1) x
  let old ← rd vx idx
  let p1 ← rd p (y * W + i1)
  let p0 ← rd p (y * W + i0)
  wr vx idx (old - (p1 - p0) / s.cellSize)

/-- Body of the second loop nest of `subtractGradient` for the vertical face `(x, y)`. -/
def subtractGradientY (s : Main) (y x : Int) (vy : List ℚ) : Option (List ℚ) := do
  let W : Int := s.W
  let H : Int := s.H
  let p := s.pressure
  let idx := y * W + x
  let j0 := max 0 (y - 1)
  let j1 := min (H - 1) y
  let old ← rd vy idx
  let p1 ← rd p (j1 * W + x)
  let p0 ← rd p (j0 * W + x)
  wr vy idx (old - (p1 - p0) / s.cellSize)

/-- Embedding of `subtractGradient`, which corrects both velocity buffers in place. -/
def subtractGradient (s : Main) : Option Main := do
  let W : Int := s.W
  let H : Int := s.H
  let vx ← forRange 0 H (fun y vx => forRange 0 (W + 1) (fun x vx => subtractGradientX s y x vx) vx)
    s.velX
  let vy ← forRange 0 (H + 1) (fun y vy => forRange 0 W (fun x vy => subtractGradientY s y x vy) vy)
    s.velY
  pure { s with velX := vx, velY := vy }

/-! ## Decay -/

/-- Embedding of `decayDensity`: every entry of the density buffer is scaled in place. -/
def decayDensity (s : Main) : Option Main := do
  let d ← forRange 0 s.density.length (fun i d => do
    let v ← rd d i
    wr d i (v * s.smokeDecay)) s.density
  pure { s with density := d }

/-! ## The brush -/

/-- One store performed by `applyBrush`: `density[i] = v`, `velX[i] += v` or `velY[i] += v`. -/
inductive Store where
  | density (i : Int) (v : ℚ)
  | velXAdd (i : Int) (v : ℚ)
  | velYAdd (i : Int) (v : ℚ)
deriving DecidableEq

/-- Performs one store of the brush on the buffers. -/
def Store.run (t : Main) : Store → Option Main
  | .density i v => do
    let d ← wr t.density i v
    pure { t with density := d }
  | .velXAdd i v => do
    let old ← rd t.velX i
    let a ← wr t.velX i (old + v)
    pure { t with velX := a }
  | .velYAdd i v => do
    let old ← rd t.velY i
    let a ← wr t.velY i (old + v)
    pure { t with velY := a }

/-- Velocity increment `mouseVel?.c * brushStrength * 0.01 || 0` for one component `c` of the
pointer velocity: `0` when no pointer velocity is set (and when the product is `0`). -/
def brushIncrement (c : Option ℚ) (brushStrength : ℚ) : ℚ :=
  match c with
  | none => 0
  | some m => if m * brushStrength * 0.01 = 0 then 0 else m * brushStrength * 0.01

/-- Stores of one pass of the inner loop of `applyBrush`, for the offset `(x, y)` from the
brush cell `(gx, gy)`, in the order the source performs them; a pass that hits `continue`
performs none.  (The constant `strength` of the source is `1` on both branches and unused.) -/
def brushStores (s : Main) (gx gy y x : Int) : List Store :=
  let r2 := s.radius * s.radius
  if x * x + y * y > r2 then []
  else
    let px := gx + x
    let py := gy + y
    if px < 0 ∨ py < 0 ∨ px ≥ s.W ∨ py ≥ s.H then []
    else
      let idx := (py * s.W + px) * 4
      let vxIdx := py * ((s.W : Int) + 1) + px
      let vyIdx := py * s.W + px
      (if !s.mouseRight then
        [Store.density (idx + 0) s.brushColor.1, Store.density (idx + 1) s.brushColor.2.1,
          Store.density (idx + 2) s.brushColor.2.2.1, Store.density (idx + 3) s.brushColor.2.2.2]
      else []) ++
      [Store.velXAdd vxIdx (brushIncrement (s.mouseVel.map Prod.fst) s.brushStrength),
        Store.velYAdd vyIdx (brushIncrement (s.mouseVel.map Prod.snd) s.brushStrength)]

/-- Embedding of `applyBrush`: nothing happens unless the pointer is down and has a cell;
otherwise the square of offsets `-radius ..= radius` is scanned row by row and the stores of
each pass are performed on the buffers.  The brush parameters are not written by the loop,
so the stores of every pass are those listed by `brushStores` for the state on entry. -/
def applyBrush (s : Main) : Option Main :=
  if !s.mouseDown then some s
  else
    match s.gridCoord with
    | none => some s
    | some (gx, gy) =>
      forRange (-s.radius) (s.radius + 1) (fun y t =>
        forRange (-s.radius) (s.radius + 1) (fun x t =>
          (brushStores s gx gy y x).foldlM Store.run t) t) s

/-! ### The brush at a radius that is not an integer -/

/-- A subscript as an index of a typed array: a number that is not an integer is no index
(a read answers `undefined`, a store is dropped). -/
def asIndex (q : ℚ) : Option Int :=
  if (Int.floor q : ℚ) = q then some (Int.floor q) else none

/-- One store of `applyBrush` with the subscript as the source computes it, a number that
need not be an integer. -/
inductive SubscriptStore where
  | density (q : ℚ) (v : ℚ)
  | velXAdd (q : ℚ) (v : ℚ)
  | velYAdd (q : ℚ) (v : ℚ)
deriving DecidableEq

/-- Performs one store: the subscript must be an index, and an index inside the buffer. -/
def SubscriptStore.run (t : Main) : SubscriptStore → Option Main
  | .density q v => (asIndex q).bind (fun i => Store.run t (.density i v))
  | .velXAdd q v => (asIndex q).bind (fun i => Store.run t (.velXAdd i v))
  | .velYAdd q v => (asIndex q).bind (fun i => Store.run t (.velYAdd i v))

/-- Stores of one pass of the inner loop of `applyBrush` for a radius that need not be an
integer: the offsets `x`, `y` run over `-radius, -radius + 1, ...` and are rational, and so
are the cell coordinates and the subscripts computed from them. -/
def brushStoresAt (radius : ℚ) (s : Main) (gx gy : Int) (y x : ℚ) : List SubscriptStore :=
  let r2 := radius * radius
  if x * x + y * y > r2 then []
  else
    let px : ℚ := gx + x
    let py : ℚ := gy + y
    if px < 0 ∨ py < 0 ∨ px ≥ s.W ∨ py ≥ s.H then []
    else
      let idx := (py * s.W + px) * 4
      let vxIdx := py * ((s.W : ℚ) + 1) + px
      let vyIdx := py * s.W + px
      (if !s.mouseRight then
        [SubscriptStore.density (idx + 0) s.brushColor.1,
          SubscriptStore.density (idx + 1) s.brushColor.2.1,
          SubscriptStore.density (idx + 2) s.brushColor.2.2.1,
          SubscriptStore.density (idx + 3) s.brushColor.2.2.2]
      else []) ++
      [SubscriptStore.velXAdd vxIdx (brushIncrement (s.mouseVel.map Prod.fst) s.brushStrength),
        SubscriptStore.velYAdd vyIdx (brushIncrement (s.mouseVel.map Prod.snd) s.brushStrength)]

/-- Embedding of `applyBrush` for a radius that need not be an integer, as the wheel handler
can leave it: the loops `for (let y = -radius; y <= radius; y++)` make
`Math.floor(2 * radius) + 1` passes (none for a negative radius), pass `j` at the offset
`-radius + j`. -/
def applyBrushAt (radius : ℚ) (s : Main) : Option Main :=
  if !s.mouseDown then some s
  else
    match s.gridCoord with
    | none => some s
    | some (gx, gy) =>
      forRange 0 (Int.floor (2 * radius) + 1) (fun j t =>
        forRange 0 (Int.floor (2 * radius) + 1) (fun i t =>
          (brushStoresAt radius s gx gy (-radius + j) (-radius + i)).foldlM
            SubscriptStore.run t) t) s

/-- Embedding of the simulation part of `step` (the presentation call `renderGrid` is external). -/
def step (s : Main) : Option Main := do
  let s ← applyBrush s
  let s ← advectVelocity s
  let s ← advectDensity s
  let s ← computeDivergence s
  let s ← gaussSeidelPressure s
  let s ← subtractGradient s
  decayDensity s

/-! ## Image import -/

/-- An image as `loadImageToGrid` receives it: its size, and its pixels as RGBA bytes in
row-major order. -/
structure Image where
  width : Nat
  height : Nat
  data : List ℚ

/-- The canvas call `drawImage(img, sx, sy, sw, sh, dx, dy, dw, dh)` on a `W × H` canvas, as a
function from the RGBA bytes the canvas holds to the bytes it holds afterwards.  The call is
the browser's, so `loadImageToGrid` takes it as a parameter. -/
abbrev DrawImage : Type :=
  Nat → Nat → Image → ℚ → ℚ → ℚ → ℚ → ℚ → ℚ → ℚ → ℚ → List ℚ → List ℚ

/-- The integer nearest to `x`, the even one of the two when `x` lies halfway. -/
def roundHalfEven (x : ℚ) : Int :=
  if x - Int.floor x < 1 / 2 then Int.floor x
  else if 1 / 2 < x - Int.floor x then Int.floor x + 1
  else if Int.floor x % 2 = 0 then Int.floor x
  else Int.floor x + 1

/-- The rounding that every arithmetic operation on JavaScript numbers ends with: the nearest
double, ties to even.  A double with `2 ^ e ≤ |q| < 2 ^ (e + 1)` is a multiple of
`2 ^ (e - 52)`.  The exponent is not bounded here: overflow and subnormal numbers are left
out, the magnitudes that `loadImageToGrid` meets being far from both. -/
def roundDouble (q : ℚ) : ℚ :=
  if q = 0 then 0
  else roundHalfEven (q / 2 ^ (Int.log 2 |q| - 52)) * 2 ^ (Int.log 2 |q| - 52)

/-- The `scale` of `loadImageToGrid`: `Math.min(W / img.width, H / img.height)`, each quotient
rounded to a double.  A quotient by zero is `Infinity` in the source (`W, H ≥ 1`), which
`Math.min` drops in favour of the other quotient.  With both sides of the image zero the
source has `Infinity` here and `NaN` for the products and offsets; that case is not
represented (the value is `0`), and `drawImage` paints nothing in it. -/
def imageScale (W H : Nat) (img : Image) : ℚ :=
  if img.width = 0 then roundDouble ((H : ℚ) / img.height)
  else if img.height = 0 then roundDouble ((W : ℚ) / img.width)
  else min (roundDouble ((W : ℚ) / img.width)) (roundDouble ((H : ℚ) / img.height))

/-- The product `img.width * scale` of `loadImageToGrid`, the width of the destination
rectangle. -/
def imageDrawW (W H : Nat) (img : Image) : ℚ :=
  roundDouble (img.width * imageScale W H img)

/-- The product `img.height * scale` of `loadImageToGrid`, the height of the destination
rectangle. -/
def imageDrawH (W H : Nat) (img : Image) : ℚ :=
  roundDouble (img.height * imageScale W H img)

/-- The `offX` of `loadImageToGrid`: `Math.floor((W - img.width * scale) / 2)`, the difference
and the half each rounded to a double. -/
def imageOffX (W H : Nat) (img : Image) : Int :=
  Int.floor (roundDouble (roundDouble ((W : ℚ) - imageDrawW W H img) / 2))

/-- The `offY` of `loadImageToGrid`: `Math.floor((H - img.height * scale) / 2)`. -/
def imageOffY (W H : Nat) (img : Image) : Int :=
  Int.floor (roundDouble (roundDouble ((H : ℚ) - imageDrawH W H img) / 2))

/-- The temporary canvas after `fillStyle = 'black'; fillRect(0, 0, W, H)`: every pixel is
opaque black, the bytes `0, 0, 0, 255`. -/
def blackCanvas (W H : Nat) : List ℚ :=
  (List.range (W * H * 4)).map (fun (n : Nat) => if n % 4 = 3 then 255 else 0)

/-- Body of the loop nest of `loadImageToGrid` for the cell `(x, y)`. -/
def loadImageCell (data : List ℚ) (W : Int) (y x : Int) (d : List ℚ) : Option (List ℚ) := do
  let idx := (y * W + x) * 4
  let r ← rd data (idx + 0)
  let d ← wr d (idx + 0) (r / 255)
  let g ← rd data (idx + 1)
  let d ← wr d (idx + 1) (g / 255)
  let b ← rd data (idx + 2)
  let d ← wr d (idx + 2) (b / 255)
  let a ← rd data (idx + 3)
  wr d (idx + 3) (a / 255)

/-- Embedding of `loadImageToGrid`: the image is drawn, scaled to fit, on a black canvas of
the size of the grid, and the bytes of the canvas, divided by 255, overwrite the density.
The scale, the products and the offsets are computed in double arithmetic (`roundDouble`);
the bytes of the canvas are integers below 256, whose quotients by 255 the density buffer
holds as exact rationals. -/
def loadImageToGrid (drawImage : DrawImage) (s : Main) (img : Image) : Option Main := do
  let W : Int := s.W
  let H : Int := s.H
  let offX := imageOffX s.W s.H img
  let offY := imageOffY s.W s.H img
  let tmp := blackCanvas s.W s.H
  let data := drawImage s.W s.H img 0 0 img.width img.height offX offY
    (imageDrawW s.W s.H img) (imageDrawH s.W s.H img) tmp
  let d ← forRange 0 H (fun y d => forRange 0 W (fun x d => loadImageCell data W y x d) d)
    s.density
  pure { s with density := d }

/-! ## Shader sources: `ShaderUtils.js` -/

/-- The line terminators of the regular-expression grammar: what the `m` flag lets `^` follow
and what `.` does not match. -/
def isLineTerminator (c : Char) : Bool :=
  c.toNat = 0x0A || c.toNat = 0x0D || c.toNat = 0x2028 || c.toNat = 0x2029

/-- The characters that `\s` matches: white space and the line terminators. -/
def isWhiteSpace (c : Char) : Bool :=
  isLineTerminator c || c.toNat = 0x09 || c.toNat = 0x0B || c.toNat = 0x0C || c.toNat = 0x20
    || c.toNat = 0xA0 || c.toNat = 0x1680 || (0x2000 ≤ c.toNat && c.toNat ≤ 0x200A)
    || c.toNat = 0x202F || c.toNat = 0x205F || c.toNat = 0x3000 || c.toNat = 0xFEFF

/-- The rest of `(.+?)"` after its first character: the shortest run of characters other than
line terminators that a quote follows.  Yields the run. -/
def lazyBody : List Char → Option (List Char)
  | [] => none
  | c :: t =>
    if c = '"' then some []
    else if isLineTerminator c then none
    else (lazyBody t).map (fun r => c :: r)

/-- One result of `includeRegex.exec`: `match[0]`, `match[1]`, and the `lastIndex` the
regular expression keeps afterwards (the index just past the match). -/
structure RegexMatch where
  index : Nat
  whole : List Char
  group : List Char
  lastIndex : Nat
deriving DecidableEq

/-- The pattern `#include\s+"(.+?)"` tried at one position, `rest` being the text from that
position on: `#include`, all the white space that follows (at least one character), a quote,
one character that is not a line terminator, and `lazyBody`.  Yields `match[0]` and
`match[1]`. -/
def matchDirective (rest : List Char) : Option (List Char × List Char) :=
  let kw := "#include".toList
  if kw.isPrefixOf rest then
    let r1 := rest.drop kw.length
    let ws := r1.takeWhile isWhiteSpace
    match r1.dropWhile isWhiteSpace with
    | q :: c :: r2 =>
      if ws ≠ [] ∧ q = '"' ∧ isLineTerminator c = false then
        (lazyBody r2).map (fun r => (kw ++ ws ++ q :: c :: r ++ ['"'], c :: r))
      else none
    | _ => none
  else none

/-- The search of `exec` under the flags `g` and `m`: positions are tried from left to right;
a position qualifies when it is not before `lastIndex` and is at the start of a line. -/
def regexScan (lastIndex : Nat) : Nat → Bool → List Char → Option RegexMatch
  | i, lineStart, rest =>
    let here :=
      if lastIndex ≤ i ∧ lineStart = true then
        (matchDirective rest).map (fun m => (⟨i, m.1, m.2, i + m.1.length⟩ : RegexMatch))
      else none
    match here with
    | some m => some m
    | none =>
      match rest with
      | [] => none
      | c :: t => regexScan lastIndex (i + 1) (isLineTerminator c) t

/-- The call `includeRegex.exec(shaderCode)` with the regular expression
`/^#include\s+"(.+?)"/gm` at the given `lastIndex`; `none` is the answer `null`, after which
`lastIndex` is 0 again. -/
def regexExec (shaderCode : List Char) (lastIndex : Nat) : Option RegexMatch :=
  regexScan lastIndex 0 true shaderCode

/-- The replacement text of `String.prototype.replace` for a string pattern: in the
replacement, `$$` stands for `$`, `$&` for the matched text, `$` with a backtick for the text
before the match and `$` with an apostrophe for the text after it. -/
def getSubstitution (matched before after : List Char) : List Char → List Char
  | [] => []
  | [c] => [c]
  | c :: d :: t =>
    if c = '$' then
      if d = '$' then '$' :: getSubstitution matched before after t
      else if d = '&' then matched ++ getSubstitution matched before after t
      else if d.toNat = 0x60 then before ++ getSubstitution matched before after t
      else if d.toNat = 0x27 then after ++ getSubstitution matched before after t
      else c :: d :: getSubstitution matched before after t
    else c :: getSubstitution matched before after (d :: t)

/-- The search of `replace` for the first occurrence of the pattern, `before` being the text
already passed. -/
def replaceFrom (pattern replacement : List Char) : List Char → List Char → List Char
  | before, rest =>
    if pattern.isPrefixOf rest then
      before ++ getSubstitution pattern before (rest.drop pattern.length) replacement
        ++ rest.drop pattern.length
    else
      match rest with
      | [] => before
      | c :: t => replaceFrom pattern replacement (before ++ [c]) t

/-- The call `str.replace(pattern, replacement)` with a string pattern: the first occurrence
of the pattern, wherever it is, gives way to the replacement text. -/
def replace (str pattern replacement : List Char) : List Char :=
  replaceFrom pattern replacement [] str

/-- The call `str.lastIndexOf(c)`: the last position of `c`, or `-1`. -/
def lastIndexOf (c : Char) (str : List Char) : Int :=
  match (str.reverse.indexOf? c) with
  | some k => (str.length : Int) - 1 - k
  | none => -1

/-- The call `str.substring(a, b)`: both ends clamped to the string, and swapped when out of
order. -/
def substring (str : List Char) (a b : Int) : List Char :=
  let a := min (max a 0).toNat str.length
  let b := min (max b 0).toNat str.length
  (str.drop (min a b)).take (max a b - min a b)

/-- Embedding of `fetchShader`.  The network is the parameter `fetch`, which answers a URL
with the text of an `ok` response or with nothing; the error carries the message. -/
def fetchShader (fetch : List Char → Option (List Char)) (url : List Char) :
    Except (List Char) (List Char) :=
  match fetch url with
  | some text => .ok text
  | none => .error ("Failed to load shader: ".toList ++ url)

/-- The `while` loop of `include`, with the `lastIndex` of `includeRegex` made explicit.
`fuel` bounds the number of evaluations of the loop condition; `none` is a loop that has not
finished within it. -/
def ShaderUtils.includeLoop (fetch : List Char → Option (List Char)) (basePath : List Char) :
    Nat → List Char → Nat → Option (Except (List Char) (List Char))
  | 0, _, _ => none
  | fuel + 1, shaderCode, lastIndex =>
    match regexExec shaderCode lastIndex with
    | none => some (.ok shaderCode)
    | some m =>
      let includeFile := m.group
      let includeUrl := basePath ++ '/' :: includeFile
      match fetchShader fetch includeUrl with
      | .ok includeContent =>
        ShaderUtils.includeLoop fetch basePath fuel (replace shaderCode m.whole includeContent)
          m.lastIndex
      | .error message =>
        some (.error ("Failed to include file: ".toList ++ includeFile ++ " - ".toList ++ message))

/-- Embedding of `include`. -/
def ShaderUtils.include (fetch : List Char → Option (List Char)) (fuel : Nat)
    (shaderPath : List Char) : Option (Except (List Char) (List Char)) :=
  match fetchShader fetch shaderPath with
  | .error message => some (.error message)
  | .ok shaderCode =>
    let basePath := substring shaderPath 0 (lastIndexOf '/' shaderPath)
    ShaderUtils.includeLoop fetch basePath fuel shaderCode 0

/-! ## Statement-side vocabulary -/

/-- The buffer `a'` is `a` with exactly the entries in `I` rewritten, entry `j` to `val j`. -/
def Upd (a a' : List ℚ) (I : Int → Prop) (val : Int → ℚ) : Prop :=
  a'.length = a.length ∧ ∀ j, (I j → peek a' j = val j) ∧ (¬ I j → peek a' j = peek a j)

/-- Value that `advectDensity` stores for channel `k` of cell `(x, y)`, written with total reads. -/
def densitySample (s : Main) (y x k : Int) : ℚ :=
  let W : Int := s.W
  let H : Int := s.H
  let u : ℚ := x - peek s.velX (y * (W + 1) + x) * s.timestep
  let v : ℚ := y - peek s.velY (y * W + x) * s.timestep
  let u := max 0 (min ((W : ℚ) - 1) u)
  let v := max 0 (min ((H : ℚ) - 1) v)
  let i0 := Int.floor u
  let j0 := Int.floor v
  let i1 := min (i0 + 1) (W - 1)
  let j1 := min (j0 + 1) (H - 1)
  let s1 := u - i0
  let s0 := 1 - s1
  let t1 := v - j0
  let t0 := 1 - t1
  s0 * (t0 * peek s.density ((j0 * W + i0) * 4 + k) + t1 * peek s.density ((j1 * W + i0) * 4 + k)) +
    s1 * (t0 * peek s.density ((j0 * W + i1) * 4 + k) + t1 * peek s.density ((j1 * W + i1) * 4 + k))

/-- Value that `advectVelocity` stores for the horizontal face `(x, y)`, written with total reads. -/
def velXSample (s : Main) (y x : Int) : ℚ :=
  let W : Int := s.W
  let H : Int := s.H
  let px : ℚ := x - peek s.velX (y * (W + 1) + x) * s.timestep
  let py : ℚ := y - peek s.velY (y * W + min x (W - 1)) * s.timestep
  let px := max 0 (min (W : ℚ) px)
  let py := max 0 (min ((H : ℚ) - 1) py)
  let i0 := Int.floor px
  let j0 := Int.floor py
  let i1 := min (i0 + 1) W
  let j1 := min (j0 + 1) (H - 1)
  let sx := px - i0
  let sy := py - j0
  (1 - sx) * ((1 - sy) * peek s.velX (j0 * (W + 1) + i0) + sy * peek s.velX (j1 * (W + 1) + i0)) +
    sx * ((1 - sy) * peek s.velX (j0 * (W + 1) + i1) + sy * peek s.velX (j1 * (W + 1) + i1))

/-- Value that `advectVelocity` stores for the vertical face `(x, y)`, written with total reads. -/
def velYSample (s : Main) (y x : Int) : ℚ :=
  let W : Int := s.W
  let H : Int := s.H
  let px : ℚ := x - peek s.velX (min y (H - 1) * (W + 1) + x) * s.timestep
  let py : ℚ := y - peek s.velY (y * W + x) * s.timestep
  let px := max 0 (min ((W : ℚ) - 1) px)
  let py := max 0 (min (H : ℚ) py)
  let i0 := Int.floor px
  let j0 := Int.floor py
  let i1 := min (i0 + 1) (W - 1)
  let j1 := min (j0 + 1) H
  let sx := px - i0
  let sy := py - j0
  (1 - sx) * ((1 - sy) * peek s.velY (j0 * W + i0) + sy * peek s.velY (j1 * W + i0)) +
    sx * ((1 - sy) * peek s.velY (j0 * W + i1) + sy * peek s.velY (j1 * W + i1))

/-- Discrete divergence of the velocity buffers at cell `(x, y)`, the value `computeDivergence` stores. -/
def divAt (velX velY : List ℚ) (W : Int) (cellSize : ℚ) (y x : Int) : ℚ :=
  (peek velX (y * (W + 1) + x + 1) - peek velX (y * (W + 1) + x) +
    peek velY ((y + 1) * W + x) - peek velY (y * W + x)) / cellSize

/-- Result of `n` successive calls of `decayDensity`. -/
def decayDensityN : Nat → Main → Option Main
  | 0, s => some s
  | n + 1, s => (decayDensityN n s).bind decayDensity

/-- The offset `(x, y)` from the brush cell is inside the circular mask and lands on a grid cell:
the passes of `applyBrush` that do not `continue`. -/
def brushActive (s : Main) (gx gy y x : Int) : Prop :=
  x * x + y * y ≤ s.radius * s.radius ∧ 0 ≤ gx + x ∧ gx + x < s.W ∧ 0 ≤ gy + y ∧ gy + y < s.H

/-- Entry `k` of a colour `[r, g, b, a]`. -/
def chan (c : ℚ × ℚ × ℚ × ℚ) (k : Int) : ℚ :=
  if k = 0 then c.1 else if k = 1 then c.2.1 else if k = 2 then c.2.2.1 else c.2.2.2

/-- The state `t` differs from `s` at most in the contents of the three buffers the brush writes. -/
def BrushReach (s t : Main) : Prop :=
  ∃ d vx vy, t = { s with density := d, velX := vx, velY := vy } ∧
    d.length = s.density.length ∧ vx.length = s.velX.length ∧ vy.length = s.velY.length

/-- Cell class of a store: it addresses cell `(px, py)` of its buffer, at an index of that buffer. -/
def Store.inCell (s : Main) (px py : Int) : Store → Prop
  | .density i _ =>
    (∃ k : Int, 0 ≤ k ∧ k < 4 ∧ i = (py * s.W + px) * 4 + k) ∧ 0 ≤ i ∧ i < s.density.length
  | .velXAdd i _ => i = py * ((s.W : Int) + 1) + px ∧ 0 ≤ i ∧ i < s.velX.length
  | .velYAdd i _ => i = py * s.W + px ∧ 0 ≤ i ∧ i < s.velY.length

/-- The circular mask of the brush: cell `(px, py)` is within `radius` of the brush cell. -/
def inMask (s : Main) (gx gy px py : Int) : Prop :=
  (px - gx) ^ 2 + (py - gy) ^ 2 ≤ s.radius ^ 2

/-- Velocity increment of the brush as the specification words it:
`pointerVelocity.component * brushStrength * 0.01`, and zero without a pointer velocity. -/
def impulse (mouseVel : Option (ℚ × ℚ)) (brushStrength : ℚ) : ℚ × ℚ :=
  match mouseVel with
  | some (mx, my) => (mx * brushStrength * 0.01, my * brushStrength * 0.01)
  | none => (0, 0)

/-- Interior cells of the grid, the range `1 ≤ x < W - 1`, `1 ≤ y < H - 1` of the relaxation loops. -/
def interior (W H y x : Int) : Prop :=
  1 ≤ x ∧ x < W - 1 ∧ 1 ≤ y ∧ y < H - 1

/-- Interior cells that a sweep has already updated when it is about to update cell `(x0, y0)`. -/
def sweptBefore (W H y0 x0 y x : Int) : Prop :=
  interior W H y x ∧ (y < y0 ∨ (y = y0 ∧ x < x0))

/-- Progress of one sweep from `p` to `q` when it is about to update cell `(x0, y0)`: cells not
yet reached hold their old value, and each cell already updated satisfies the relaxation
equation with its left and bottom neighbours read from `q` and its right and top neighbours
from `p`. -/
def SweepInv (W H : Int) (div p : List ℚ) (y0 x0 : Int) (q : List ℚ) : Prop :=
  q.length = p.length ∧
  (∀ j, (¬ ∃ y x, sweptBefore W H y0 x0 y x ∧ j = y * W + x) → peek q j = peek p j) ∧
  (∀ y x, sweptBefore W H y0 x0 y x →
    peek q (y * W + x) = (peek q (y * W + x - 1) + peek p (y * W + x + 1) +
      peek q (y * W + x - W) + peek p (y * W + x + W) - peek div (y * W + x)) / 4)

/-- Result `q` of one whole sweep over `p`: the border is untouched and every interior cell
satisfies the relaxation equation in Gauss-Seidel order. -/
def SweepRel (W H : Int) (div p q : List ℚ) : Prop :=
  q.length = p.length ∧
  (∀ j, (¬ ∃ y x, interior W H y x ∧ j = y * W + x) → peek q j = peek p j) ∧
  (∀ y x, interior W H y x →
    peek q (y * W + x) = (peek q (y * W + x - 1) + peek p (y * W + x + 1) +
      peek q (y * W + x - W) + peek p (y * W + x + W) - peek div (y * W + x)) / 4)

/-- Result of `n` successive sweeps. -/
def sweepN (W H : Int) (div : List ℚ) : Nat → List ℚ → Option (List ℚ)
  | 0, p => some p
  | n + 1, p => (sweepN W H div n p).bind (gaussSeidelSweep W H div)

/-- Integer part of a backtrace coordinate after clamping to `[0, hi]`:
`Math.floor(Math.max(0, Math.min(hi, u)))`. -/
def clampFloor (hi u : ℚ) : Int :=
  Int.floor (max 0 (min hi u))

/-- The index `i` lies inside the buffer `a`. -/
def InBuf (a : List ℚ) (i : Int) : Prop :=
  0 ≤ i ∧ i < a.length

/-- The projection stage of `step`: the three consecutive calls `computeDivergence`,
`gaussSeidelPressure`, `subtractGradient`. -/
def project (s : Main) : Option Main := do
  let s ← computeDivergence s
  let s ← gaussSeidelPressure s
  subtractGradient s

/-- The interior cells `(y, x)` of the grid as a finite set. -/
def interiorCells (W H : Int) : Finset (Int × Int) :=
  Finset.Ico 1 (H - 1) ×ˢ Finset.Ico 1 (W - 1)

/-- Mean absolute divergence of the velocity field over the interior cells. -/
def meanAbsInteriorDiv (s : Main) : ℚ :=
  (∑ c in interiorCells s.W s.H, |divAt s.velX s.velY s.W s.cellSize c.1 c.2|) /
    (interiorCells s.W s.H).card

/-- Residual of the relaxation equation at cell `(x, y)`: the 5-point Laplacian of the pressure
minus the divergence.  It vanishes exactly when the cell satisfies `4 p = neighbours - div`. -/
def residual (W : Int) (div p : List ℚ) (y x : Int) : ℚ :=
  peek p (y * W + x - 1) + peek p (y * W + x + 1) + peek p (y * W + x - W) +
    peek p (y * W + x + W) - 4 * peek p (y * W + x) - peek div (y * W + x)

/-- Sum of the absolute residuals over the interior cells. -/
def residualSum (W H : Int) (div p : List ℚ) : ℚ :=
  ∑ c in interiorCells W H, |residual W div p c.1 c.2|

/-- The 5-point Laplacian of the pressure at cell `(x, y)`. -/
def laplacian (W : Int) (p : List ℚ) (y x : Int) : ℚ :=
  peek p (y * W + x - 1) + peek p (y * W + x + 1) + peek p (y * W + x - W) +
    peek p (y * W + x + W) - 4 * peek p (y * W + x)

/-- Clamped backtrace source position `(u, v)` of density cell `(x, y)` in `advectDensity`. -/
def densitySrc (s : Main) (y x : Int) : ℚ × ℚ :=
  let W : Int := s.W
  let H : Int := s.H
  let u : ℚ := x - peek s.velX (y * (W + 1) + x) * s.timestep
  let v : ℚ := y - peek s.velY (y * W + x) * s.timestep
  (max 0 (min ((W : ℚ) - 1) u), max 0 (min ((H : ℚ) - 1) v))

/-- Clamped backtrace source position `(px, py)` of the horizontal face `(x, y)` in `advectVelocity`. -/
def velXSrc (s : Main) (y x : Int) : ℚ × ℚ :=
  let W : Int := s.W
  let H : Int := s.H
  let px : ℚ := x - peek s.velX (y * (W + 1) + x) * s.timestep
  let py : ℚ := y - peek s.velY (y * W + min x (W - 1)) * s.timestep
  (max 0 (min (W : ℚ) px), max 0 (min ((H : ℚ) - 1) py))

/-- Clamped backtrace source position `(px, py)` of the vertical face `(x, y)` in `advectVelocity`. -/
def velYSrc (s : Main) (y x : Int) : ℚ × ℚ :=
  let W : Int := s.W
  let H : Int := s.H
  let px : ℚ := x - peek s.velX (min y (H - 1) * (W + 1) + x) * s.timestep
  let py : ℚ := y - peek s.velY (y * W + x) * s.timestep
  (max 0 (min ((W : ℚ) - 1) px), max 0 (min (H : ℚ) py))

/-- Every entry of the buffer lies in `[0, 1]`. -/
def In01 (a : List ℚ) : Prop :=
  ∀ v ∈ a, 0 ≤ v ∧ v ≤ 1

/-- What `loadImageToGrid` relies on from the canvas: `drawImage` keeps the size of the
canvas, paints nothing when the source rectangle is empty, and leaves alone every pixel whose
unit square does not meet the destination rectangle `[dx, dx + dw) × [dy, dy + dh)`. -/
structure CanvasLaws (drawImage : DrawImage) : Prop where
  length : ∀ (W H : Nat) (img : Image) (sx sy sw sh dx dy dw dh : ℚ) (r : List ℚ),
    r.length = W * H * 4 → (drawImage W H img sx sy sw sh dx dy dw dh r).length = W * H * 4
  empty : ∀ (W H : Nat) (img : Image) (sx sy sw sh dx dy dw dh : ℚ) (r : List ℚ),
    sw = 0 ∨ sh = 0 → drawImage W H img sx sy sw sh dx dy dw dh r = r
  outside : ∀ (W H : Nat) (img : Image) (sx sy sw sh dx dy dw dh : ℚ) (r : List ℚ)
    (y x k : Int), 0 ≤ dw → 0 ≤ dh → 0 ≤ y → y < H → 0 ≤ x → x < W → 0 ≤ k → k < 4 →
    ((x : ℚ) + 1 ≤ dx ∨ dx + dw ≤ x ∨ (y : ℚ) + 1 ≤ dy ∨ dy + dh ≤ y) →
    peek (drawImage W H img sx sy sw sh dx dy dw dh r) ((y * W + x) * 4 + k)
      = peek r ((y * W + x) * 4 + k)

/-- The double arithmetic of the scale and offsets of `loadImageToGrid` incurs no rounding on
this input: the scale is the exact minimum of the two quotients, the two products are exact,
and so are the two differences. -/
def ExactFit (W H : Nat) (img : Image) : Prop :=
  imageScale W H img = min ((W : ℚ) / img.width) ((H : ℚ) / img.height) ∧
  imageDrawW W H img = img.width * imageScale W H img ∧
  imageDrawH W H img = img.height * imageScale W H img ∧
  roundDouble ((W : ℚ) - imageDrawW W H img) = W - imageDrawW W H img ∧
  roundDouble ((H : ℚ) - imageDrawH W H img) = H - imageDrawH W H img

/-- All stores of the scan of `applyBrushAt`, in the order of the passes. -/
def brushScanAt (radius : ℚ) (s : Main) (gx gy : Int) : List SubscriptStore :=
  (List.range (Int.floor (2 * radius) + 1).toNat).flatMap (fun (j : Nat) =>
    (List.range (Int.floor (2 * radius) + 1).toNat).flatMap (fun (i : Nat) =>
      brushStoresAt radius s gx gy (-radius + (j : Int)) (-radius + (i : Int))))

/-- The store with its index read as a subscript. -/
def Store.toSubscript : Store → SubscriptStore
  | .density i v => .density i v
  | .velXAdd i v => .velXAdd i v
  | .velYAdd i v => .velYAdd i v

/-! ## Concrete states -/

/-- A `2 × 1` grid at rest carrying some smoke. -/
def restDemo : Main where
  W := 2
  H := 1
  cellSize := 1
  timestep := 0.016
  smokeDecay := 0.995
  gsIterations := 40
  mouseDown := false
  mouseRight := false
  gridCoord := none
  mouseVel := none
  radius := 8
  brushStrength := 200
  brushColor := (1, 0.6, 0.2, 1)
  velX := [0, 0, 0]
  velY := [0, 0, 0, 0]
  density := [1, 2, 3, 4, 5, 6, 7, 8]
  pressure := [0, 0]
  divergence := [0, 0]

/-- The scenario of the specification: a `4 × 4` grid with all fields zero, the pointer down
(primary action) at cell `(2, 2)` with velocity `(1, 0)`, radius `1` and strength `200`. -/
def brushDemo : Main where
  W := 4
  H := 4
  cellSize := 1
  timestep := 0.016
  smokeDecay := 0.995
  gsIterations := 40
  mouseDown := true
  mouseRight := false
  gridCoord := some (2, 2)
  mouseVel := some (1, 0)
  radius := 1
  brushStrength := 200
  brushColor := (1, 0.6, 0.2, 1)
  velX := List.replicate 20 0
  velY := List.replicate 20 0
  density := List.replicate 64 0
  pressure := List.replicate 16 0
  divergence := List.replicate 16 0

/-- A `2 × 2` grid under a brush of radius `5`, larger than the grid. -/
def wideBrushDemo : Main :=
  { brushDemo with
    W := 2
    H := 2
    gridCoord := some (0, 1)
    radius := 5
    velX := List.replicate 6 0
    velY := List.replicate 6 0
    density := List.replicate 16 0
    pressure := List.replicate 4 0
    divergence := List.replicate 4 0 }

/-- A `2 × 1` grid at rest whose pressure buffer still holds a gradient from earlier frames,
with the relaxation switched off (`gsIterations = 0`). -/
def pressDemo : Main :=
  { restDemo with
    gsIterations := 0
    pressure := [0, 1] }

/-- A `3 × 3` grid, one interior cell, set up for a single relaxation sweep. -/
def sweepDemo : Main :=
  { restDemo with
    W := 3
    H := 3
    gsIterations := 1
    velX := List.replicate 12 0
    velY := List.replicate 12 0
    density := List.replicate 36 0
    pressure := [1, 2, 3, 4, 5, 6, 7, 8, 9]
    divergence := [0, 0, 0, 0, 8, 0, 0, 0, 0] }

/-- A `4 × 3` grid with two adjacent interior cells, `(1, 1)` and `(2, 1)`, pairwise different
pressures `1 .. 12`, divergence `4` and `3` at the interior cells, one sweep per frame. -/
def pairDemo : Main :=
  { restDemo with
    W := 4
    H := 3
    gsIterations := 1
    velX := List.replicate 15 0
    velY := List.replicate 16 0
    density := List.replicate 48 0
    pressure := [1, 2, 3, 4, 5, 6, 7, 8, 9, 10, 11, 12]
    divergence := [0, 0, 0, 0, 0, 4, 3, 0, 0, 0, 0, 0] }

/-- A `3 × 3` grid with a swirl of velocities and a coarse timestep. -/
def flowDemo : Main :=
  { restDemo with
    W := 3
    H := 3
    timestep := 1 / 2
    gsIterations := 2
    velX := [0, 1, 2, 0, 0, 1, 3, 0, 0, 0, 0, 0]
    velY := [0, 0, 0, 1, 2, 1, 0, 0, 0, 0, 0, 0]
    density := List.replicate 36 1
    pressure := List.replicate 9 0
    divergence := List.replicate 9 0 }

/-- A `3 × 3` grid at rest: zero velocity, zero pressure, one sweep per frame. -/
def stillDemo : Main :=
  { restDemo with
    W := 3
    H := 3
    gsIterations := 1
    velX := List.replicate 12 0
    velY := List.replicate 12 0
    density := List.replicate 36 0
    pressure := List.replicate 9 0
    divergence := List.replicate 9 0 }

/-- A `3 × 3` grid whose single interior cell has divergence `2`, pressure zero, two sweeps. -/
def divDemo : Main :=
  { flowDemo with
    velX := [0, 1, 2, 0, 0, 1, 5, 0, 0, 0, 0, 0] }

/-- The swirl of `flowDemo` over a density buffer with pairwise different entries `0 .. 35`. -/
def shiftDemo : Main :=
  { flowDemo with
    density := [0, 1, 2, 3, 4, 5, 6, 7, 8, 9, 10, 11, 12, 13, 14, 15, 16, 17, 18, 19, 20, 21, 22,
      23, 24, 25, 26, 27, 28, 29, 30, 31, 32, 33, 34, 35] }

/-- The grid of `divDemo` with a pressure that satisfies the relaxation equation at the centre:
`-1/2 = (0 + 0 + 0 + 0 - 2) / 4`. -/
def fixedDemo : Main :=
  { divDemo with
    pressure := [0, 0, 0, 0, -1 / 2, 0, 0, 0, 0] }

/-- A reference painter: nearest-neighbour sampling of the source rectangle into the
destination rectangle, pixels outside the destination rectangle kept. -/
def paintNearest : DrawImage := fun W H img sx sy sw sh dx dy dw dh r =>
  if sw = 0 ∨ sh = 0 then r
  else (List.range (W * H * 4)).map (fun (n : Nat) =>
    let x : Int := (n : Int) / 4 % W
    let y : Int := (n : Int) / 4 / W
    if dx ≤ x ∧ (x : ℚ) < dx + dw ∧ dy ≤ y ∧ (y : ℚ) < dy + dh then
      peek img.data ((Int.floor (sy + (y - dy) * sh / dh) * img.width
        + Int.floor (sx + (x - dx) * sw / dw)) * 4 + (n : Int) % 4)
    else peek r n)

/-- A `2 × 2` grid whose density is `1/2` in every channel of every cell. -/
def loadDemo : Main :=
  { restDemo with
    W := 2
    H := 2
    velX := List.replicate 6 0
    velY := List.replicate 6 0
    pressure := List.replicate 4 0
    divergence := List.replicate 4 0
    density := List.replicate 16 (1 / 2) }

/-- A `2 × 2` image, every pixel opaque red. -/
def redImage : Image :=
  { width := 2
    height := 2
    data := [255, 0, 0, 255, 255, 0, 0, 255, 255, 0, 0, 255, 255, 0, 0, 255] }

/-- A `1 × 2` image, both pixels opaque red. -/
def stripImage : Image :=
  { width := 1
    height := 2
    data := [255, 0, 0, 255, 255, 0, 0, 255] }

/-- A `5 × 8` image, every pixel opaque white. -/
def tallImage : Image :=
  { width := 5
    height := 8
    data := List.replicate 160 255 }

/-- A `1 × 187` image, every pixel opaque white. -/
def ribbonImage : Image :=
  { width := 1
    height := 187
    data := List.replicate 748 255 }

/-- An image of width zero. -/
def emptyImage : Image :=
  { width := 0
    height := 2
    data := [] }

/-- A shader directory: a main file with two directives, and the two files they name. -/
def shaderFiles (url : List Char) : Option (List Char) :=
  if url = "shaders/main.wgsl".toList then
    some "#include \"a.wgsl\"\n#include \"b.wgsl\"\n".toList
  else if url = "shaders/a.wgsl".toList then some "const N = 4;".toList
  else if url = "shaders/b.wgsl".toList then some "const M = 8;".toList
  else none

/-- The same directory with included files longer than the directives that name them. -/
def shaderFilesLong (url : List Char) : Option (List Char) :=
  if url = "shaders/main.wgsl".toList then
    some "#include \"a.wgsl\"\n#include \"b.wgsl\"\n".toList
  else if url = "shaders/a.wgsl".toList then some "const N : u32 = 4u; // cells".toList
  else if url = "shaders/b.wgsl".toList then some "const M : u32 = 8u; // sweeps".toList
  else none

/-! ## Basic facts about buffers and loops -/

theorem rd_eq_some (a : List ℚ) (i : Int) (h0 : 0 ≤ i) (h1 : i < a.length) :
    rd a i = some (peek a i) := by
  have h : i.toNat < a.length := by omega
  simp [peek, rd, h0, List.getElem?_eq_getElem h]

theorem peek_of_not_mem (a : List ℚ) (i : Int) (h : ¬ (0 ≤ i ∧ i < a.length)) : peek a i = 0 := by
  unfold peek rd
  split
  · rename_i h0
    have : a.length ≤ i.toNat := by omega
    simp [List.getElem?_eq_none this]
  · rfl

theorem wr_eq_some (a : List ℚ) (i : Int) (v : ℚ) (h0 : 0 ≤ i) (h1 : i < a.length) :
    wr a i v = some (a.set i.toNat v) := by
  have h : i.toNat < a.length := by omega
  simp [wr, h0, h]

theorem peek_set (a : List ℚ) (i j : Int) (v : ℚ) (h0 : 0 ≤ i) (h1 : i < a.length) :
    peek (a.set i.toNat v) j = if j = i then v else peek a j := by
  have h : i.toNat < a.length := by omega
  unfold peek rd
  by_cases hj : 0 ≤ j
  · by_cases hji : j = i
    · subst hji
      simp [hj, h]
    · have hne : i.toNat ≠ j.toNat := by omega
      simp [hj, hji, List.getElem?_set_ne hne]
  · have hji : j ≠ i := by omega
    simp [hj, hji]

theorem forRange_ge {σ : Type} (lo hi : Int) (body : Int → σ → Option σ) (s : σ) (h : hi ≤ lo) :
    forRange lo hi body s = some s := by
  have : (hi - lo).toNat = 0 := by omega
  simp [forRange, this]

theorem forRange_succ {σ : Type} (lo hi : Int) (body : Int → σ → Option σ) (s : σ) (h : lo ≤ hi) :
    forRange lo (hi + 1) body s = (forRange lo hi body s).bind (body hi) := by
  have h1 : (hi + 1 - lo).toNat = (hi - lo).toNat + 1 := by omega
  have h2 : lo + ((hi - lo).toNat : Int) = hi := by omega
  simp only [forRange, h1, List.range_succ, List.foldlM_append, List.foldlM_cons, List.foldlM_nil,
    h2, bind_pure]
  rfl

/-- Invariant rule for a counting loop: an invariant that every pass re-establishes
(each pass returning) holds of the state the loop returns. -/
theorem forRange_inv {σ : Type} (Inv : Int → σ → Prop) (lo hi : Int) (body : Int → σ → Option σ)
    (s : σ) (hle : lo ≤ hi) (h0 : Inv lo s)
    (hstep : ∀ i t, lo ≤ i → i < hi → Inv i t → ∃ t', body i t = some t' ∧ Inv (i + 1) t') :
    ∃ t, forRange lo hi body s = some t ∧ Inv hi t := by
  obtain ⟨n, rfl⟩ : ∃ n : Nat, hi = lo + n := ⟨(hi - lo).toNat, by omega⟩
  clear hle
  induction n with
  | zero => exact ⟨s, by simpa using forRange_ge lo lo body s le_rfl, by simpa using h0⟩
  | succ n ih =>
    obtain ⟨t, ht, hinv⟩ := ih (fun i t h1 h2 => hstep i t h1 (by push_cast; omega))
    obtain ⟨t', ht', hinv'⟩ := hstep (lo + n) t (by omega) (by push_cast; omega) hinv
    refine ⟨t', ?_, by simpa [add_assoc] using hinv'⟩
    have : lo + ((n + 1 : Nat) : Int) = lo + n + 1 := by push_cast; omega
    rw [this, forRange_succ lo (lo + n) body s (by omega), ht]
    simpa using ht'

theorem wr_upd (a : List ℚ) (i : Int) (v : ℚ) (val : Int → ℚ) (h0 : 0 ≤ i) (h1 : i < a.length)
    (hv : val i = v) : ∃ a', wr a i v = some a' ∧ Upd a a' (fun j => j = i) val := by
  refine ⟨_, wr_eq_some a i v h0 h1, by simp, fun j => ⟨fun hj => ?_, fun hj => ?_⟩⟩
  · rw [peek_set a i j v h0 h1, if_pos hj, hj, hv]
  · rw [peek_set a i j v h0 h1, if_neg hj]

theorem Upd.mono {a a' : List ℚ} {I J : Int → Prop} {val val' : Int → ℚ} (h : Upd a a' I val)
    (hIJ : ∀ j, I j ↔ J j) (hval : ∀ j, I j → val j = val' j) : Upd a a' J val' :=
  ⟨h.1, fun j => ⟨fun hj => by rw [(h.2 j).1 ((hIJ j).2 hj), hval j ((hIJ j).2 hj)],
    fun hj => (h.2 j).2 (fun hI => hj ((hIJ j).1 hI))⟩⟩

/-- Loop rule for stores: when pass `i` rewrites exactly the entries `I i` of the tracked
buffer, and later passes never touch what earlier ones wrote, the loop returns and has
rewritten exactly the union of the `I i`.  `P` carries what else the passes preserve. -/
theorem forRange_upd {σ : Type} (proj : σ → List ℚ) (P : σ → Prop) (lo hi : Int)
    (body : Int → σ → Option σ) (I : Int → Int → Prop) (val : Int → ℚ) (s0 : σ) (hP : P s0)
    (hdisj : ∀ i i' j, lo ≤ i → i < i' → i' < hi → I i j → ¬ I i' j)
    (hbody : ∀ i s, lo ≤ i → i < hi → P s → (proj s).length = (proj s0).length →
      (∀ j, I i j → peek (proj s) j = peek (proj s0) j) →
      ∃ s', body i s = some s' ∧ P s' ∧ Upd (proj s) (proj s') (I i) val) :
    ∃ s', forRange lo hi body s0 = some s' ∧ P s' ∧
      Upd (proj s0) (proj s') (fun j => ∃ i, lo ≤ i ∧ i < hi ∧ I i j) val := by
  rcases le_or_lt hi lo with hle | hlt
  · refine ⟨s0, forRange_ge lo hi body s0 hle, hP, rfl, fun j => ⟨?_, fun _ => rfl⟩⟩
    rintro ⟨i, h1, h2, -⟩
    omega
  · have key := forRange_inv
      (fun i s => P s ∧ Upd (proj s0) (proj s) (fun j => ∃ i', lo ≤ i' ∧ i' < i ∧ I i' j) val)
      lo hi body s0 hlt.le
      ⟨hP, rfl, fun j => ⟨by rintro ⟨i, h1, h2, -⟩; omega, fun _ => rfl⟩⟩ ?_
    · exact key
    · rintro i t hi1 hi2 ⟨hPt, hlen, hU⟩
      have hpre : ∀ j, I i j → peek (proj t) j = peek (proj s0) j := by
        intro j hj
        refine (hU j).2 ?_
        rintro ⟨i', h1, h2, h3⟩
        exact hdisj i' i j h1 h2 hi2 h3 hj
      obtain ⟨t', ht', hPt', hlen', hU'⟩ := hbody i t hi1 hi2 hPt hlen hpre
      refine ⟨t', ht', hPt', hlen'.trans hlen, fun j => ⟨?_, ?_⟩⟩
      · rintro ⟨i', h1, h2, h3⟩
        rcases eq_or_lt_of_le (Int.lt_add_one_iff.mp h2) with heq | hlt'
        · subst heq
          exact (hU' j).1 h3
        · have hn : ¬ I i j := hdisj i' i j h1 hlt' hi2 h3
          rw [(hU' j).2 hn]
          exact (hU j).1 ⟨i', h1, hlt', h3⟩
      · intro hn
        have hn1 : ¬ I i j := fun h => hn ⟨i, hi1, by omega, h⟩
        have hn2 : ¬ ∃ i', lo ≤ i' ∧ i' < i ∧ I i' j := by
          rintro ⟨i', h1, h2, h3⟩
          exact hn ⟨i', h1, by omega, h3⟩
        rw [(hU' j).2 hn1]
        exact (hU j).2 hn2

/-! ## Index arithmetic -/

theorem idx_bound (S N y x : Int) (hy0 : 0 ≤ y) (hy : y < N) (hx0 : 0 ≤ x) (hx : x < S) :
    0 ≤ y * S + x ∧ y * S + x < S * N := by
  have hS : 0 ≤ S := by omega
  have h1 : 0 ≤ y * S := mul_nonneg hy0 hS
  have h2 : (y + 1) * S ≤ N * S := mul_le_mul_of_nonneg_right (by omega) hS
  constructor
  · omega
  · nlinarith

theorem idx_inj (S y x y' x' : Int) (hx0 : 0 ≤ x) (hx : x < S) (hx0' : 0 ≤ x') (hx' : x' < S)
    (h : y * S + x = y' * S + x') : y = y' ∧ x = x' := by
  have hS : 0 < S := by omega
  have hy : y = y' := by
    rcases lt_trichotomy y y' with hlt | heq | hgt
    · have : (y + 1) * S ≤ y' * S := mul_le_mul_of_nonneg_right (by omega) hS.le
      nlinarith
    · exact heq
    · have : (y' + 1) * S ≤ y * S := mul_le_mul_of_nonneg_right (by omega) hS.le
      nlinarith
  subst hy
  exact ⟨rfl, by omega⟩

theorem floor_clamp (m : Int) (c : ℚ) (hc : c = m) (hm : 0 ≤ m) (u : ℚ) :
    0 ≤ Int.floor (max 0 (min c u)) ∧ Int.floor (max 0 (min c u)) ≤ m := by
  constructor
  · exact Int.floor_nonneg.mpr (le_max_left _ _)
  · have h1 : max 0 (min c u) ≤ (m : ℚ) := by
      refine max_le ?_ (hc ▸ min_le_left _ _)
      exact_mod_cast hm
    have := Int.floor_le_floor h1
    simpa using this

/-- The loop rule for stores, for a loop whose whole state is the buffer written. -/
theorem forRange_upd_list (lo hi : Int) (body : Int → List ℚ → Option (List ℚ))
    (I : Int → Int → Prop) (val : Int → ℚ) (a0 : List ℚ)
    (hdisj : ∀ i i' j, lo ≤ i → i < i' → i' < hi → I i j → ¬ I i' j)
    (hbody : ∀ i a, lo ≤ i → i < hi → a.length = a0.length →
      (∀ j, I i j → peek a j = peek a0 j) → ∃ a', body i a = some a' ∧ Upd a a' (I i) val) :
    ∃ a', forRange lo hi body a0 = some a' ∧
      Upd a0 a' (fun j => ∃ i, lo ≤ i ∧ i < hi ∧ I i j) val := by
  obtain ⟨a', h1, -, h2⟩ := forRange_upd id (fun _ => True) lo hi body I val a0 trivial hdisj
    (fun i a h1 h2 _ h3 h4 => by
      obtain ⟨a', h5, h6⟩ := hbody i a h1 h2 h3 h4
      exact ⟨a', h5, trivial, h6⟩)
  exact ⟨a', h1, h2⟩

theorem decode_chan (c k : Int) (hk0 : 0 ≤ k) (hk : k < 4) :
    (c * 4 + k) / 4 = c ∧ (c * 4 + k) % 4 = k := by
  constructor <;> omega

theorem decode_cell (S y x : Int) (hx0 : 0 ≤ x) (hx : x < S) :
    (y * S + x) / S = y ∧ (y * S + x) % S = x := by
  rw [Int.ediv_emod_unique (by omega)]
  exact ⟨by ring, hx0, hx⟩

/-- Row-major fill: a loop nest whose pass `(x, y)` stores `F y x old` at index `y * S + x`
(`old` being the entry it finds there) returns, has rewritten exactly the entries of the
cells `0 ≤ y < N`, `0 ≤ x < M`, each from its value before the loops, and nothing else. -/
theorem fill2D (S N M : Int) (hM : M ≤ S) (a0 : List ℚ)
    (body : Int → Int → List ℚ → Option (List ℚ)) (F : Int → Int → ℚ → ℚ)
    (hbody : ∀ y x a, 0 ≤ y → y < N → 0 ≤ x → x < M → a.length = a0.length →
      ∃ a', body y x a = some a' ∧
        Upd a a' (fun j => j = y * S + x) (fun _ => F y x (peek a (y * S + x)))) :
    ∃ a', forRange 0 N (fun y a => forRange 0 M (fun x a => body y x a) a) a0 = some a' ∧
      a'.length = a0.length ∧
      (∀ y x, 0 ≤ y → y < N → 0 ≤ x → x < M → peek a' (y * S + x) = F y x (peek a0 (y * S + x))) ∧
      (∀ j, (¬ ∃ y x, 0 ≤ y ∧ y < N ∧ 0 ≤ x ∧ x < M ∧ j = y * S + x) → peek a' j = peek a0 j) := by
  obtain ⟨a', ha', hU⟩ := forRange_upd_list 0 N
    (fun y a => forRange 0 M (fun x a => body y x a) a)
    (fun y j => ∃ x : Int, 0 ≤ x ∧ x < M ∧ j = y * S + x)
    (fun j => F (j / S) (j % S) (peek a0 j)) a0
    (by
      rintro y y' j - hlt - ⟨x, hx0, hx, rfl⟩ ⟨x', hx0', hx', h⟩
      have := idx_inj S y x y' x' hx0 (by omega) hx0' (by omega) h
      omega)
    (by
      intro y a hy0 hy ha hpre
      beta_reduce
      obtain ⟨a', h1, h2⟩ := forRange_upd_list 0 M (fun x a => body y x a)
        (fun x j => j = y * S + x) (fun j => F (j / S) (j % S) (peek a j)) a
        (by
          rintro x x' j - hlt - rfl h
          omega)
        (by
          intro x b hx0 hx hb hpre'
          obtain ⟨b', hb1, hb2⟩ := hbody y x b hy0 hy hx0 hx (by rw [hb, ha])
          refine ⟨b', hb1, hb2.mono (fun _ => Iff.rfl) ?_⟩
          rintro j rfl
          have hc := decode_cell S y x hx0 (by omega)
          simp only [hc.1, hc.2, hpre' _ rfl])
      exact ⟨a', h1, h2.mono (fun _ => Iff.rfl) (fun j hj => by rw [hpre j hj])⟩)
  refine ⟨a', ha', hU.1, ?_, ?_⟩
  · intro y x hy0 hy hx0 hx
    rw [(hU.2 _).1 ⟨y, hy0, hy, x, hx0, hx, rfl⟩]
    have hc := decode_cell S y x hx0 (by omega)
    simp only [hc.1, hc.2]
  · intro j hj
    refine (hU.2 j).2 ?_
    rintro ⟨y, hy0, hy, x, hx0, hx, rfl⟩
    exact hj ⟨y, x, hy0, hy, hx0, hx, rfl⟩

/-- The loop rule for stores, for a nest of two loops whose pass `(x, y)` rewrites the
entries `I y x` of the tracked buffer, entry `j` from `old` to `F j old`. -/
theorem forRange2_upd {σ : Type} (proj : σ → List ℚ) (P : σ → Prop) (lo hi lo' hi' : Int)
    (body : Int → Int → σ → Option σ) (I : Int → Int → Int → Prop) (F : Int → ℚ → ℚ) (s0 : σ)
    (hP : P s0)
    (hdisj : ∀ y x y' x' j, I y x j → I y' x' j → y = y' ∧ x = x')
    (hbody : ∀ y x t, lo ≤ y → y < hi → lo' ≤ x → x < hi' → P t →
      (proj t).length = (proj s0).length →
      ∃ t', body y x t = some t' ∧ P t' ∧
        Upd (proj t) (proj t') (I y x) (fun j => F j (peek (proj t) j))) :
    ∃ s', forRange lo hi (fun y t => forRange lo' hi' (fun x t => body y x t) t) s0 = some s' ∧
      P s' ∧ Upd (proj s0) (proj s')
        (fun j => ∃ y, lo ≤ y ∧ y < hi ∧ ∃ x, lo' ≤ x ∧ x < hi' ∧ I y x j)
        (fun j => F j (peek (proj s0) j)) := by
  apply forRange_upd proj P lo hi _ (fun y j => ∃ x, lo' ≤ x ∧ x < hi' ∧ I y x j) _ s0 hP
  · rintro y y' j - hlt - ⟨x, -, -, h1⟩ ⟨x', -, -, h2⟩
    have := (hdisj y x y' x' j h1 h2).1
    omega
  · intro y t hy0 hy hPt hlen hpre
    beta_reduce
    obtain ⟨t', h1, h2, h3⟩ := forRange_upd proj P lo' hi' (fun x t => body y x t)
      (fun x j => I y x j) (fun j => F j (peek (proj t) j)) t hPt
      (by
        rintro x x' j - hlt - h1 h2
        have := (hdisj y x y x' j h1 h2).2
        omega)
      (by
        intro x u hx0 hx hPu hlenu hpre'
        obtain ⟨u', hu1, hu2, hu3⟩ := hbody y x u hy0 hy hx0 hx hPu (by rw [hlenu, hlen])
        exact ⟨u', hu1, hu2, hu3.mono (fun _ => Iff.rfl) (fun j hj => by rw [hpre' j hj])⟩)
    exact ⟨t', h1, h2, h3.mono (fun _ => Iff.rfl) (fun j hj => by rw [hpre j hj])⟩

/-! ## Density advection: what the loops compute -/

theorem advectDensityCell_upd (s : Main) (hs : s.Sized) (y x : Int) (hy0 : 0 ≤ y)
    (hy : y < s.H) (hx0 : 0 ≤ x) (hx : x < s.W) (nd : List ℚ)
    (hnd : nd.length = s.W * s.H * 4) :
    ∃ nd', advectDensityCell s y x nd = some nd' ∧
      Upd nd nd' (fun j => ∃ k, 0 ≤ k ∧ k < 4 ∧ j = (y * s.W + x) * 4 + k)
        (fun j => densitySample s (j / 4 / s.W) (j / 4 % s.W) (j % 4)) := by
  have hW : (1 : Int) ≤ s.W := by exact_mod_cast hs.hW
  have hH : (1 : Int) ≤ s.H := by exact_mod_cast hs.hH
  have hvx := idx_bound (s.W + 1) s.H y x hy0 hy hx0 (by omega)
  have hvy := idx_bound s.W (s.H + 1) y x hy0 (by omega) hx0 hx
  have hlx : ((s.velX.length : Nat) : Int) = (s.W + 1) * s.H := by rw [hs.velX]; push_cast; ring
  have hly : ((s.velY.length : Nat) : Int) = s.W * (s.H + 1) := by rw [hs.velY]; push_cast; ring
  have hld : ((s.density.length : Nat) : Int) = s.W * s.H * 4 := by rw [hs.density]; push_cast; ring
  have hln : ((nd.length : Nat) : Int) = s.W * s.H * 4 := by rw [hnd]; push_cast; ring
  have hb : ∀ i j k : Int, 0 ≤ i → i ≤ s.W - 1 → 0 ≤ j → j ≤ s.H - 1 → 0 ≤ k → k < 4 →
      0 ≤ (j * s.W + i) * 4 + k ∧ (j * s.W + i) * 4 + k < s.W * s.H * 4 := by
    intro i j k hi0 hi hj0 hj hk0 hk
    have := idx_bound s.W s.H j i hj0 (by omega) hi0 (by omega)
    constructor <;> omega
  have hfi := floor_clamp (s.W - 1) (((s.W : Int) : ℚ) - 1) (by push_cast; ring) (by omega)
    (x - peek s.velX (y * (s.W + 1) + x) * s.timestep)
  have hfj := floor_clamp (s.H - 1) (((s.H : Int) : ℚ) - 1) (by push_cast; ring) (by omega)
    (y - peek s.velY (y * s.W + x) * s.timestep)
  simp only [advectDensityCell, rd_eq_some _ _ hvx.1 (by rw [hlx]; exact hvx.2),
    rd_eq_some _ _ hvy.1 (by rw [hly]; exact hvy.2), Option.bind_eq_bind, Option.some_bind]
  apply forRange_upd_list
  · intro k k' j _ _ _ h1 h2
    omega
  · intro k a hk0 hk ha _
    have hi1 : 0 ≤ min (Int.floor (max 0 (min (((s.W : Int) : ℚ) - 1)
        (x - peek s.velX (y * (s.W + 1) + x) * s.timestep))) + 1) ((s.W : Int) - 1) ∧
        min (Int.floor (max 0 (min (((s.W : Int) : ℚ) - 1)
        (x - peek s.velX (y * (s.W + 1) + x) * s.timestep))) + 1) ((s.W : Int) - 1) ≤ s.W - 1 :=
      ⟨le_min (by omega) (by omega), min_le_right _ _⟩
    have hj1 : 0 ≤ min (Int.floor (max 0 (min (((s.H : Int) : ℚ) - 1)
        (y - peek s.velY (y * s.W + x) * s.timestep))) + 1) ((s.H : Int) - 1) ∧
        min (Int.floor (max 0 (min (((s.H : Int) : ℚ) - 1)
        (y - peek s.velY (y * s.W + x) * s.timestep))) + 1) ((s.H : Int) - 1) ≤ s.H - 1 :=
      ⟨le_min (by omega) (by omega), min_le_right _ _⟩
    have h00 := hb _ _ k hfi.1 hfi.2 hfj.1 hfj.2 hk0 hk
    have h01 := hb _ _ k hfi.1 hfi.2 hj1.1 hj1.2 hk0 hk
    have h10 := hb _ _ k hi1.1 hi1.2 hfj.1 hfj.2 hk0 hk
    have h11 := hb _ _ k hi1.1 hi1.2 hj1.1 hj1.2 hk0 hk
    have hw := hb x y k hx0 (by omega) hy0 (by omega) hk0 hk
    simp only [rd_eq_some _ _ h00.1 (by rw [hld]; exact h00.2),
      rd_eq_some _ _ h01.1 (by rw [hld]; exact h01.2),
      rd_eq_some _ _ h10.1 (by rw [hld]; exact h10.2),
      rd_eq_some _ _ h11.1 (by rw [hld]; exact h11.2), Option.bind_eq_bind, Option.some_bind]
    apply wr_upd _ _ _ _ hw.1 (by rw [ha, hln]; exact hw.2)
    have hd := decode_chan (y * s.W + x) k hk0 hk
    have hc := decode_cell s.W y x hx0 hx
    simp only [hd.1, hd.2, hc.1, hc.2, densitySample]

theorem advectDensity_spec (s : Main) (hs : s.Sized) :
    ∃ nd, advectDensity s = some { s with density := nd } ∧ nd.length = s.W * s.H * 4 ∧
      ∀ y x k : Int, 0 ≤ y → y < s.H → 0 ≤ x → x < s.W → 0 ≤ k → k < 4 →
        peek nd ((y * s.W + x) * 4 + k) = densitySample s y x k := by
  have hlen0 : (List.replicate s.density.length (0 : ℚ)).length = s.W * s.H * 4 := by
    simp [hs.density]
  obtain ⟨nd, hnd, hU⟩ := forRange_upd_list 0 s.H
    (fun y nd => forRange 0 s.W (fun x nd => advectDensityCell s y x nd) nd)
    (fun y j => ∃ x : Int, 0 ≤ x ∧ x < s.W ∧ ∃ k, 0 ≤ k ∧ k < 4 ∧ j = (y * s.W + x) * 4 + k)
    (fun j => densitySample s (j / 4 / s.W) (j / 4 % s.W) (j % 4))
    (List.replicate s.density.length (0 : ℚ))
    (by
      rintro y y' j - hlt - ⟨x, hx0, hx, k, hk0, hk, rfl⟩ ⟨x', hx0', hx', k', hk0', hk', h⟩
      have := idx_inj s.W y x y' x' hx0 hx hx0' hx' (by omega)
      omega)
    (by
      intro y a hy0 hy ha _
      beta_reduce
      apply forRange_upd_list
      · rintro x x' j - hlt - ⟨k, hk0, hk, rfl⟩ ⟨k', hk0', hk', h⟩
        omega
      · intro x b hx0 hx hb _
        exact advectDensityCell_upd s hs y x hy0 hy hx0 hx b (by rw [hb, ha, hlen0]))
  refine ⟨nd, ?_, by rw [hU.1, hlen0], ?_⟩
  · simp only [advectDensity, hnd, Option.bind_eq_bind, Option.some_bind]
    rfl
  · intro y x k hy0 hy hx0 hx hk0 hk
    rw [(hU.2 _).1 ⟨y, hy0, hy, x, hx0, hx, k, hk0, hk, rfl⟩]
    have hd := decode_chan (y * s.W + x) k hk0 hk
    have hc := decode_cell s.W y x hx0 hx
    simp only [hd.1, hd.2, hc.1, hc.2]


/-! ## What the other solver loops compute -/

theorem Main.Sized.casts {s : Main} (hs : s.Sized) :
    (1 : Int) ≤ s.W ∧ (1 : Int) ≤ s.H ∧
    ((s.velX.length : Nat) : Int) = (s.W + 1) * s.H ∧
    ((s.velY.length : Nat) : Int) = s.W * (s.H + 1) ∧
    ((s.density.length : Nat) : Int) = s.W * s.H * 4 ∧
    ((s.pressure.length : Nat) : Int) = s.W * s.H ∧
    ((s.divergence.length : Nat) : Int) = s.W * s.H := by
  refine ⟨by exact_mod_cast hs.hW, by exact_mod_cast hs.hH, ?_, ?_, ?_, ?_, ?_⟩
  · rw [hs.velX]; push_cast; ring
  · rw [hs.velY]; push_cast; ring
  · rw [hs.density]; push_cast; ring
  · rw [hs.pressure]; push_cast; ring
  · rw [hs.divergence]; push_cast; ring

theorem computeDivergence_spec (s : Main) (hs : s.Sized) :
    ∃ d, computeDivergence s = some { s with divergence := d } ∧ d.length = s.W * s.H ∧
      ∀ y x : Int, 0 ≤ y → y < s.H → 0 ≤ x → x < s.W →
        peek d (y * s.W + x) = divAt s.velX s.velY s.W s.cellSize y x := by
  obtain ⟨hW, hH, hlx, hly, -, -, hldv⟩ := hs.casts
  obtain ⟨d, hd, hlen, hval, -⟩ := fill2D s.W s.H s.W le_rfl s.divergence
    (fun y x a => computeDivergenceCell s y x a)
    (fun y x _ => divAt s.velX s.velY s.W s.cellSize y x)
    (by
      intro y x a hy0 hy hx0 hx ha
      have h1 := idx_bound (s.W + 1) s.H y x hy0 hy hx0 (by omega)
      have h2 := idx_bound (s.W + 1) s.H y (x + 1) hy0 hy (by omega) (by omega)
      have h3 := idx_bound s.W (s.H + 1) y x hy0 (by omega) hx0 hx
      have h4 := idx_bound s.W (s.H + 1) (y + 1) x (by omega) (by omega) hx0 hx
      have h5 := idx_bound s.W s.H y x hy0 hy hx0 hx
      simp only [computeDivergenceCell, rd_eq_some _ _ h1.1 (by rw [hlx]; exact h1.2),
        rd_eq_some _ _ (by omega : 0 ≤ y * ((s.W : Int) + 1) + x + 1)
          (by rw [hlx]; have := h2.2; omega),
        rd_eq_some _ _ h3.1 (by rw [hly]; exact h3.2),
        rd_eq_some _ _ h4.1 (by rw [hly]; exact h4.2), Option.bind_eq_bind, Option.some_bind]
      exact wr_upd _ _ _ _ h5.1 (by rw [ha, hldv]; exact h5.2) rfl)
  refine ⟨d, ?_, by rw [hlen, hs.divergence], hval⟩
  simp only [computeDivergence, hd, Option.bind_eq_bind, Option.some_bind]
  rfl

theorem subtractGradient_spec (s : Main) (hs : s.Sized) :
    ∃ vx vy, subtractGradient s = some { s with velX := vx, velY := vy } ∧
      vx.length = (s.W + 1) * s.H ∧ vy.length = s.W * (s.H + 1) ∧
      (∀ y x : Int, 0 ≤ y → y < s.H → 0 ≤ x → x ≤ s.W →
        peek vx (y * (s.W + 1) + x) = peek s.velX (y * (s.W + 1) + x) -
          (peek s.pressure (y * s.W + min ((s.W : Int) - 1) x) -
            peek s.pressure (y * s.W + max 0 (x - 1))) / s.cellSize) ∧
      (∀ y x : Int, 0 ≤ y → y ≤ s.H → 0 ≤ x → x < s.W →
        peek vy (y * s.W + x) = peek s.velY (y * s.W + x) -
          (peek s.pressure (min ((s.H : Int) - 1) y * s.W + x) -
            peek s.pressure (max 0 (y - 1) * s.W + x)) / s.cellSize) := by
  obtain ⟨hW, hH, hlx, hly, -, hlp, -⟩ := hs.casts
  obtain ⟨vx, hvx, hlenx, hvalx, -⟩ := fill2D (s.W + 1) s.H (s.W + 1) le_rfl s.velX
    (fun y x a => subtractGradientX s y x a)
    (fun y x old => old - (peek s.pressure (y * s.W + min ((s.W : Int) - 1) x) -
            peek s.pressure (y * s.W + max 0 (x - 1))) / s.cellSize)
    (by
      intro y x a hy0 hy hx0 hx ha
      have h1 := idx_bound (s.W + 1) s.H y x hy0 hy hx0 hx
      have h2 := idx_bound s.W s.H y (min ((s.W : Int) - 1) x) hy0 hy (le_min (by omega) hx0)
        (by have := min_le_left ((s.W : Int) - 1) x; omega)
      have h3 := idx_bound s.W s.H y (max 0 (x - 1)) hy0 hy (le_max_left _ _)
        (max_lt (by omega) (by omega))
      simp only [subtractGradientX, rd_eq_some _ _ h1.1 (by rw [ha, hlx]; exact h1.2),
        rd_eq_some _ _ h2.1 (by rw [hlp]; exact h2.2),
        rd_eq_some _ _ h3.1 (by rw [hlp]; exact h3.2), Option.bind_eq_bind, Option.some_bind]
      exact wr_upd _ _ _ _ h1.1 (by rw [ha, hlx]; exact h1.2) rfl)
  obtain ⟨vy, hvy, hleny, hvaly, -⟩ := fill2D s.W (s.H + 1) s.W le_rfl s.velY
    (fun y x a => subtractGradientY s y x a)
    (fun y x old => old - (peek s.pressure (min ((s.H : Int) - 1) y * s.W + x) -
            peek s.pressure (max 0 (y - 1) * s.W + x)) / s.cellSize)
    (by
      intro y x a hy0 hy hx0 hx ha
      have h1 := idx_bound s.W (s.H + 1) y x hy0 hy hx0 hx
      have h2 := idx_bound s.W s.H (min ((s.H : Int) - 1) y) x (le_min (by omega) hy0)
        (by have := min_le_left ((s.H : Int) - 1) y; omega) hx0 hx
      have h3 := idx_bound s.W s.H (max 0 (y - 1)) x (le_max_left _ _)
        (max_lt (by omega) (by omega)) hx0 hx
      simp only [subtractGradientY, rd_eq_some _ _ h1.1 (by rw [ha, hly]; exact h1.2),
        rd_eq_some _ _ h2.1 (by rw [hlp]; exact h2.2),
        rd_eq_some _ _ h3.1 (by rw [hlp]; exact h3.2), Option.bind_eq_bind, Option.some_bind]
      exact wr_upd _ _ _ _ h1.1 (by rw [ha, hly]; exact h1.2) rfl)
  refine ⟨vx, vy, ?_, by rw [hlenx, hs.velX], by rw [hleny, hs.velY], ?_, ?_⟩
  · simp only [subtractGradient, hvx, hvy, Option.bind_eq_bind, Option.some_bind]
    rfl
  · intro y x hy0 hy hx0 hx
    exact hvalx y x hy0 hy hx0 (by omega)
  · intro y x hy0 hy hx0 hx
    exact hvaly y x hy0 (by omega) hx0 hx

theorem min_succ_bounds (a m : Int) (ha : 0 ≤ a) (hm : 0 ≤ m) :
    0 ≤ min (a + 1) m ∧ min (a + 1) m ≤ m :=
  ⟨le_min (by omega) hm, min_le_right _ _⟩

theorem advectVelXFace_upd (s : Main) (hs : s.Sized) (y x : Int) (hy0 : 0 ≤ y) (hy : y < s.H)
    (hx0 : 0 ≤ x) (hx : x < s.W + 1) (nv : List ℚ) (hnv : nv.length = s.velX.length) :
    ∃ nv', advectVelXFace s y x nv = some nv' ∧
      Upd nv nv' (fun j => j = y * (s.W + 1) + x) (fun _ => velXSample s y x) := by
  obtain ⟨hW, hH, hlx, hly, -, -, -⟩ := hs.casts
  have h1 := idx_bound (s.W + 1) s.H y x hy0 hy hx0 hx
  have h2 := idx_bound s.W (s.H + 1) y (min x ((s.W : Int) - 1)) hy0 (by omega)
    (le_min hx0 (by omega)) (by have := min_le_right x ((s.W : Int) - 1); omega)
  have hb : ∀ i j : Int, 0 ≤ i → i ≤ s.W → 0 ≤ j → j ≤ s.H - 1 →
      0 ≤ j * ((s.W : Int) + 1) + i ∧ j * ((s.W : Int) + 1) + i < (s.velX.length : Nat) := by
    intro i j hi0 hi hj0 hj
    rw [hlx]
    exact idx_bound (s.W + 1) s.H j i hj0 (by omega) hi0 (by omega)
  have hfi := floor_clamp s.W ((s.W : Int) : ℚ) rfl (by omega)
    (x - peek s.velX (y * (s.W + 1) + x) * s.timestep)
  have hfj := floor_clamp (s.H - 1) (((s.H : Int) : ℚ) - 1) (by push_cast; ring) (by omega)
    (y - peek s.velY (y * s.W + min x ((s.W : Int) - 1)) * s.timestep)
  have hi1 := min_succ_bounds _ (s.W : Int) hfi.1 (by omega)
  have hj1 := min_succ_bounds _ ((s.H : Int) - 1) hfj.1 (by omega)
  have h00 := hb _ _ hfi.1 hfi.2 hfj.1 hfj.2
  have h01 := hb _ _ hfi.1 hfi.2 hj1.1 hj1.2
  have h10 := hb _ _ hi1.1 hi1.2 hfj.1 hfj.2
  have h11 := hb _ _ hi1.1 hi1.2 hj1.1 hj1.2
  simp only [advectVelXFace, rd_eq_some _ _ h1.1 (by rw [hlx]; exact h1.2),
    rd_eq_some _ _ h2.1 (by rw [hly]; exact h2.2),
    rd_eq_some _ _ h00.1 h00.2, rd_eq_some _ _ h01.1 h01.2, rd_eq_some _ _ h10.1 h10.2,
    rd_eq_some _ _ h11.1 h11.2, Option.bind_eq_bind, Option.some_bind]
  exact wr_upd _ _ _ _ h1.1 (by rw [hnv, hlx]; exact h1.2) rfl

theorem advectVelYFace_upd (s : Main) (hs : s.Sized) (y x : Int) (hy0 : 0 ≤ y) (hy : y < s.H + 1)
    (hx0 : 0 ≤ x) (hx : x < s.W) (nv : List ℚ) (hnv : nv.length = s.velY.length) :
    ∃ nv', advectVelYFace s y x nv = some nv' ∧
      Upd nv nv' (fun j => j = y * s.W + x) (fun _ => velYSample s y x) := by
  obtain ⟨hW, hH, hlx, hly, -, -, -⟩ := hs.casts
  have h1 := idx_bound s.W (s.H + 1) y x hy0 hy hx0 hx
  have h2 := idx_bound (s.W + 1) s.H (min y ((s.H : Int) - 1)) x (le_min hy0 (by omega))
    (by have := min_le_right y ((s.H : Int) - 1); omega) hx0 (by omega)
  have hb : ∀ i j : Int, 0 ≤ i → i ≤ s.W - 1 → 0 ≤ j → j ≤ s.H →
      0 ≤ j * (s.W : Int) + i ∧ j * (s.W : Int) + i < (s.velY.length : Nat) := by
    intro i j hi0 hi hj0 hj
    rw [hly]
    exact idx_bound s.W (s.H + 1) j i hj0 (by omega) hi0 (by omega)
  have hfi := floor_clamp (s.W - 1) (((s.W : Int) : ℚ) - 1) (by push_cast; ring) (by omega)
    (x - peek s.velX (min y ((s.H : Int) - 1) * (s.W + 1) + x) * s.timestep)
  have hfj := floor_clamp s.H ((s.H : Int) : ℚ) rfl (by omega)
    (y - peek s.velY (y * s.W + x) * s.timestep)
  have hi1 := min_succ_bounds _ ((s.W : Int) - 1) hfi.1 (by omega)
  have hj1 := min_succ_bounds _ (s.H : Int) hfj.1 (by omega)
  have h00 := hb _ _ hfi.1 hfi.2 hfj.1 hfj.2
  have h01 := hb _ _ hfi.1 hfi.2 hj1.1 hj1.2
  have h10 := hb _ _ hi1.1 hi1.2 hfj.1 hfj.2
  have h11 := hb _ _ hi1.1 hi1.2 hj1.1 hj1.2
  simp only [advectVelYFace, rd_eq_some _ _ h1.1 (by rw [hly]; exact h1.2),
    rd_eq_some _ _ h2.1 (by rw [hlx]; exact h2.2),
    rd_eq_some _ _ h00.1 h00.2, rd_eq_some _ _ h01.1 h01.2, rd_eq_some _ _ h10.1 h10.2,
    rd_eq_some _ _ h11.1 h11.2, Option.bind_eq_bind, Option.some_bind]
  exact wr_upd _ _ _ _ h1.1 (by rw [hnv, hly]; exact h1.2) rfl

theorem advectVelocity_spec (s : Main) (hs : s.Sized) :
    ∃ nx ny, advectVelocity s = some { s with velX := nx, velY := ny } ∧
      nx.length = (s.W + 1) * s.H ∧ ny.length = s.W * (s.H + 1) ∧
      (∀ y x : Int, 0 ≤ y → y < s.H → 0 ≤ x → x ≤ s.W →
        peek nx (y * (s.W + 1) + x) = velXSample s y x) ∧
      (∀ y x : Int, 0 ≤ y → y ≤ s.H → 0 ≤ x → x < s.W →
        peek ny (y * s.W + x) = velYSample s y x) := by
  obtain ⟨nx, hnx, hlenx, hvalx, -⟩ := fill2D (s.W + 1) s.H (s.W + 1) le_rfl
    (List.replicate s.velX.length (0 : ℚ)) (fun y x a => advectVelXFace s y x a)
    (fun y x _ => velXSample s y x)
    (fun y x a hy0 hy hx0 hx ha =>
      advectVelXFace_upd s hs y x hy0 hy hx0 hx a (by rw [ha]; simp))
  obtain ⟨ny, hny, hleny, hvaly, -⟩ := fill2D s.W (s.H + 1) s.W le_rfl
    (List.replicate s.velY.length (0 : ℚ)) (fun y x a => advectVelYFace s y x a)
    (fun y x _ => velYSample s y x)
    (fun y x a hy0 hy hx0 hx ha =>
      advectVelYFace_upd s hs y x hy0 hy hx0 hx a (by rw [ha]; simp))
  refine ⟨nx, ny, ?_, by rw [hlenx]; simp [hs.velX], by rw [hleny]; simp [hs.velY], ?_, ?_⟩
  · simp only [advectVelocity, hnx, hny, Option.bind_eq_bind, Option.some_bind]
    rfl
  · intro y x hy0 hy hx0 hx
    exact hvalx y x hy0 hy hx0 (by omega)
  · intro y x hy0 hy hx0 hx
    exact hvaly y x hy0 (by omega) hx0 hx

/-! ## Extensionality of buffers through `peek` -/

theorem peek_eq_getElem (a : List ℚ) (n : Nat) (h : n < a.length) : peek a (n : Int) = a[n] := by
  simp [peek, rd, List.getElem?_eq_getElem h]

theorem ext_peek (a b : List ℚ) (hlen : a.length = b.length)
    (h : ∀ i : Int, 0 ≤ i → i < a.length → peek a i = peek b i) : a = b := by
  apply List.ext_getElem hlen
  intro n h1 h2
  have := h n (by omega) (by exact_mod_cast h1)
  rwa [peek_eq_getElem a n h1, peek_eq_getElem b n h2] at this

theorem peek_zero_of_all_zero (a : List ℚ) (h : ∀ v ∈ a, v = 0) (i : Int) : peek a i = 0 := by
  by_cases hi : 0 ≤ i ∧ i < a.length
  · obtain ⟨n, rfl⟩ : ∃ n : Nat, i = n := ⟨i.toNat, by omega⟩
    have hn : n < a.length := by omega
    rw [peek_eq_getElem a n hn]
    exact h _ (List.getElem_mem hn)
  · exact peek_of_not_mem a i hi

/-- Every flat density index is the channel `k` of a cell `(x, y)` of the grid. -/
theorem density_index_cases (W H : Nat) (i : Int) (h0 : 0 ≤ i) (h1 : i < (W : Int) * H * 4) :
    ∃ y x k : Int, 0 ≤ y ∧ y < H ∧ 0 ≤ x ∧ x < W ∧ 0 ≤ k ∧ k < 4 ∧ i = (y * W + x) * 4 + k := by
  have hW : (0 : Int) < W := by
    rcases Nat.eq_zero_or_pos W with h | h
    · subst h; simp at h1; omega
    · exact_mod_cast h
  refine ⟨i / 4 / W, i / 4 % W, i % 4, ?_, ?_, ?_, ?_, by omega, by omega, ?_⟩
  · exact Int.ediv_nonneg (by omega) hW.le
  · apply Int.ediv_lt_of_lt_mul hW
    have : i / 4 < W * H := by omega
    linarith [mul_comm (W : Int) H]
  · exact Int.emod_nonneg _ hW.ne'
  · exact Int.emod_lt_of_pos _ hW
  · have := Int.ediv_add_emod (i / 4) W
    have h2 : i / 4 / W * W = W * (i / 4 / W) := mul_comm _ _
    omega

/-! ## The brush: what one pass and the whole scan do -/

theorem Upd.of_not {a : List ℚ} {I : Int → Prop} (val : Int → ℚ) (h : ∀ j, ¬ I j) :
    Upd a a I val :=
  ⟨rfl, fun j => ⟨fun hj => (h j hj).elim, fun _ => rfl⟩⟩

theorem Upd.then_const {a b c : List ℚ} {I J : Int → Prop} {val : Int → ℚ}
    (h1 : Upd a b I val) (h2 : Upd b c J val) : Upd a c (fun j => I j ∨ J j) val := by
  refine ⟨h2.1.trans h1.1, fun j => ⟨fun hj => ?_, fun hj => ?_⟩⟩
  · by_cases hJ : J j
    · exact (h2.2 j).1 hJ
    · rw [(h2.2 j).2 hJ]
      exact (h1.2 j).1 (hj.resolve_right hJ)
  · rw [(h2.2 j).2 (fun h => hj (Or.inr h)), (h1.2 j).2 (fun h => hj (Or.inl h))]

theorem brushIncrement_some (m bs : ℚ) : brushIncrement (some m) bs = m * bs * 0.01 := by
  simp only [brushIncrement]
  split_ifs with h
  · exact h.symm
  · rfl

theorem BrushReach.start (s : Main) : BrushReach s s :=
  ⟨s.density, s.velX, s.velY, rfl, rfl, rfl, rfl⟩

theorem run_density (s t : Main) (ht : BrushReach s t) (i : Int) (v : ℚ) (val : Int → ℚ)
    (hv : val i = v) (h0 : 0 ≤ i) (h1 : i < s.density.length) :
    ∃ t', Store.run t (.density i v) = some t' ∧ BrushReach s t' ∧
      Upd t.density t'.density (fun j => j = i) val ∧ t'.velX = t.velX ∧ t'.velY = t.velY := by
  obtain ⟨d, vx, vy, rfl, hd, hvx, hvy⟩ := ht
  obtain ⟨d', hd', hU⟩ := wr_upd d i v val h0 (by rw [hd]; exact h1) hv
  refine ⟨{ s with density := d', velX := vx, velY := vy }, ?_,
    ⟨d', vx, vy, rfl, hU.1.trans hd, hvx, hvy⟩, hU, rfl, rfl⟩
  simp only [Store.run, hd', Option.bind_eq_bind, Option.some_bind]
  rfl

theorem run_velXAdd (s t : Main) (ht : BrushReach s t) (i : Int) (v : ℚ)
    (h0 : 0 ≤ i) (h1 : i < s.velX.length) :
    ∃ t', Store.run t (.velXAdd i v) = some t' ∧ BrushReach s t' ∧
      Upd t.velX t'.velX (fun j => j = i) (fun j => peek t.velX j + v) ∧
      t'.density = t.density ∧ t'.velY = t.velY := by
  obtain ⟨d, vx, vy, rfl, hd, hvx, hvy⟩ := ht
  obtain ⟨a', ha', hU⟩ := wr_upd vx i (peek vx i + v) (fun j => peek vx j + v) h0
    (by rw [hvx]; exact h1) rfl
  refine ⟨{ s with density := d, velX := a', velY := vy }, ?_,
    ⟨d, a', vy, rfl, hd, hU.1.trans hvx, hvy⟩, hU, rfl, rfl⟩
  simp only [Store.run, rd_eq_some vx i h0 (by rw [hvx]; exact h1), ha', Option.bind_eq_bind,
    Option.some_bind]
  rfl

theorem run_velYAdd (s t : Main) (ht : BrushReach s t) (i : Int) (v : ℚ)
    (h0 : 0 ≤ i) (h1 : i < s.velY.length) :
    ∃ t', Store.run t (.velYAdd i v) = some t' ∧ BrushReach s t' ∧
      Upd t.velY t'.velY (fun j => j = i) (fun j => peek t.velY j + v) ∧
      t'.density = t.density ∧ t'.velX = t.velX := by
  obtain ⟨d, vx, vy, rfl, hd, hvx, hvy⟩ := ht
  obtain ⟨a', ha', hU⟩ := wr_upd vy i (peek vy i + v) (fun j => peek vy j + v) h0
    (by rw [hvy]; exact h1) rfl
  refine ⟨{ s with density := d, velX := vx, velY := a' }, ?_,
    ⟨d, vx, a', rfl, hd, hvx, hU.1.trans hvy⟩, hU, rfl, rfl⟩
  simp only [Store.run, rd_eq_some vy i h0 (by rw [hvy]; exact h1), ha', Option.bind_eq_bind,
    Option.some_bind]
  rfl

theorem brushStores_inactive (s : Main) (gx gy y x : Int) (h : ¬ brushActive s gx gy y x) :
    brushStores s gx gy y x = [] := by
  unfold brushActive at h
  simp only [brushStores]
  by_cases h1 : x * x + y * y > s.radius * s.radius
  · rw [if_pos h1]
  · rw [if_neg h1]
    by_cases h2 : gx + x < 0 ∨ gy + y < 0 ∨ gx + x ≥ s.W ∨ gy + y ≥ s.H
    · rw [if_pos h2]
    · exfalso
      apply h
      push_neg at h2
      omega

theorem brushStores_active (s : Main) (gx gy y x : Int) (h : brushActive s gx gy y x) :
    brushStores s gx gy y x =
      (if !s.mouseRight then
        [Store.density (((gy + y) * s.W + (gx + x)) * 4 + 0) s.brushColor.1,
          Store.density (((gy + y) * s.W + (gx + x)) * 4 + 1) s.brushColor.2.1,
          Store.density (((gy + y) * s.W + (gx + x)) * 4 + 2) s.brushColor.2.2.1,
          Store.density (((gy + y) * s.W + (gx + x)) * 4 + 3) s.brushColor.2.2.2]
      else []) ++
      [Store.velXAdd ((gy + y) * ((s.W : Int) + 1) + (gx + x))
          (brushIncrement (s.mouseVel.map Prod.fst) s.brushStrength),
        Store.velYAdd ((gy + y) * s.W + (gx + x))
          (brushIncrement (s.mouseVel.map Prod.snd) s.brushStrength)] := by
  obtain ⟨h1, h2, h3, h4, h5⟩ := h
  simp only [brushStores]
  rw [if_neg (by omega), if_neg (by omega)]

theorem chan_index (c : ℚ × ℚ × ℚ × ℚ) (i : Int) :
    chan c ((i * 4 + 0) % 4) = c.1 ∧ chan c ((i * 4 + 1) % 4) = c.2.1 ∧
    chan c ((i * 4 + 2) % 4) = c.2.2.1 ∧ chan c ((i * 4 + 3) % 4) = c.2.2.2 := by
  have h0 : (i * 4 + 0) % 4 = 0 := by omega
  have h1 : (i * 4 + 1) % 4 = 1 := by omega
  have h2 : (i * 4 + 2) % 4 = 2 := by omega
  have h3 : (i * 4 + 3) % 4 = 3 := by omega
  rw [h0, h1, h2, h3]
  simp [chan]

/-- Effect of one pass of the brush scan on the three buffers it may write. -/
theorem brushPass_spec (s : Main) (hs : s.Sized) (gx gy y x : Int) (t : Main)
    (ht : BrushReach s t) :
    ∃ t', (brushStores s gx gy y x).foldlM Store.run t = some t' ∧ BrushReach s t' ∧
      Upd t.density t'.density
        (fun j => (brushActive s gx gy y x ∧ s.mouseRight = false) ∧
          ∃ k, 0 ≤ k ∧ k < 4 ∧ j = ((gy + y) * s.W + (gx + x)) * 4 + k)
        (fun j => chan s.brushColor (j % 4)) ∧
      Upd t.velX t'.velX
        (fun j => brushActive s gx gy y x ∧ j = (gy + y) * ((s.W : Int) + 1) + (gx + x))
        (fun j => peek t.velX j + brushIncrement (s.mouseVel.map Prod.fst) s.brushStrength) ∧
      Upd t.velY t'.velY
        (fun j => brushActive s gx gy y x ∧ j = (gy + y) * s.W + (gx + x))
        (fun j => peek t.velY j + brushIncrement (s.mouseVel.map Prod.snd) s.brushStrength) := by
  by_cases hact : brushActive s gx gy y x
  · obtain ⟨hW, hH, hlx, hly, hld, -, -⟩ := hs.casts
    obtain ⟨-, hx0, hx1, hy0, hy1⟩ := id hact
    have hc := idx_bound s.W s.H (gy + y) (gx + x) hy0 hy1 hx0 hx1
    have hbx := idx_bound (s.W + 1) s.H (gy + y) (gx + x) hy0 hy1 hx0 (by omega)
    have hby := idx_bound s.W (s.H + 1) (gy + y) (gx + x) hy0 (by omega) hx0 hx1
    have hch := chan_index s.brushColor ((gy + y) * s.W + (gx + x))
    rw [brushStores_active s gx gy y x hact]
    cases hmr : s.mouseRight
    · obtain ⟨t1, r1, b1, u1, x1, y1⟩ := run_density s t ht _ s.brushColor.1
        (fun j => chan s.brushColor (j % 4)) hch.1 (by omega) (by rw [hld]; omega)
      obtain ⟨t2, r2, b2, u2, x2, y2⟩ := run_density s t1 b1 _ s.brushColor.2.1
        (fun j => chan s.brushColor (j % 4)) hch.2.1 (by omega) (by rw [hld]; omega)
      obtain ⟨t3, r3, b3, u3, x3, y3⟩ := run_density s t2 b2 _ s.brushColor.2.2.1
        (fun j => chan s.brushColor (j % 4)) hch.2.2.1 (by omega) (by rw [hld]; omega)
      obtain ⟨t4, r4, b4, u4, x4, y4⟩ := run_density s t3 b3 _ s.brushColor.2.2.2
        (fun j => chan s.brushColor (j % 4)) hch.2.2.2 (by omega) (by rw [hld]; omega)
      obtain ⟨t5, r5, b5, u5, d5, y5⟩ := run_velXAdd s t4 b4 _
        (brushIncrement (s.mouseVel.map Prod.fst) s.brushStrength) hbx.1 (by rw [hlx]; exact hbx.2)
      obtain ⟨t6, r6, b6, u6, d6, x6⟩ := run_velYAdd s t5 b5 _
        (brushIncrement (s.mouseVel.map Prod.snd) s.brushStrength) hby.1 (by rw [hly]; exact hby.2)
      refine ⟨t6, ?_, b6, ?_, ?_, ?_⟩
      · simp only [Bool.not_false, if_true, List.cons_append, List.nil_append, List.foldlM_cons,
          List.foldlM_nil, r1, r2, r3, r4, r5, r6, Option.bind_eq_bind, Option.some_bind,
          Option.pure_def]
      · rw [d6, d5]
        refine (((u1.then_const u2).then_const u3).then_const u4).mono (fun j => ?_) (fun _ _ => rfl)
        constructor
        · intro h
          refine ⟨⟨hact, rfl⟩, ?_⟩
          rcases h with ((h | h) | h) | h
          · exact ⟨0, by omega, by omega, h⟩
          · exact ⟨1, by omega, by omega, h⟩
          · exact ⟨2, by omega, by omega, h⟩
          · exact ⟨3, by omega, by omega, h⟩
        · rintro ⟨-, k, hk0, hk, rfl⟩
          omega
      · rw [x6]
        have e : t4.velX = t.velX := by rw [x4, x3, x2, x1]
        rw [e] at u5
        exact u5.mono (fun j => ⟨fun h => ⟨hact, h⟩, fun h => h.2⟩) (fun _ _ => rfl)
      · have e : t5.velY = t.velY := by rw [y5, y4, y3, y2, y1]
        rw [e] at u6
        exact u6.mono (fun j => ⟨fun h => ⟨hact, h⟩, fun h => h.2⟩) (fun _ _ => rfl)
    · obtain ⟨t5, r5, b5, u5, d5, y5⟩ := run_velXAdd s t ht _
        (brushIncrement (s.mouseVel.map Prod.fst) s.brushStrength) hbx.1 (by rw [hlx]; exact hbx.2)
      obtain ⟨t6, r6, b6, u6, d6, x6⟩ := run_velYAdd s t5 b5 _
        (brushIncrement (s.mouseVel.map Prod.snd) s.brushStrength) hby.1 (by rw [hly]; exact hby.2)
      refine ⟨t6, ?_, b6, ?_, ?_, ?_⟩
      · simp only [Bool.not_true, Bool.false_eq_true, if_false, List.nil_append, List.foldlM_cons,
          List.foldlM_nil, r5, r6, Option.bind_eq_bind, Option.some_bind, Option.pure_def]
      · rw [d6, d5]
        exact Upd.of_not _ (fun j h => by simp at h)
      · rw [x6]
        exact u5.mono (fun j => ⟨fun h => ⟨hact, h⟩, fun h => h.2⟩) (fun _ _ => rfl)
      · rw [y5] at u6
        exact u6.mono (fun j => ⟨fun h => ⟨hact, h⟩, fun h => h.2⟩) (fun _ _ => rfl)
  · rw [brushStores_inactive s gx gy y x hact]
    exact ⟨t, rfl, ht, Upd.of_not _ (fun j h => hact h.1.1), Upd.of_not _ (fun j h => hact h.1),
      Upd.of_not _ (fun j h => hact h.1)⟩

/-- Effect of the whole brush scan, pointer down at `(gx, gy)`: the call returns, and each of the
three buffers is rewritten exactly at the entries of the passes that do not `continue`. -/
theorem applyBrush_spec (s : Main) (hs : s.Sized) (gx gy : Int) (hdown : s.mouseDown = true)
    (hg : s.gridCoord = some (gx, gy)) :
    ∃ s', applyBrush s = some s' ∧ BrushReach s s' ∧
      Upd s.density s'.density
        (fun j => ∃ y, -s.radius ≤ y ∧ y < s.radius + 1 ∧ ∃ x, -s.radius ≤ x ∧ x < s.radius + 1 ∧
          (brushActive s gx gy y x ∧ s.mouseRight = false) ∧
          ∃ k, 0 ≤ k ∧ k < 4 ∧ j = ((gy + y) * s.W + (gx + x)) * 4 + k)
        (fun j => chan s.brushColor (j % 4)) ∧
      Upd s.velX s'.velX
        (fun j => ∃ y, -s.radius ≤ y ∧ y < s.radius + 1 ∧ ∃ x, -s.radius ≤ x ∧ x < s.radius + 1 ∧
          brushActive s gx gy y x ∧ j = (gy + y) * ((s.W : Int) + 1) + (gx + x))
        (fun j => peek s.velX j + brushIncrement (s.mouseVel.map Prod.fst) s.brushStrength) ∧
      Upd s.velY s'.velY
        (fun j => ∃ y, -s.radius ≤ y ∧ y < s.radius + 1 ∧ ∃ x, -s.radius ≤ x ∧ x < s.radius + 1 ∧
          brushActive s gx gy y x ∧ j = (gy + y) * s.W + (gx + x))
        (fun j => peek s.velY j + brushIncrement (s.mouseVel.map Prod.snd) s.brushStrength) := by
  have hrun : applyBrush s = forRange (-s.radius) (s.radius + 1) (fun y t =>
      forRange (-s.radius) (s.radius + 1) (fun x t =>
        (brushStores s gx gy y x).foldlM Store.run t) t) s := by
    simp only [applyBrush, hdown, hg, Bool.not_true, Bool.false_eq_true, if_false]
  obtain ⟨s1, e1, b1, u1⟩ := forRange2_upd (fun t : Main => t.density) (BrushReach s)
    (-s.radius) (s.radius + 1) (-s.radius) (s.radius + 1)
    (fun y x t => (brushStores s gx gy y x).foldlM Store.run t)
    (fun y x j => (brushActive s gx gy y x ∧ s.mouseRight = false) ∧
          ∃ k, 0 ≤ k ∧ k < 4 ∧ j = ((gy + y) * s.W + (gx + x)) * 4 + k)
    (fun j _ => chan s.brushColor (j % 4)) s (BrushReach.start s)
    (by
      rintro y x y' x' j ⟨⟨⟨-, a1, a2, a3, a4⟩, -⟩, k, hk0, hk, rfl⟩
        ⟨⟨⟨-, c1, c2, c3, c4⟩, -⟩, k', hk0', hk', h⟩
      have := idx_inj s.W (gy + y) (gx + x) (gy + y') (gx + x') a1 a2 c1 c2 (by omega)
      omega)
    (by
      intro y x t _ _ _ _ ht _
      obtain ⟨t', h1, h2, h3, -, -⟩ := brushPass_spec s hs gx gy y x t ht
      exact ⟨t', h1, h2, h3⟩)
  obtain ⟨s2, e2, -, u2⟩ := forRange2_upd (fun t : Main => t.velX) (BrushReach s)
    (-s.radius) (s.radius + 1) (-s.radius) (s.radius + 1)
    (fun y x t => (brushStores s gx gy y x).foldlM Store.run t)
    (fun y x j => brushActive s gx gy y x ∧ j = (gy + y) * ((s.W : Int) + 1) + (gx + x))
    (fun _ old => old + brushIncrement (s.mouseVel.map Prod.fst) s.brushStrength) s
    (BrushReach.start s)
    (by
      rintro y x y' x' j ⟨⟨-, a1, a2, a3, a4⟩, rfl⟩ ⟨⟨-, c1, c2, c3, c4⟩, h⟩
      have := idx_inj (s.W + 1) (gy + y) (gx + x) (gy + y') (gx + x') a1 (by omega) c1
        (by omega) h
      omega)
    (by
      intro y x t _ _ _ _ ht _
      obtain ⟨t', h1, h2, -, h3, -⟩ := brushPass_spec s hs gx gy y x t ht
      exact ⟨t', h1, h2, h3⟩)
  obtain ⟨s3, e3, -, u3⟩ := forRange2_upd (fun t : Main => t.velY) (BrushReach s)
    (-s.radius) (s.radius + 1) (-s.radius) (s.radius + 1)
    (fun y x t => (brushStores s gx gy y x).foldlM Store.run t)
    (fun y x j => brushActive s gx gy y x ∧ j = (gy + y) * s.W + (gx + x))
    (fun _ old => old + brushIncrement (s.mouseVel.map Prod.snd) s.brushStrength) s
    (BrushReach.start s)
    (by
      rintro y x y' x' j ⟨⟨-, a1, a2, a3, a4⟩, rfl⟩ ⟨⟨-, c1, c2, c3, c4⟩, h⟩
      have := idx_inj s.W (gy + y) (gx + x) (gy + y') (gx + x') a1 a2 c1 c2 h
      omega)
    (by
      intro y x t _ _ _ _ ht _
      obtain ⟨t', h1, h2, -, -, h3⟩ := brushPass_spec s hs gx gy y x t ht
      exact ⟨t', h1, h2, h3⟩)
  have e12 : s2 = s1 := Option.some.inj (e2.symm.trans e1)
  have e13 : s3 = s1 := Option.some.inj (e3.symm.trans e1)
  subst e12 e13
  exact ⟨_, hrun.trans e1, b1, u1, u2, u3⟩

theorem brushIncrement_eq_impulse (v : Option (ℚ × ℚ)) (bs : ℚ) :
    brushIncrement (v.map Prod.fst) bs = (impulse v bs).1 ∧
    brushIncrement (v.map Prod.snd) bs = (impulse v bs).2 := by
  cases v with
  | none => exact ⟨rfl, rfl⟩
  | some m =>
    obtain ⟨mx, my⟩ := m
    exact ⟨brushIncrement_some mx bs, brushIncrement_some my bs⟩

theorem mask_offsets (s : Main) (gx gy px py : Int) (hr : 0 ≤ s.radius)
    (hm : inMask s gx gy px py) (hx0 : 0 ≤ px) (hx : px < s.W) (hy0 : 0 ≤ py) (hy : py < s.H) :
    (-s.radius ≤ py - gy ∧ py - gy < s.radius + 1) ∧
    (-s.radius ≤ px - gx ∧ px - gx < s.radius + 1) ∧
    brushActive s gx gy (py - gy) (px - gx) := by
  unfold inMask at hm
  have h1 : (px - gx) ^ 2 ≤ s.radius ^ 2 := by nlinarith [sq_nonneg (py - gy)]
  have h2 : (py - gy) ^ 2 ≤ s.radius ^ 2 := by nlinarith [sq_nonneg (px - gx)]
  have h3 := abs_le_of_sq_le_sq' h1 hr
  have h4 := abs_le_of_sq_le_sq' h2 hr
  refine ⟨⟨h4.1, by omega⟩, ⟨h3.1, by omega⟩, ?_, by omega, by omega, by omega, by omega⟩
  nlinarith

theorem brushActive_mask (s : Main) (gx gy y x : Int) (h : brushActive s gx gy y x) :
    inMask s gx gy (gx + x) (gy + y) := by
  unfold inMask
  have := h.1
  have e1 : gx + x - gx = x := by ring
  have e2 : gy + y - gy = y := by ring
  rw [e1, e2]
  nlinarith

/-- Velocity effect of the brush, pointer down at `(gx, gy)` with a non-negative radius. -/
theorem applyBrush_velocity (s : Main) (hs : s.Sized) (gx gy : Int) (hdown : s.mouseDown = true)
    (hg : s.gridCoord = some (gx, gy)) (hr : 0 ≤ s.radius) :
    ∃ s', applyBrush s = some s' ∧ BrushReach s s' ∧
      (∀ px py : Int, 0 ≤ px → px < s.W → 0 ≤ py → py < s.H → inMask s gx gy px py →
        peek s'.velX (py * ((s.W : Int) + 1) + px) =
          peek s.velX (py * ((s.W : Int) + 1) + px) + (impulse s.mouseVel s.brushStrength).1 ∧
        peek s'.velY (py * s.W + px) =
          peek s.velY (py * s.W + px) + (impulse s.mouseVel s.brushStrength).2) ∧
      (∀ j : Int, (¬ ∃ px py : Int, 0 ≤ px ∧ px < s.W ∧ 0 ≤ py ∧ py < s.H ∧
          inMask s gx gy px py ∧ j = py * ((s.W : Int) + 1) + px) →
        peek s'.velX j = peek s.velX j) ∧
      (∀ j : Int, (¬ ∃ px py : Int, 0 ≤ px ∧ px < s.W ∧ 0 ≤ py ∧ py < s.H ∧
          inMask s gx gy px py ∧ j = py * (s.W : Int) + px) →
        peek s'.velY j = peek s.velY j) := by
  obtain ⟨s', h1, h2, -, ux, uy⟩ := applyBrush_spec s hs gx gy hdown hg
  obtain ⟨ex, ey⟩ := brushIncrement_eq_impulse s.mouseVel s.brushStrength
  refine ⟨s', h1, h2, ?_, ?_, ?_⟩
  · intro px py hx0 hx hy0 hy hm
    obtain ⟨oy, ox, hact⟩ := mask_offsets s gx gy px py hr hm hx0 hx hy0 hy
    have e1 : gy + (py - gy) = py := by ring
    have e2 : gx + (px - gx) = px := by ring
    constructor
    · rw [(ux.2 _).1 ⟨py - gy, oy.1, oy.2, px - gx, ox.1, ox.2, hact, by rw [e1, e2]⟩, ex]
    · rw [(uy.2 _).1 ⟨py - gy, oy.1, oy.2, px - gx, ox.1, ox.2, hact, by rw [e1, e2]⟩, ey]
  · intro j hj
    refine (ux.2 j).2 ?_
    rintro ⟨y, -, -, x, -, -, hact, rfl⟩
    exact hj ⟨gx + x, gy + y, hact.2.1, hact.2.2.1, hact.2.2.2.1, hact.2.2.2.2,
      brushActive_mask s gx gy y x hact, rfl⟩
  · intro j hj
    refine (uy.2 j).2 ?_
    rintro ⟨y, -, -, x, -, -, hact, rfl⟩
    exact hj ⟨gx + x, gy + y, hact.2.1, hact.2.2.1, hact.2.2.2.1, hact.2.2.2.2,
      brushActive_mask s gx gy y x hact, rfl⟩

/-- Density effect of the brush, pointer down at `(gx, gy)` with a non-negative radius. -/
theorem applyBrush_density (s : Main) (hs : s.Sized) (gx gy : Int) (hdown : s.mouseDown = true)
    (hg : s.gridCoord = some (gx, gy)) (hr : 0 ≤ s.radius) :
    ∃ s', applyBrush s = some s' ∧ BrushReach s s' ∧
      (s.mouseRight = true → s'.density = s.density) ∧
      (s.mouseRight = false →
        ∀ px py k : Int, 0 ≤ px → px < s.W → 0 ≤ py → py < s.H → 0 ≤ k → k < 4 →
          (inMask s gx gy px py →
            peek s'.density ((py * s.W + px) * 4 + k) = chan s.brushColor k) ∧
          (¬ inMask s gx gy px py →
            peek s'.density ((py * s.W + px) * 4 + k) =
              peek s.density ((py * s.W + px) * 4 + k))) := by
  obtain ⟨s', h1, h2, ud, -, -⟩ := applyBrush_spec s hs gx gy hdown hg
  refine ⟨s', h1, h2, ?_, ?_⟩
  · intro hmr
    apply ext_peek _ _ ud.1
    intro j _ _
    refine (ud.2 j).2 ?_
    rintro ⟨y, -, -, x, -, -, ⟨-, hf⟩, -⟩
    rw [hmr] at hf
    exact Bool.noConfusion hf
  · intro hmr px py k hx0 hx hy0 hy hk0 hk
    constructor
    · intro hm
      obtain ⟨oy, ox, hact⟩ := mask_offsets s gx gy px py hr hm hx0 hx hy0 hy
      have e1 : gy + (py - gy) = py := by ring
      have e2 : gx + (px - gx) = px := by ring
      rw [(ud.2 _).1 ⟨py - gy, oy.1, oy.2, px - gx, ox.1, ox.2, ⟨hact, hmr⟩, k, hk0, hk,
        by rw [e1, e2]⟩]
      simp only [(decode_chan _ k hk0 hk).2]
    · intro hm
      refine (ud.2 _).2 ?_
      rintro ⟨y, -, -, x, -, -, ⟨hact, -⟩, k', hk0', hk', h⟩
      have := idx_inj s.W py px (gy + y) (gx + x) hx0 hx hact.2.1 hact.2.2.1 (by omega)
      apply hm
      rw [this.1, this.2]
      exact brushActive_mask s gx gy y x hact

/-! ## Pressure relaxation: what a sweep computes -/

theorem gaussSeidelCell_upd (W H : Int) (div p : List ℚ) (hp : (p.length : Int) = W * H)
    (hd : (div.length : Int) = W * H) (y x : Int) (hi : interior W H y x) :
    ∃ p', gaussSeidelCell W div y x p = some p' ∧
      Upd p p' (fun j => j = y * W + x)
        (fun _ => (peek p (y * W + x - 1) + peek p (y * W + x + 1) + peek p (y * W + x - W) +
          peek p (y * W + x + W) - peek div (y * W + x)) / 4) := by
  obtain ⟨hx0, hx, hy0, hy⟩ := hi
  have hc := idx_bound W H y x (by omega) (by omega) (by omega) (by omega)
  have hb := idx_bound W H (y - 1) x (by omega) (by omega) (by omega) (by omega)
  have ht := idx_bound W H (y + 1) x (by omega) (by omega) (by omega) (by omega)
  have eb : (y - 1) * W + x = y * W + x - W := by ring
  have et : (y + 1) * W + x = y * W + x + W := by ring
  rw [eb] at hb
  rw [et] at ht
  simp only [gaussSeidelCell, rd_eq_some p (y * W + x - 1) (by omega) (by omega),
    rd_eq_some p (y * W + x + 1) (by omega) (by omega),
    rd_eq_some p (y * W + x - W) hb.1 (by omega),
    rd_eq_some p (y * W + x + W) ht.1 (by omega),
    rd_eq_some div (y * W + x) hc.1 (by omega), Option.bind_eq_bind, Option.some_bind]
  exact wr_upd _ _ _ _ hc.1 (by omega) rfl

theorem cell_ne (W y x y' x' : Int) (hx0 : 0 ≤ x) (hx : x < W) (hx0' : 0 ≤ x') (hx' : x' < W)
    (h : ¬ (y = y' ∧ x = x')) : y * W + x ≠ y' * W + x' :=
  fun e => h (idx_inj W y x y' x' hx0 hx hx0' hx' e)

theorem SweepInv.step (W H : Int) (div p q : List ℚ) (hp : (p.length : Int) = W * H)
    (hd : (div.length : Int) = W * H) (y0 x0 : Int) (hi : interior W H y0 x0)
    (hq : SweepInv W H div p y0 x0 q) :
    ∃ q', gaussSeidelCell W div y0 x0 q = some q' ∧ SweepInv W H div p y0 (x0 + 1) q' := by
  obtain ⟨hlen, hframe, heq⟩ := hq
  obtain ⟨q', hq', hlen', hU⟩ := gaussSeidelCell_upd W H div q (by rw [hlen]; exact hp) hd y0 x0 hi
  have hi' := hi
  obtain ⟨hx0, hx, hy0, hy⟩ := hi'
  have hnew := (hU (y0 * W + x0)).1 rfl
  have hold : ∀ j, j ≠ y0 * W + x0 → peek q' j = peek q j := fun j hj => (hU j).2 hj
  refine ⟨q', hq', hlen'.trans hlen, ?_, ?_⟩
  · intro j hj
    have hne : j ≠ y0 * W + x0 := by
      rintro rfl
      exact hj ⟨y0, x0, ⟨hi, Or.inr ⟨rfl, by omega⟩⟩, rfl⟩
    rw [hold j hne]
    apply hframe
    rintro ⟨y, x, ⟨hyx, hlt⟩, rfl⟩
    exact hj ⟨y, x, ⟨hyx, by omega⟩, rfl⟩
  · intro y x ⟨hyx, hlt⟩
    obtain ⟨ax0, ax, ay0, ay⟩ := id hyx
    by_cases hcur : y = y0 ∧ x = x0
    · obtain ⟨rfl, rfl⟩ := hcur
      rw [hnew]
      have e1 : peek q' (y * W + x - 1) = peek q (y * W + x - 1) := hold _ (by omega)
      have e2 : peek q (y * W + x + 1) = peek p (y * W + x + 1) := by
        apply hframe
        rintro ⟨y', x', ⟨hyx', hlt'⟩, e⟩
        have := idx_inj W y (x + 1) y' x' (by omega) (by omega) (by have := hyx'.1; omega)
          (by have := hyx'.2.1; omega) (by rw [← e]; ring)
        omega
      have e3 : peek q' (y * W + x - W) = peek q (y * W + x - W) := hold _ (by omega)
      have e4 : peek q (y * W + x + W) = peek p (y * W + x + W) := by
        apply hframe
        rintro ⟨y', x', ⟨hyx', hlt'⟩, e⟩
        have e' : (y + 1) * W + x = y' * W + x' := by rw [← e]; ring
        have := idx_inj W (y + 1) x y' x' (by omega) (by omega) (by have := hyx'.1; omega)
          (by have := hyx'.2.1; omega) e'
        omega
      rw [e1, e2, e3, e4]
    · have hlt0 : y < y0 ∨ (y = y0 ∧ x < x0) := by omega
      have n0 := cell_ne W y x y0 x0 (by omega) (by omega) (by omega) (by omega) hcur
      have n1 : y * W + x - 1 ≠ y0 * W + x0 := by
        have := cell_ne W y (x - 1) y0 x0 (by omega) (by omega) (by omega) (by omega) (by omega)
        intro e
        exact this (by rw [← e]; ring)
      have n2 : y * W + x - W ≠ y0 * W + x0 := by
        have := cell_ne W (y - 1) x y0 x0 (by omega) (by omega) (by omega) (by omega) (by omega)
        intro e
        exact this (by rw [← e]; ring)
      rw [hold _ n0, hold _ n1, hold _ n2]
      exact heq y x ⟨hyx, hlt0⟩

theorem SweepInv.next_row (W H : Int) (div p q : List ℚ) (y0 : Int)
    (hq : SweepInv W H div p y0 (max 1 (W - 1)) q) : SweepInv W H div p (y0 + 1) 1 q := by
  have key : ∀ y x, sweptBefore W H (y0 + 1) 1 y x ↔ sweptBefore W H y0 (max 1 (W - 1)) y x := by
    intro y x
    unfold sweptBefore interior
    have := le_max_right 1 (W - 1)
    constructor
    · rintro ⟨⟨h1, h2, h3, h4⟩, h5⟩
      exact ⟨⟨h1, h2, h3, h4⟩, by omega⟩
    · rintro ⟨⟨h1, h2, h3, h4⟩, h5⟩
      exact ⟨⟨h1, h2, h3, h4⟩, by omega⟩
  obtain ⟨hlen, hframe, heq⟩ := hq
  refine ⟨hlen, fun j hj => hframe j ?_, fun y x h => heq y x ((key y x).1 h)⟩
  rintro ⟨y, x, h, rfl⟩
  exact hj ⟨y, x, (key y x).2 h, rfl⟩

theorem gaussSeidelSweep_spec (W H : Int) (div p : List ℚ) (hp : (p.length : Int) = W * H)
    (hd : (div.length : Int) = W * H) :
    ∃ q, gaussSeidelSweep W H div p = some q ∧ SweepRel W H div p q := by
  have hrow : ∀ y0 q, 1 ≤ y0 → y0 < H - 1 → SweepInv W H div p y0 1 q →
      ∃ q', forRange 1 (W - 1) (fun x p => gaussSeidelCell W div y0 x p) q = some q' ∧
        SweepInv W H div p (y0 + 1) 1 q' := by
    intro y0 q hy0 hy hq
    rcases le_or_lt 1 (W - 1) with hW | hW
    · obtain ⟨q', h1, h2⟩ := forRange_inv (fun x q => SweepInv W H div p y0 x q) 1 (W - 1)
        (fun x p => gaussSeidelCell W div y0 x p) q hW hq
        (fun x t hx0 hx ht => SweepInv.step W H div p t hp hd y0 x ⟨hx0, hx, hy0, hy⟩ ht)
      refine ⟨q', h1, SweepInv.next_row W H div p q' y0 ?_⟩
      rwa [max_eq_right hW]
    · refine ⟨q, forRange_ge _ _ _ _ (by omega), SweepInv.next_row W H div p q y0 ?_⟩
      rwa [max_eq_left (by omega)]
  have hstart : SweepInv W H div p 1 1 p := by
    refine ⟨rfl, fun _ _ => rfl, ?_⟩
    rintro y x ⟨⟨h1, h2, h3, h4⟩, h5⟩
    omega
  rcases le_or_lt 1 (H - 1) with hH | hH
  · obtain ⟨q, h1, hlen, hframe, heq⟩ := forRange_inv (fun y q => SweepInv W H div p y 1 q)
      1 (H - 1) (fun y p => forRange 1 (W - 1) (fun x p => gaussSeidelCell W div y x p) p) p hH
      hstart (fun y t hy0 hy ht => hrow y t hy0 hy ht)
    refine ⟨q, h1, hlen, fun j hj => hframe j ?_, fun y x h => heq y x ⟨h, Or.inl h.2.2.2⟩⟩
    rintro ⟨y, x, h, rfl⟩
    exact hj ⟨y, x, h.1, rfl⟩
  · refine ⟨p, forRange_ge _ _ _ _ (by omega), rfl, fun _ _ => rfl, ?_⟩
    rintro y x ⟨h1, h2, h3, h4⟩
    omega

theorem forRange_const (n : Nat) (f : List ℚ → Option (List ℚ)) (p : List ℚ) :
    forRange 0 (n : Int) (fun _ q => f q) p =
      Nat.rec (some p) (fun _ acc => acc.bind f) n := by
  induction n with
  | zero => exact forRange_ge 0 0 _ p le_rfl
  | succ n ih =>
    have : ((n + 1 : Nat) : Int) = (n : Int) + 1 := by push_cast; rfl
    rw [this, forRange_succ 0 n _ p (by omega), ih]

theorem sweepN_eq_rec (W H : Int) (div : List ℚ) (n : Nat) (p : List ℚ) :
    sweepN W H div n p = Nat.rec (some p) (fun _ acc => acc.bind (gaussSeidelSweep W H div)) n := by
  induction n with
  | zero => rfl
  | succ n ih => simp only [sweepN, ih]

theorem gaussSeidelPressure_eq (s : Main) :
    gaussSeidelPressure s =
      (sweepN s.W s.H s.divergence s.gsIterations.toNat s.pressure).map
        (fun q => { s with pressure := q }) := by
  have h : forRange 0 s.gsIterations (fun _ p => gaussSeidelSweep s.W s.H s.divergence p) s.pressure
      = sweepN s.W s.H s.divergence s.gsIterations.toNat s.pressure := by
    rw [sweepN_eq_rec]
    rcases le_or_lt 0 s.gsIterations with h0 | h0
    · obtain ⟨n, hn⟩ : ∃ n : Nat, s.gsIterations = n := ⟨s.gsIterations.toNat, by omega⟩
      rw [hn, forRange_const]
      simp
    · have : s.gsIterations.toNat = 0 := by omega
      rw [this, forRange_ge _ _ _ _ (by omega)]
      rfl
  simp only [gaussSeidelPressure, h, Option.bind_eq_bind]
  cases sweepN s.W s.H s.divergence s.gsIterations.toNat s.pressure <;> rfl

theorem sweepN_spec (W H : Int) (div p : List ℚ) (hp : (p.length : Int) = W * H)
    (hd : (div.length : Int) = W * H) (n : Nat) :
    ∃ q, sweepN W H div n p = some q ∧ q.length = p.length ∧
      ∀ j, (¬ ∃ y x, interior W H y x ∧ j = y * W + x) → peek q j = peek p j := by
  induction n with
  | zero => exact ⟨p, rfl, rfl, fun _ _ => rfl⟩
  | succ n ih =>
    obtain ⟨q, hq, hlen, hframe⟩ := ih
    obtain ⟨q', hq', hlen', hframe', -⟩ := gaussSeidelSweep_spec W H div q (by rw [hlen]; exact hp) hd
    refine ⟨q', ?_, hlen'.trans hlen, fun j hj => ?_⟩
    · simp only [sweepN, hq, Option.some_bind, hq']
    · rw [hframe' j hj, hframe j hj]

theorem gaussSeidelPressure_spec (s : Main) (hs : s.Sized) :
    ∃ q, gaussSeidelPressure s = some { s with pressure := q } ∧
      q.length = s.pressure.length ∧
      ∀ j, (¬ ∃ y x, interior s.W s.H y x ∧ j = y * s.W + x) → peek q j = peek s.pressure j := by
  obtain ⟨-, -, -, -, -, hlp, hld⟩ := hs.casts
  obtain ⟨q, hq, hlen, hframe⟩ := sweepN_spec s.W s.H s.divergence s.pressure hlp hld
    s.gsIterations.toNat
  exact ⟨q, by rw [gaussSeidelPressure_eq, hq]; rfl, hlen, hframe⟩

/-- Every flat index below `S * N` is the index `y * S + x` of a cell with `0 ≤ x < S`, `0 ≤ y < N`. -/
theorem grid_index_cases (S N i : Int) (hS0 : 0 ≤ S) (h0 : 0 ≤ i) (h1 : i < S * N) :
    ∃ y x : Int, 0 ≤ y ∧ y < N ∧ 0 ≤ x ∧ x < S ∧ i = y * S + x := by
  have hS : 0 < S := by
    rcases eq_or_lt_of_le hS0 with h | h
    · subst h; simp at h1; omega
    · exact h
  refine ⟨i / S, i % S, Int.ediv_nonneg h0 hS.le, ?_, Int.emod_nonneg _ hS.ne',
    Int.emod_lt_of_pos _ hS, ?_⟩
  · exact Int.ediv_lt_of_lt_mul hS (by linarith [mul_comm S N])
  · have := Int.ediv_add_emod i S
    have h2 : i / S * S = S * (i / S) := mul_comm _ _
    omega

/-! ## Projection: the residual sum never grows under relaxation -/

theorem mem_interiorCells (W H : Int) (c : Int × Int) :
    c ∈ interiorCells W H ↔ interior W H c.1 c.2 := by
  simp only [interiorCells, interior, Finset.mem_product, Finset.mem_Ico]
  tauto

theorem residual_update (W H : Int) (div t t' : List ℚ) (y0 x0 : Int) (hc : interior W H y0 x0)
    (v : ℚ) (hU : Upd t t' (fun j => j = y0 * W + x0) (fun _ => v)) (y x : Int)
    (hn : interior W H y x) :
    residual W div t' y x = residual W div t y x + (v - peek t (y0 * W + x0)) *
      ((if y = y0 ∧ x = x0 + 1 then 1 else 0) + (if y = y0 ∧ x = x0 - 1 then 1 else 0) +
        (if y = y0 + 1 ∧ x = x0 then 1 else 0) + (if y = y0 - 1 ∧ x = x0 then 1 else 0) -
        (if y = y0 ∧ x = x0 then 4 else 0)) := by
  obtain ⟨a1, a2, a3, a4⟩ := hc
  obtain ⟨b1, b2, b3, b4⟩ := hn
  have hpk : ∀ j, peek t' j = peek t j + (if j = y0 * W + x0 then v - peek t (y0 * W + x0) else 0) := by
    intro j
    by_cases hj : j = y0 * W + x0
    · rw [(hU.2 j).1 hj, if_pos hj, hj]; ring
    · rw [(hU.2 j).2 hj, if_neg hj, add_zero]
  have e0 : (y * W + x = y0 * W + x0) ↔ (y = y0 ∧ x = x0) :=
    ⟨fun e => idx_inj W y x y0 x0 (by omega) (by omega) (by omega) (by omega) e,
      fun ⟨h1, h2⟩ => by rw [h1, h2]⟩
  have e1 : (y * W + x - 1 = y0 * W + x0) ↔ (y = y0 ∧ x = x0 + 1) :=
    ⟨fun e => by
      have := idx_inj W y (x - 1) y0 x0 (by omega) (by omega) (by omega) (by omega)
        (by rw [← e]; ring)
      omega, fun ⟨h1, h2⟩ => by rw [h1, h2]; ring⟩
  have e2 : (y * W + x + 1 = y0 * W + x0) ↔ (y = y0 ∧ x = x0 - 1) :=
    ⟨fun e => by
      have := idx_inj W y (x + 1) y0 x0 (by omega) (by omega) (by omega) (by omega)
        (by rw [← e]; ring)
      omega, fun ⟨h1, h2⟩ => by rw [h1, h2]; ring⟩
  have e3 : (y * W + x - W = y0 * W + x0) ↔ (y = y0 + 1 ∧ x = x0) :=
    ⟨fun e => by
      have := idx_inj W (y - 1) x y0 x0 (by omega) (by omega) (by omega) (by omega)
        (by rw [← e]; ring)
      omega, fun ⟨h1, h2⟩ => by rw [h1, h2]; ring⟩
  have e4 : (y * W + x + W = y0 * W + x0) ↔ (y = y0 - 1 ∧ x = x0) :=
    ⟨fun e => by
      have := idx_inj W (y + 1) x y0 x0 (by omega) (by omega) (by omega) (by omega)
        (by rw [← e]; ring)
      omega, fun ⟨h1, h2⟩ => by rw [h1, h2]; ring⟩
  simp only [residual, hpk, e0, e1, e2, e3, e4]
  split_ifs <;> ring

theorem sum_point (S : Finset (Int × Int)) (a : Int × Int) (k : ℚ) :
    (∑ c in S, if c = a then k else 0) = if a ∈ S then k else 0 :=
  Finset.sum_ite_eq' S a (fun _ => k)

theorem stencil_weight (y0 x0 y x : Int) :
    ((if y = y0 ∧ x = x0 + 1 then (1 : ℚ) else 0) + (if y = y0 ∧ x = x0 - 1 then 1 else 0) +
      (if y = y0 + 1 ∧ x = x0 then 1 else 0) + (if y = y0 - 1 ∧ x = x0 then 1 else 0) -
      (if y = y0 ∧ x = x0 then 4 else 0)) =
    if y = y0 ∧ x = x0 then -4
    else if y = y0 ∧ x = x0 + 1 then 1
    else if (y = y0 ∧ x = x0 - 1) ∨ (y = y0 + 1 ∧ x = x0) ∨ (y = y0 - 1 ∧ x = x0) then 1
    else 0 := by
  split_ifs <;> first | (exfalso; omega) | norm_num

theorem stencil_gain (y0 x0 y x : Int) (a b q : ℚ) :
    ((if (y, x) = (y0, x0) then a else 0) + (if (y, x) = (y0, x0 + 1) then b else 0) +
      (if (y, x) = (y0, x0 - 1) then q else 0) + (if (y, x) = (y0 + 1, x0) then q else 0) +
      (if (y, x) = (y0 - 1, x0) then q else 0)) =
    if y = y0 ∧ x = x0 then a
    else if y = y0 ∧ x = x0 + 1 then b
    else if (y = y0 ∧ x = x0 - 1) ∨ (y = y0 + 1 ∧ x = x0) ∨ (y = y0 - 1 ∧ x = x0) then q
    else 0 := by
  simp only [Prod.mk.injEq]
  split_ifs <;> first | (exfalso; omega) | norm_num

/-- Effect of one cell update on the residual sum: it drops by at least a quarter of the
residual just removed, up to what the right neighbour (the cell updated next) picks up. -/
theorem residualSum_update (W H : Int) (div t t' : List ℚ) (y0 x0 : Int)
    (hc : interior W H y0 x0)
    (hU : Upd t t' (fun j => j = y0 * W + x0)
      (fun _ => peek t (y0 * W + x0) + residual W div t y0 x0 / 4)) :
    residualSum W H div t' ≤ residualSum W H div t - |residual W div t y0 x0| / 4 +
      (if x0 + 1 < W - 1 then
        |residual W div t' y0 (x0 + 1)| - |residual W div t y0 (x0 + 1)| else 0) ∧
    residualSum W H div t' ≤ residualSum W H div t := by
  set r := residual W div t y0 x0 with hr
  set R := |residual W div t y0 (x0 + 1) + r / 4| - |residual W div t y0 (x0 + 1)| with hR
  have h4 : |r / 4| = |r| / 4 := by rw [abs_div, abs_of_pos (by norm_num : (0 : ℚ) < 4)]
  have hupd : ∀ y x, interior W H y x →
      residual W div t' y x = residual W div t y x + r / 4 *
        (if y = y0 ∧ x = x0 then -4
          else if y = y0 ∧ x = x0 + 1 then 1
          else if (y = y0 ∧ x = x0 - 1) ∨ (y = y0 + 1 ∧ x = x0) ∨ (y = y0 - 1 ∧ x = x0) then 1
          else 0) := by
    intro y x hn
    have := residual_update W H div t t' y0 x0 hc _ hU y x hn
    rw [this, stencil_weight]
    congr 2
    ring
  have hRle : R ≤ |r| / 4 := by
    rw [hR]
    have := abs_add (residual W div t y0 (x0 + 1)) (r / 4)
    linarith
  have hpt : ∀ c ∈ interiorCells W H, |residual W div t' c.1 c.2| ≤ |residual W div t c.1 c.2| +
      ((if c = (y0, x0) then -|r| else 0) + (if c = (y0, x0 + 1) then R else 0) +
        (if c = (y0, x0 - 1) then |r| / 4 else 0) + (if c = (y0 + 1, x0) then |r| / 4 else 0) +
        (if c = (y0 - 1, x0) then |r| / 4 else 0)) := by
    rintro ⟨y, x⟩ hmem
    have hn := (mem_interiorCells W H _).1 hmem
    rw [stencil_gain, hupd y x hn]
    split_ifs with c0 c1 c2
    · obtain ⟨rfl, rfl⟩ := c0
      have : residual W div t y x + r / 4 * -4 = 0 := by rw [← hr]; ring
      rw [this, abs_zero, ← hr]
      linarith
    · obtain ⟨rfl, rfl⟩ := c1
      rw [hR, mul_one]
      linarith
    · rw [mul_one]
      have := abs_add (residual W div t y x) (r / 4)
      linarith
    · rw [mul_zero, add_zero, add_zero]
  have hsum := Finset.sum_le_sum hpt
  simp only [Finset.sum_add_distrib, sum_point] at hsum
  have hcmem : (y0, x0) ∈ interiorCells W H := (mem_interiorCells W H _).2 hc
  have hright : ((y0, x0 + 1) ∈ interiorCells W H) ↔ x0 + 1 < W - 1 := by
    rw [mem_interiorCells]
    unfold interior
    have := hc.1; have := hc.2.2.1; have := hc.2.2.2
    constructor
    · intro h; exact h.2.1
    · intro h; exact ⟨by omega, h, by omega, by omega⟩
  have hnn : 0 ≤ |r| / 4 := by positivity
  have b1 : (if (y0, x0 - 1) ∈ interiorCells W H then |r| / 4 else 0) ≤ |r| / 4 := by
    split_ifs <;> linarith
  have b2 : (if (y0 + 1, x0) ∈ interiorCells W H then |r| / 4 else 0) ≤ |r| / 4 := by
    split_ifs <;> linarith
  have b3 : (if (y0 - 1, x0) ∈ interiorCells W H then |r| / 4 else 0) ≤ |r| / 4 := by
    split_ifs <;> linarith
  rw [if_pos hcmem] at hsum
  simp only [hright] at hsum
  have hRR : (if x0 + 1 < W - 1 then R else 0) =
      (if x0 + 1 < W - 1 then
        |residual W div t' y0 (x0 + 1)| - |residual W div t y0 (x0 + 1)| else 0) := by
    split_ifs with hx
    · have := hupd y0 (x0 + 1) ⟨by have := hc.1; omega, hx, hc.2.2.1, hc.2.2.2⟩
      rw [this, hR]
      have h1 : ¬ (y0 = y0 ∧ x0 + 1 = x0) := by omega
      rw [if_neg h1, if_pos ⟨rfl, rfl⟩, mul_one]
    · rfl
  unfold residualSum
  constructor
  · rw [← hRR]
    linarith
  · have : (if x0 + 1 < W - 1 then R else 0) ≤ |r| / 4 := by
      split_ifs
      · exact hRle
      · exact hnn
    linarith


theorem gaussSeidelCell_progress (W H : Int) (div t : List ℚ) (ht : (t.length : Int) = W * H)
    (hd : (div.length : Int) = W * H) (y0 x0 : Int) (hc : interior W H y0 x0) :
    ∃ t', gaussSeidelCell W div y0 x0 t = some t' ∧ t'.length = t.length ∧
      residualSum W H div t' ≤ residualSum W H div t - |residual W div t y0 x0| / 4 +
        (if x0 + 1 < W - 1 then
          |residual W div t' y0 (x0 + 1)| - |residual W div t y0 (x0 + 1)| else 0) ∧
      residualSum W H div t' ≤ residualSum W H div t ∧
      (residual W div t y0 x0 = 0 → t' = t) := by
  obtain ⟨t', h1, hU⟩ := gaussSeidelCell_upd W H div t ht hd y0 x0 hc
  have hU' : Upd t t' (fun j => j = y0 * W + x0)
      (fun _ => peek t (y0 * W + x0) + residual W div t y0 x0 / 4) := by
    refine hU.mono (fun _ => Iff.rfl) (fun _ _ => ?_)
    unfold residual
    ring
  obtain ⟨h2, h3⟩ := residualSum_update W H div t t' y0 x0 hc hU'
  refine ⟨t', h1, hU.1, h2, h3, fun h0 => ?_⟩
  apply ext_peek _ _ hU.1
  intro j _ _
  by_cases hj : j = y0 * W + x0
  · rw [(hU'.2 j).1 hj, h0, hj]
    ring
  · exact (hU'.2 j).2 hj

theorem gaussSeidelRow_progress (W H : Int) (div q : List ℚ) (hq : (q.length : Int) = W * H)
    (hd : (div.length : Int) = W * H) (y0 : Int) (hy0 : 1 ≤ y0) (hy : y0 < H - 1) :
    ∃ q', forRange 1 (W - 1) (fun x p => gaussSeidelCell W div y0 x p) q = some q' ∧
      q'.length = q.length ∧ residualSum W H div q' ≤ residualSum W H div q ∧
      (residualSum W H div q' < residualSum W H div q ∨ q' = q) := by
  rcases le_or_lt 1 (W - 1) with hW | hW
  · obtain ⟨q', h1, hlen, hle, hcase⟩ := forRange_inv
      (fun x t => t.length = q.length ∧ residualSum W H div t ≤ residualSum W H div q ∧
        (residualSum W H div t < residualSum W H div q ∨ t = q ∨
          (x < W - 1 ∧ residual W div t y0 x ≠ 0)))
      1 (W - 1) (fun x p => gaussSeidelCell W div y0 x p) q hW
      ⟨rfl, le_rfl, Or.inr (Or.inl rfl)⟩
      (by
        rintro x t hx0 hx ⟨hlen, hle, hcase⟩
        obtain ⟨t', e1, e2, e3, e4, e5⟩ := gaussSeidelCell_progress W H div t
          (by rw [hlen]; exact hq) hd y0 x ⟨hx0, hx, hy0, hy⟩
        refine ⟨t', e1, e2.trans hlen, e4.trans hle, ?_⟩
        have hmove : residual W div t y0 x ≠ 0 →
            residualSum W H div t' < residualSum W H div q ∨ t' = q ∨
              (x + 1 < W - 1 ∧ residual W div t' y0 (x + 1) ≠ 0) := by
          intro hne
          have hpos : 0 < |residual W div t y0 x| / 4 := by positivity
          by_cases hx1 : x + 1 < W - 1
          · rw [if_pos hx1] at e3
            by_cases hz : residual W div t' y0 (x + 1) = 0
            · left
              rw [hz, abs_zero] at e3
              have := abs_nonneg (residual W div t y0 (x + 1))
              linarith
            · exact Or.inr (Or.inr ⟨hx1, hz⟩)
          · left
            rw [if_neg hx1] at e3
            linarith
        rcases hcase with h | h | h
        · exact Or.inl (lt_of_le_of_lt e4 h)
        · by_cases hz : residual W div t y0 x = 0
          · exact Or.inr (Or.inl ((e5 hz).trans h))
          · exact hmove hz
        · exact hmove h.2)
    refine ⟨q', h1, hlen, hle, ?_⟩
    rcases hcase with h | h | h
    · exact Or.inl h
    · exact Or.inr h
    · exact absurd h.1 (lt_irrefl _)
  · exact ⟨q, forRange_ge _ _ _ _ (by omega), rfl, le_rfl, Or.inr rfl⟩

theorem gaussSeidelSweep_progress (W H : Int) (div q : List ℚ) (hq : (q.length : Int) = W * H)
    (hd : (div.length : Int) = W * H) :
    ∃ q', gaussSeidelSweep W H div q = some q' ∧ q'.length = q.length ∧
      residualSum W H div q' ≤ residualSum W H div q ∧
      (residualSum W H div q' < residualSum W H div q ∨ q' = q) := by
  rcases le_or_lt 1 (H - 1) with hH | hH
  · obtain ⟨q', h1, hlen, hle, hcase⟩ := forRange_inv
      (fun _ t => t.length = q.length ∧ residualSum W H div t ≤ residualSum W H div q ∧
        (residualSum W H div t < residualSum W H div q ∨ t = q))
      1 (H - 1) (fun y p => forRange 1 (W - 1) (fun x p => gaussSeidelCell W div y x p) p) q hH
      ⟨rfl, le_rfl, Or.inr rfl⟩
      (by
        rintro y t hy0 hy ⟨hlen, hle, hcase⟩
        obtain ⟨t', e1, e2, e3, e4⟩ := gaussSeidelRow_progress W H div t
          (by rw [hlen]; exact hq) hd y hy0 hy
        refine ⟨t', e1, e2.trans hlen, e3.trans hle, ?_⟩
        rcases hcase with h | h
        · exact Or.inl (lt_of_le_of_lt e3 h)
        · rcases e4 with h' | h'
          · left; rw [← h]; exact h'
          · right; exact h'.trans h)
    exact ⟨q', h1, hlen, hle, hcase⟩
  · exact ⟨q, forRange_ge _ _ _ _ (by omega), rfl, le_rfl, Or.inr rfl⟩

theorem residualSum_fixed (W H : Int) (div q : List ℚ) (hq : (q.length : Int) = W * H)
    (hd : (div.length : Int) = W * H) (h : gaussSeidelSweep W H div q = some q) :
    residualSum W H div q = 0 := by
  obtain ⟨q', h1, -, -, heq⟩ := gaussSeidelSweep_spec W H div q hq hd
  have : q' = q := Option.some.inj (h1.symm.trans h)
  subst this
  unfold residualSum
  apply Finset.sum_eq_zero
  intro c hc
  have := heq c.1 c.2 ((mem_interiorCells W H c).1 hc)
  rw [abs_eq_zero]
  unfold residual
  linarith

theorem sweepN_progress (W H : Int) (div q : List ℚ) (hq : (q.length : Int) = W * H)
    (hd : (div.length : Int) = W * H) (n : Nat) :
    ∃ q', sweepN W H div n q = some q' ∧ q'.length = q.length ∧
      residualSum W H div q' ≤ residualSum W H div q ∧
      (1 ≤ n → residualSum W H div q' < residualSum W H div q ∨ residualSum W H div q = 0) := by
  induction n with
  | zero => exact ⟨q, rfl, rfl, le_rfl, fun h => absurd h (by decide)⟩
  | succ n ih =>
    obtain ⟨qn, e1, e2, e3, e4⟩ := ih
    obtain ⟨q', f1, f2, f3, f4⟩ := gaussSeidelSweep_progress W H div qn (by rw [e2]; exact hq) hd
    refine ⟨q', by simp only [sweepN, e1, Option.some_bind, f1], f2.trans e2, f3.trans e3, fun _ => ?_⟩
    rcases Nat.eq_zero_or_pos n with hn | hn
    · subst hn
      have : qn = q := Option.some.inj e1.symm
      subst this
      rcases f4 with h | h
      · exact Or.inl h
      · right
        rw [h] at f1
        exact residualSum_fixed W H div qn hq hd f1
    · rcases e4 hn with h | h
      · exact Or.inl (lt_of_le_of_lt f3 h)
      · exact Or.inr h


/-- With `cellSize = 1`, gradient subtraction lowers the divergence of every interior cell by
the 5-point Laplacian of the pressure there. -/
theorem subtractGradient_divAt (s : Main) (hs : s.Sized) (hc : s.cellSize = 1) :
    ∃ vx vy, subtractGradient s = some { s with velX := vx, velY := vy } ∧
      vx.length = s.velX.length ∧ vy.length = s.velY.length ∧
      ∀ y x : Int, interior s.W s.H y x →
        divAt vx vy s.W 1 y x =
          divAt s.velX s.velY s.W 1 y x - laplacian s.W s.pressure y x := by
  obtain ⟨vx, vy, h, hlx, hly, hx, hy⟩ := subtractGradient_spec s hs
  refine ⟨vx, vy, h, by rw [hlx, hs.velX], by rw [hly, hs.velY], ?_⟩
  rintro y x ⟨x1, x2, y1, y2⟩
  have a1 := hx y (x + 1) (by omega) (by omega) (by omega) (by omega)
  have a2 := hx y x (by omega) (by omega) (by omega) (by omega)
  have a3 := hy (y + 1) x (by omega) (by omega) (by omega) (by omega)
  have a4 := hy y x (by omega) (by omega) (by omega) (by omega)
  have m1 : min ((s.W : Int) - 1) (x + 1) = x + 1 := min_eq_right (by omega)
  have m2 : max 0 (x + 1 - 1) = x := by rw [max_eq_right (by omega)]; ring
  have m3 : min ((s.W : Int) - 1) x = x := min_eq_right (by omega)
  have m4 : max 0 (x - 1) = x - 1 := max_eq_right (by omega)
  have m5 : min ((s.H : Int) - 1) (y + 1) = y + 1 := min_eq_right (by omega)
  have m6 : max 0 (y + 1 - 1) = y := by rw [max_eq_right (by omega)]; ring
  have m7 : min ((s.H : Int) - 1) y = y := min_eq_right (by omega)
  have m8 : max 0 (y - 1) = y - 1 := max_eq_right (by omega)
  rw [m1, m2, hc] at a1
  rw [m3, m4, hc] at a2
  rw [m5, m6, hc] at a3
  rw [m7, m8, hc] at a4
  have i1 : y * ((s.W : Int) + 1) + x + 1 = y * ((s.W : Int) + 1) + (x + 1) := by ring
  have i2 : y * (s.W : Int) + x + 1 = y * s.W + (x + 1) := by ring
  have i3 : y * (s.W : Int) + x - 1 = y * s.W + (x - 1) := by ring
  have i4 : y * (s.W : Int) + x - s.W = (y - 1) * s.W + x := by ring
  have i5 : y * (s.W : Int) + x + s.W = (y + 1) * s.W + x := by ring
  unfold divAt laplacian
  rw [i1, i2, i3, i4, i5, a1, a2, a3, a4]
  ring

theorem interiorCells_card_pos (W H : Int) (hW : 3 ≤ W) (hH : 3 ≤ H) :
    (0 : ℚ) < (interiorCells W H).card := by
  have : (interiorCells W H).Nonempty :=
    ⟨(1, 1), (mem_interiorCells W H _).2 ⟨le_rfl, by omega, le_rfl, by omega⟩⟩
  exact_mod_cast Finset.card_pos.mpr this

/-- The projection stage with `cellSize = 1`: it returns, the absolute interior divergence of
the new velocity field sums to the residual sum of the relaxed pressure, and that sum is at
most the residual sum of the pressure the stage started from; after at least one sweep it
is strictly smaller unless the latter was zero. -/
theorem project_spec (s : Main) (hs : s.Sized) (hc : s.cellSize = 1) :
    ∃ s' d, project s = some s' ∧ s'.W = s.W ∧ s'.H = s.H ∧ s'.cellSize = 1 ∧
      (∀ y x : Int, 0 ≤ y → y < s.H → 0 ≤ x → x < s.W →
        peek d (y * s.W + x) = divAt s.velX s.velY s.W 1 y x) ∧
      (∑ c in interiorCells s.W s.H, |divAt s'.velX s'.velY s.W 1 c.1 c.2|) ≤
        residualSum s.W s.H d s.pressure ∧
      (1 ≤ s.gsIterations →
        (∑ c in interiorCells s.W s.H, |divAt s'.velX s'.velY s.W 1 c.1 c.2|) <
            residualSum s.W s.H d s.pressure ∨
          residualSum s.W s.H d s.pressure = 0) := by
  obtain ⟨d, h1, hdl, hd⟩ := computeDivergence_spec s hs
  obtain ⟨-, -, -, -, -, hlp, -⟩ := hs.casts
  have hdl' : ((d.length : Nat) : Int) = s.W * s.H := by rw [hdl]; push_cast; ring
  obtain ⟨q, h2, hql, hle, hlt⟩ := sweepN_progress s.W s.H d s.pressure hlp hdl'
    s.gsIterations.toNat
  have hs2 : ({ s with divergence := d, pressure := q } : Main).Sized :=
    ⟨hs.hW, hs.hH, hs.velX, hs.velY, hs.density, hql.trans hs.pressure, hdl⟩
  obtain ⟨vx, vy, h3, -, -, hdiv⟩ := subtractGradient_divAt _ hs2 hc
  have hsum : (∑ c in interiorCells s.W s.H, |divAt vx vy s.W 1 c.1 c.2|) =
      residualSum s.W s.H d q := by
    unfold residualSum
    apply Finset.sum_congr rfl
    intro c hcm
    have hi := (mem_interiorCells s.W s.H c).1 hcm
    rw [hdiv c.1 c.2 hi, ← abs_neg]
    congr 1
    have := hd c.1 c.2 (by have := hi.2.2.1; omega) (by have := hi.2.2.2; omega)
      (by have := hi.1; omega) (by have := hi.2.1; omega)
    rw [hc] at this
    simp only [residual, laplacian, this]
    ring
  refine ⟨{ s with divergence := d, pressure := q, velX := vx, velY := vy }, d, ?_, rfl, rfl, hc,
    ?_, ?_, ?_⟩
  · simp only [project, h1, Option.bind_eq_bind, Option.some_bind]
    rw [gaussSeidelPressure_eq]
    simp only [h2, Option.map_some', Option.some_bind]
    exact h3
  · intro y x hy0 hy hx0 hx
    rw [hd y x hy0 hy hx0 hx, hc]
  · rw [hsum]
    exact hle
  · intro hn
    rw [hsum]
    exact hlt (by omega)


theorem peek_replicate_zero (n : Nat) (i : Int) : peek (List.replicate n (0 : ℚ)) i = 0 :=
  peek_zero_of_all_zero _ (fun _ hv => (List.mem_replicate.mp hv).2) i

theorem meanAbsInteriorDiv_nonneg (s : Main) : 0 ≤ meanAbsInteriorDiv s := by
  unfold meanAbsInteriorDiv
  exact div_nonneg (Finset.sum_nonneg (fun _ _ => abs_nonneg _)) (Nat.cast_nonneg _)

/-- With the pressure buffer zero on entry and `cellSize = 1`, the projection stage returns a
velocity field whose summed absolute interior divergence is at most the one before, and
strictly smaller after at least one sweep unless it was zero. -/
theorem project_zero_pressure (s : Main) (hs : s.Sized) (hc : s.cellSize = 1)
    (hp : ∀ v ∈ s.pressure, v = 0) :
    ∃ s', project s = some s' ∧ s'.W = s.W ∧ s'.H = s.H ∧ s'.cellSize = 1 ∧
      (∑ c in interiorCells s.W s.H, |divAt s'.velX s'.velY s.W 1 c.1 c.2|) ≤
        (∑ c in interiorCells s.W s.H, |divAt s.velX s.velY s.W 1 c.1 c.2|) ∧
      (1 ≤ s.gsIterations →
        (∑ c in interiorCells s.W s.H, |divAt s'.velX s'.velY s.W 1 c.1 c.2|) <
            (∑ c in interiorCells s.W s.H, |divAt s.velX s.velY s.W 1 c.1 c.2|) ∨
          (∑ c in interiorCells s.W s.H, |divAt s.velX s.velY s.W 1 c.1 c.2|) = 0) := by
  obtain ⟨s', d, h1, h2, h3, h4, hd, hle, hlt⟩ := project_spec s hs hc
  have hres : residualSum s.W s.H d s.pressure =
      ∑ c in interiorCells s.W s.H, |divAt s.velX s.velY s.W 1 c.1 c.2| := by
    unfold residualSum
    apply Finset.sum_congr rfl
    intro c hcm
    have hi := (mem_interiorCells s.W s.H c).1 hcm
    have := hd c.1 c.2 (by have := hi.2.2.1; omega) (by have := hi.2.2.2; omega)
      (by have := hi.1; omega) (by have := hi.2.1; omega)
    rw [← abs_neg]
    congr 1
    simp only [residual, peek_zero_of_all_zero _ hp, this]
    ring
  rw [hres] at hle hlt
  exact ⟨s', h1, h2, h3, h4, hle, hlt⟩

/-! ## Claims -/

/-- C1. Density conservation under zero advection: on a grid with `W, H ≥ 1` and buffers of
the sizes `initGrid` gives them, for every timestep and density field, if every entry of
`velX` and `velY` is zero then `advectDensity` returns the state unchanged, so every
channel of every cell keeps its previous value. -/
theorem C1_advectDensity_zero_velocity (s : Main) (hs : s.Sized)
    (hvx : ∀ v ∈ s.velX, v = 0) (hvy : ∀ v ∈ s.velY, v = 0) :
    advectDensity s = some s := by
  obtain ⟨nd, hnd, hlen, hval⟩ := advectDensity_spec s hs
  rw [hnd]
  have : nd = s.density := by
    apply ext_peek _ _ (by rw [hlen, hs.density])
    intro i h0 h1
    obtain ⟨y, x, k, hy0, hy, hx0, hx, hk0, hk, rfl⟩ :=
      density_index_cases s.W s.H i h0 (by rw [hlen] at h1; exact_mod_cast h1)
    rw [hval y x k hy0 hy hx0 hx hk0 hk]
    have hxq : max (0 : ℚ) (min (((s.W : Int) : ℚ) - 1) (x : ℚ)) = x := by
      have h1 : (x : ℚ) ≤ ((s.W : Int) : ℚ) - 1 := by
        have : x ≤ (s.W : Int) - 1 := by omega
        exact_mod_cast this
      have h2 : (0 : ℚ) ≤ x := by exact_mod_cast hx0
      rw [min_eq_right h1, max_eq_right h2]
    have hyq : max (0 : ℚ) (min (((s.H : Int) : ℚ) - 1) (y : ℚ)) = y := by
      have h1 : (y : ℚ) ≤ ((s.H : Int) : ℚ) - 1 := by
        have : y ≤ (s.H : Int) - 1 := by omega
        exact_mod_cast this
      have h2 : (0 : ℚ) ≤ y := by exact_mod_cast hy0
      rw [min_eq_right h1, max_eq_right h2]
    simp only [densitySample, peek_zero_of_all_zero _ hvx, peek_zero_of_all_zero _ hvy, zero_mul,
      sub_zero, hxq, hyq, Int.floor_intCast, sub_self, one_mul, zero_mul, add_zero]
  subst this
  rfl

theorem peek_map_mul (a : List ℚ) (c : ℚ) (i : Int) :
    peek (a.map (fun v => v * c)) i = peek a i * c := by
  by_cases hi : 0 ≤ i ∧ i < a.length
  · obtain ⟨n, rfl⟩ : ∃ n : Nat, i = n := ⟨i.toNat, by omega⟩
    have hn : n < a.length := by omega
    rw [peek_eq_getElem a n hn, peek_eq_getElem _ n (by simpa using hn)]
    simp
  · rw [peek_of_not_mem a i hi, peek_of_not_mem _ i (by simpa using hi), zero_mul]

theorem decayDensity_spec (s : Main) :
    decayDensity s = some { s with density := s.density.map (fun v => v * s.smokeDecay) } := by
  obtain ⟨d, hd, hlen, hU⟩ := forRange_upd_list 0 s.density.length
    (fun i d => (rd d i).bind (fun v => wr d i (v * s.smokeDecay)))
    (fun i j => j = i) (fun j => peek s.density j * s.smokeDecay) s.density
    (by
      rintro i i' j - hlt - rfl h
      omega)
    (by
      intro i a hi0 hi ha hpre
      simp only [rd_eq_some a i hi0 (by rw [ha]; exact hi), Option.some_bind]
      exact wr_upd _ _ _ _ hi0 (by rw [ha]; exact hi) (by rw [hpre i rfl]))
  have hdm : d = s.density.map (fun v => v * s.smokeDecay) := by
    apply ext_peek _ _ (by rw [hlen]; simp)
    intro i h0 h1
    rw [(hU i).1 ⟨i, h0, by rw [← hlen]; exact h1, rfl⟩, peek_map_mul]
  subst hdm
  simp only [decayDensity, Option.bind_eq_bind]
  rw [hd]
  rfl

/-- C3. Decay law: for every density field, decay factor `d = smokeDecay` and `n ≥ 0`,
applying `decayDensity` `n` times returns the state whose density buffer is the original
one with every entry multiplied by `d ^ n` (so entry `i` is `density[i] * d ^ n`), all other
fields unchanged; a single application multiplies every entry by the same factor `d`. -/
theorem C3_decay_law (s : Main) (n : Nat) :
    decayDensityN n s = some { s with density := s.density.map (fun v => v * s.smokeDecay ^ n) } ∧
    (∀ i : Int, peek (s.density.map (fun v => v * s.smokeDecay ^ n)) i =
      peek s.density i * s.smokeDecay ^ n) ∧
    decayDensity s = some { s with density := s.density.map (fun v => v * s.smokeDecay) } := by
  refine ⟨?_, fun i => peek_map_mul s.density _ i, decayDensity_spec s⟩
  induction n with
  | zero => simp [decayDensityN]
  | succ n ih =>
    simp only [decayDensityN, ih, Option.some_bind, decayDensity_spec, List.map_map]
    congr 2
    apply List.map_congr_left
    intro v _
    simp only [Function.comp_apply]
    ring

theorem BrushReach.sized {s t : Main} (h : BrushReach s t) (hs : s.Sized) : t.Sized := by
  obtain ⟨d, vx, vy, rfl, hd, hvx, hvy⟩ := h
  exact ⟨hs.hW, hs.hH, hvx.trans hs.velX, hvy.trans hs.velY, hd.trans hs.density, hs.pressure,
    hs.divergence⟩

theorem applyBrush_returns (s : Main) (hs : s.Sized) : ∃ s', applyBrush s = some s' := by
  cases hd : s.mouseDown
  · exact ⟨s, by simp [applyBrush, hd]⟩
  · cases hg : s.gridCoord with
    | none => exact ⟨s, by simp [applyBrush, hd, hg]⟩
    | some g =>
      obtain ⟨gx, gy⟩ := g
      obtain ⟨s', h, -⟩ := applyBrush_spec s hs gx gy hd hg
      exact ⟨s', h⟩

/-- C1 at a concrete state: a `2 × 1` grid at rest keeps its density under `advectDensity`. -/
theorem C1_advectDensity_zero_velocity_witness :
    restDemo.Sized ∧ (∀ v ∈ restDemo.velX, v = 0) ∧ (∀ v ∈ restDemo.velY, v = 0) ∧
      advectDensity restDemo = some restDemo :=
  have hs : restDemo.Sized := ⟨by decide, by decide, rfl, rfl, rfl, rfl, rfl⟩
  have hx : ∀ v ∈ restDemo.velX, v = 0 := by simp [restDemo]
  have hy : ∀ v ∈ restDemo.velY, v = 0 := by simp [restDemo]
  ⟨hs, hx, hy, C1_advectDensity_zero_velocity restDemo hs hx hy⟩

/-- C4. Boundary containment of the brush: on a grid with `W, H ≥ 1`, for every brush cell
and every radius (also one larger than the grid), `applyBrush` returns with every store
inside its buffer; each store of a pass with offset `(x, y)` addresses the cell
`(px, py) = (gx + x, gy + y)`, which satisfies `0 ≤ px < W` and `0 ≤ py < H`, at the density
index `(py * W + px) * 4 + k`, the `velX` index `py * (W + 1) + px` or the `velY` index
`py * W + px`, inside the respective buffer; and a pass whose offset falls outside the grid
performs no store at all (it is skipped, not clamped onto an edge cell). -/
theorem C4_brush_containment (s : Main) (hs : s.Sized) :
    (∃ s', applyBrush s = some s') ∧
    (∀ gx gy y x : Int, ∀ st ∈ brushStores s gx gy y x,
      (0 ≤ gx + x ∧ gx + x < s.W ∧ 0 ≤ gy + y ∧ gy + y < s.H) ∧
        st.inCell s (gx + x) (gy + y)) ∧
    (∀ gx gy y x : Int, ¬ (0 ≤ gx + x ∧ gx + x < s.W ∧ 0 ≤ gy + y ∧ gy + y < s.H) →
      brushStores s gx gy y x = []) := by
  refine ⟨applyBrush_returns s hs, ?_, ?_⟩
  · intro gx gy y x st hst
    by_cases hact : brushActive s gx gy y x
    · obtain ⟨hW, hH, hlx, hly, hld, -, -⟩ := hs.casts
      obtain ⟨-, hx0, hx1, hy0, hy1⟩ := id hact
      have hc := idx_bound s.W s.H (gy + y) (gx + x) hy0 hy1 hx0 hx1
      have hbx := idx_bound (s.W + 1) s.H (gy + y) (gx + x) hy0 hy1 hx0 (by omega)
      have hby := idx_bound s.W (s.H + 1) (gy + y) (gx + x) hy0 (by omega) hx0 hx1
      refine ⟨⟨hx0, hx1, hy0, hy1⟩, ?_⟩
      rw [brushStores_active s gx gy y x hact] at hst
      rcases List.mem_append.mp hst with h | h
      · split_ifs at h
        · simp only [List.mem_cons, List.mem_singleton, List.not_mem_nil, or_false] at h
          rcases h with rfl | rfl | rfl | rfl
          · exact ⟨⟨0, by omega, by omega, rfl⟩, by omega, by rw [hld]; omega⟩
          · exact ⟨⟨1, by omega, by omega, rfl⟩, by omega, by rw [hld]; omega⟩
          · exact ⟨⟨2, by omega, by omega, rfl⟩, by omega, by rw [hld]; omega⟩
          · exact ⟨⟨3, by omega, by omega, rfl⟩, by omega, by rw [hld]; omega⟩
        · simp at h
      · simp only [List.mem_cons, List.mem_singleton, List.not_mem_nil, or_false] at h
        rcases h with rfl | rfl
        · exact ⟨rfl, hbx.1, by rw [hlx]; exact hbx.2⟩
        · exact ⟨rfl, hby.1, by rw [hly]; exact hby.2⟩
    · rw [brushStores_inactive s gx gy y x hact] at hst
      simp at hst
  · intro gx gy y x h
    exact brushStores_inactive s gx gy y x (fun hact => h hact.2)

/-- C4 at a concrete state: a radius-5 brush on a `2 × 2` grid. -/
theorem C4_brush_containment_witness :
    wideBrushDemo.Sized ∧
    ((∃ s', applyBrush wideBrushDemo = some s') ∧
    (∀ gx gy y x : Int, ∀ st ∈ brushStores wideBrushDemo gx gy y x,
      (0 ≤ gx + x ∧ gx + x < wideBrushDemo.W ∧ 0 ≤ gy + y ∧ gy + y < wideBrushDemo.H) ∧
        st.inCell wideBrushDemo (gx + x) (gy + y)) ∧
    (∀ gx gy y x : Int,
      ¬ (0 ≤ gx + x ∧ gx + x < wideBrushDemo.W ∧ 0 ≤ gy + y ∧ gy + y < wideBrushDemo.H) →
      brushStores wideBrushDemo gx gy y x = [])) :=
  have hs : wideBrushDemo.Sized := ⟨by decide, by decide, rfl, rfl, rfl, rfl, rfl⟩
  ⟨hs, C4_brush_containment wideBrushDemo hs⟩

/-- C5. Brush velocity impulse: with the pointer down at cell `(gx, gy)`, pointer velocity
`mouseVel`, radius `r ≥ 0` and brush strength `s`, for either action `applyBrush` returns a
state in which `velX[py * (W + 1) + px]` has grown by `mx * s * 0.01` and `velY[py * W + px]`
by `my * s * 0.01` for every grid cell `(px, py)` with `(px - gx)² + (py - gy)² ≤ r²` (by
zero when no pointer velocity is set), and every other entry of `velX` and `velY` is unchanged. -/
theorem C5_brush_velocity_impulse (s : Main) (hs : s.Sized) (gx gy : Int)
    (hdown : s.mouseDown = true) (hg : s.gridCoord = some (gx, gy)) (hr : 0 ≤ s.radius) :
    ∃ s', applyBrush s = some s' ∧
      (∀ px py : Int, 0 ≤ px → px < s.W → 0 ≤ py → py < s.H → inMask s gx gy px py →
        peek s'.velX (py * ((s.W : Int) + 1) + px) =
          peek s.velX (py * ((s.W : Int) + 1) + px) + (impulse s.mouseVel s.brushStrength).1 ∧
        peek s'.velY (py * s.W + px) =
          peek s.velY (py * s.W + px) + (impulse s.mouseVel s.brushStrength).2) ∧
      (∀ j : Int, (¬ ∃ px py : Int, 0 ≤ px ∧ px < s.W ∧ 0 ≤ py ∧ py < s.H ∧
          inMask s gx gy px py ∧ j = py * ((s.W : Int) + 1) + px) →
        peek s'.velX j = peek s.velX j) ∧
      (∀ j : Int, (¬ ∃ px py : Int, 0 ≤ px ∧ px < s.W ∧ 0 ≤ py ∧ py < s.H ∧
          inMask s gx gy px py ∧ j = py * (s.W : Int) + px) →
        peek s'.velY j = peek s.velY j) ∧
      s'.velX.length = s.velX.length ∧ s'.velY.length = s.velY.length := by
  obtain ⟨s', h1, h2, h3, h4, h5⟩ := applyBrush_velocity s hs gx gy hdown hg hr
  obtain ⟨d, vx, vy, rfl, -, hvx, hvy⟩ := h2
  exact ⟨_, h1, h3, h4, h5, hvx, hvy⟩

/-- C5 at the scenario of the specification: on the `4 × 4` zero grid, brush at `(2, 2)` with
radius `1`, pointer velocity `(1, 0)` and strength `200`, `velX` becomes `2` at the cells
`(2,2)`, `(1,2)`, `(3,2)`, `(2,1)`, `(2,3)` and stays `0` elsewhere, and `velY` stays `0`. -/
theorem C5_brush_velocity_impulse_witness :
    ∃ s', applyBrush brushDemo = some s' ∧
      peek s'.velX (2 * 5 + 2) = 2 ∧ peek s'.velX (2 * 5 + 1) = 2 ∧ peek s'.velX (2 * 5 + 3) = 2 ∧
      peek s'.velX (1 * 5 + 2) = 2 ∧ peek s'.velX (3 * 5 + 2) = 2 ∧
      (∀ j : Int, j ≠ 12 → j ≠ 11 → j ≠ 13 → j ≠ 7 → j ≠ 17 → peek s'.velX j = 0) ∧
      (∀ px py : Int, 0 ≤ px → px < 4 → 0 ≤ py → py < 4 → peek s'.velY (py * 4 + px) = 0) := by
  have hs : brushDemo.Sized := ⟨by decide, by decide, rfl, rfl, rfl, rfl, rfl⟩
  obtain ⟨s', h, hin, hox, hoy, -, -⟩ :=
    C5_brush_velocity_impulse brushDemo hs 2 2 rfl rfl (by decide)
  have hzx : ∀ j : Int, peek brushDemo.velX j = 0 :=
    peek_zero_of_all_zero _ (by simp [brushDemo])
  have hzy : ∀ j : Int, peek brushDemo.velY j = 0 :=
    peek_zero_of_all_zero _ (by simp [brushDemo])
  have himp : impulse brushDemo.mouseVel brushDemo.brushStrength = (2, 0) := by
    norm_num [impulse, brushDemo]
  have hW : (brushDemo.W : Int) = 4 := rfl
  have hH : (brushDemo.H : Int) = 4 := rfl
  simp only [hzx, hzy, himp, hW, hH, zero_add] at hin hox hoy
  have hmask : ∀ px py : Int, inMask brushDemo 2 2 px py ↔ (px - 2) ^ 2 + (py - 2) ^ 2 ≤ 1 := by
    intro px py
    simp [inMask, brushDemo]
  refine ⟨s', h, ?_, ?_, ?_, ?_, ?_, ?_, ?_⟩
  · exact (hin 2 2 (by decide) (by decide) (by decide) (by decide) ((hmask 2 2).2 (by decide))).1
  · exact (hin 1 2 (by decide) (by decide) (by decide) (by decide) ((hmask 1 2).2 (by decide))).1
  · exact (hin 3 2 (by decide) (by decide) (by decide) (by decide) ((hmask 3 2).2 (by decide))).1
  · exact (hin 2 1 (by decide) (by decide) (by decide) (by decide) ((hmask 2 1).2 (by decide))).1
  · exact (hin 2 3 (by decide) (by decide) (by decide) (by decide) ((hmask 2 3).2 (by decide))).1
  · intro j h1 h2 h3 h4 h5
    apply hox
    rintro ⟨px, py, hx0, hx, hy0, hy, hm, rfl⟩
    rw [hmask] at hm
    clear hin hox hoy h hzx hzy himp hmask
    interval_cases px <;> interval_cases py <;> omega
  · intro px py hx0 hx hy0 hy
    by_cases hm : inMask brushDemo 2 2 px py
    · exact (hin px py hx0 hx hy0 hy hm).2
    · apply hoy
      rintro ⟨px', py', hx0', hx', hy0', hy', hm', e⟩
      have := idx_inj 4 py px py' px' hx0 hx hx0' hx' e
      rw [this.1, this.2] at hm
      exact hm hm'

/-- The hard stamp at an integer radius: with the pointer up `applyBrush` returns the state
unchanged; with the pointer down at `(gx, gy)` (radius `≥ 0`) it returns a state whose density is unchanged under
the secondary action, and under the primary action holds `brushColor` in the four channels of
every grid cell inside the circular mask, whatever they held before, and the old value in
every cell outside the mask; stamping a second time leaves that density as it is. -/
theorem hard_stamp_integer_radius (s : Main) (hs : s.Sized) :
    (s.mouseDown = false → applyBrush s = some s) ∧
    (∀ gx gy : Int, s.mouseDown = true → s.gridCoord = some (gx, gy) → 0 ≤ s.radius →
      ∃ s', applyBrush s = some s' ∧
        (s.mouseRight = true → s'.density = s.density) ∧
        (s.mouseRight = false →
          (∀ px py k : Int, 0 ≤ px → px < s.W → 0 ≤ py → py < s.H → 0 ≤ k → k < 4 →
            (inMask s gx gy px py →
              peek s'.density ((py * s.W + px) * 4 + k) = chan s.brushColor k) ∧
            (¬ inMask s gx gy px py →
              peek s'.density ((py * s.W + px) * 4 + k) =
                peek s.density ((py * s.W + px) * 4 + k))) ∧
          ∃ s'', applyBrush s' = some s'' ∧ s''.density = s'.density)) := by
  constructor
  · intro hd
    simp [applyBrush, hd]
  · intro gx gy hdown hg hr
    obtain ⟨s', h1, h2, h3, h4⟩ := applyBrush_density s hs gx gy hdown hg hr
    refine ⟨s', h1, h3, fun hmr => ⟨h4 hmr, ?_⟩⟩
    have hs' : s'.Sized := h2.sized hs
    obtain ⟨d, vx, vy, rfl, hd, hvx, hvy⟩ := h2
    obtain ⟨s'', k1, k2, -, k4⟩ := applyBrush_density _ hs' gx gy hdown hg hr
    refine ⟨s'', k1, ?_⟩
    obtain ⟨d', vx', vy', rfl, hd', -, -⟩ := k2
    apply ext_peek _ _ hd'
    intro i h0 hi
    obtain ⟨py, px, k, hy0, hy, hx0, hx, hk0, hk, rfl⟩ :=
      density_index_cases s.W s.H i h0
        (by
          have e := hs.casts.2.2.2.2.1
          have : ((d'.length : Nat) : Int) = (s.density.length : Nat) := by
            exact_mod_cast hd'.trans hd
          rw [← e, ← this]
          exact hi)
    by_cases hm : inMask s gx gy px py
    · rw [((k4 hmr) px py k hx0 hx hy0 hy hk0 hk).1 hm]
      exact (((h4 hmr) px py k hx0 hx hy0 hy hk0 hk).1 hm).symm
    · exact ((k4 hmr) px py k hx0 hx hy0 hy hk0 hk).2 hm

/-- The hard stamp at the scenario state: primary action, radius 1, on the `4 × 4` zero
grid. -/
theorem hard_stamp_integer_radius_demo :
    brushDemo.Sized ∧
    ((brushDemo.mouseDown = false → applyBrush brushDemo = some brushDemo) ∧
    (∀ gx gy : Int, brushDemo.mouseDown = true → brushDemo.gridCoord = some (gx, gy) →
      0 ≤ brushDemo.radius →
      ∃ s', applyBrush brushDemo = some s' ∧
        (brushDemo.mouseRight = true → s'.density = brushDemo.density) ∧
        (brushDemo.mouseRight = false →
          (∀ px py k : Int, 0 ≤ px → px < brushDemo.W → 0 ≤ py → py < brushDemo.H → 0 ≤ k → k < 4 →
            (inMask brushDemo gx gy px py →
              peek s'.density ((py * brushDemo.W + px) * 4 + k) = chan brushDemo.brushColor k) ∧
            (¬ inMask brushDemo gx gy px py →
              peek s'.density ((py * brushDemo.W + px) * 4 + k) =
                peek brushDemo.density ((py * brushDemo.W + px) * 4 + k))) ∧
          ∃ s'', applyBrush s' = some s'' ∧ s''.density = s'.density))) :=
  have hs : brushDemo.Sized := ⟨by decide, by decide, rfl, rfl, rfl, rfl, rfl⟩
  ⟨hs, hard_stamp_integer_radius brushDemo hs⟩

theorem peek_of_all_eq (a : List ℚ) (c : ℚ) (h : ∀ v ∈ a, v = c) (i : Int) (h0 : 0 ≤ i)
    (h1 : i < a.length) : peek a i = c := by
  obtain ⟨n, rfl⟩ : ∃ n : Nat, i = n := ⟨i.toNat, by omega⟩
  have hn : n < a.length := by omega
  rw [peek_eq_getElem a n hn]
  exact h _ (List.getElem_mem hn)

theorem gaussSeidelPressure_zero (s : Main) (h0 : s.gsIterations = 0) :
    gaussSeidelPressure s = some s := by
  have h : s.gsIterations.toNat = 0 := by rw [h0]; rfl
  rw [gaussSeidelPressure_eq, h]
  rfl

theorem subtractGradient_uniform (s : Main) (hs : s.Sized) (c : ℚ)
    (hp : ∀ v ∈ s.pressure, v = c) : subtractGradient s = some s := by
  obtain ⟨hW, hH, hlx, hly, -, hlp, -⟩ := hs.casts
  obtain ⟨vx, vy, h, hlenx, hleny, hx, hy⟩ := subtractGradient_spec s hs
  have hpc : ∀ y x : Int, 0 ≤ y → y < s.H → 0 ≤ x → x < s.W →
      peek s.pressure (y * s.W + x) = c := by
    intro y x hy0 hy1 hx0 hx1
    have := idx_bound s.W s.H y x hy0 hy1 hx0 hx1
    exact peek_of_all_eq _ c hp _ this.1 (by rw [hlp]; exact this.2)
  have ex : vx = s.velX := by
    apply ext_peek _ _ (by rw [hlenx, hs.velX])
    intro i h0 h1
    obtain ⟨y, x, hy0, hy1, hx0, hx1, rfl⟩ := grid_index_cases (s.W + 1) s.H i (by omega) h0
      (by rw [hlenx] at h1; push_cast at h1; exact h1)
    rw [hx y x hy0 hy1 hx0 (by omega),
      hpc y (min ((s.W : Int) - 1) x) hy0 hy1 (le_min (by omega) hx0)
        (by have := min_le_left ((s.W : Int) - 1) x; omega),
      hpc y (max 0 (x - 1)) hy0 hy1 (le_max_left _ _) (max_lt (by omega) (by omega))]
    simp
  have ey : vy = s.velY := by
    apply ext_peek _ _ (by rw [hleny, hs.velY])
    intro i h0 h1
    obtain ⟨y, x, hy0, hy1, hx0, hx1, rfl⟩ := grid_index_cases s.W (s.H + 1) i (by omega) h0
      (by rw [hleny] at h1; push_cast at h1; exact h1)
    rw [hy y x hy0 (by omega) hx0 hx1,
      hpc (min ((s.H : Int) - 1) y) x (le_min (by omega) hy0)
        (by have := min_le_left ((s.H : Int) - 1) y; omega) hx0 hx1,
      hpc (max 0 (y - 1)) x (le_max_left _ _) (max_lt (by omega) (by omega)) hx0 hx1]
    simp
  rw [h, ex, ey]

/-- C7, as stated, fails: on a `2 × 1` grid at rest whose pressure buffer holds `[0, 1]`, with
`gsIterations = 0`, the projection stage returns a state whose `velX` differs from the one
it started from. -/
theorem C7_zero_iterations_counterexample :
    pressDemo.Sized ∧ pressDemo.gsIterations = 0 ∧
      ∃ s', (gaussSeidelPressure pressDemo).bind subtractGradient = some s' ∧
        s'.velX ≠ pressDemo.velX := by
  have hs : pressDemo.Sized := ⟨by decide, by decide, rfl, rfl, rfl, rfl, rfl⟩
  obtain ⟨vx, vy, h, -, -, hx, -⟩ := subtractGradient_spec pressDemo hs
  refine ⟨hs, rfl, _, by rw [gaussSeidelPressure_zero pressDemo rfl]; exact h, ?_⟩
  intro e
  have h1 := hx 0 1 (by decide) (by decide) (by decide) (by decide)
  simp only [] at e
  rw [e] at h1
  norm_num [pressDemo, restDemo, peek, rd] at h1

/-- C7, amended. With `gsIterations = 0` (and `cellSize ≠ 0`) `gaussSeidelPressure` returns
the state unchanged, so no relaxation happens; `subtractGradient` still runs on the pressure
that persists: it returns, having subtracted the gradient of that pressure from `velX` and
`velY`; and when the persisted pressure is uniform (as the all-zero buffer of `initGrid`
is), the projection stage returns the state unchanged, `velX` and `velY` included. -/
theorem C7_zero_iterations (s : Main) (hs : s.Sized) (h0 : s.gsIterations = 0)
    (_hc : s.cellSize ≠ 0) :
    gaussSeidelPressure s = some s ∧
    (∃ vx vy, (gaussSeidelPressure s).bind subtractGradient =
        some { s with velX := vx, velY := vy } ∧
      (∀ y x : Int, 0 ≤ y → y < s.H → 0 ≤ x → x ≤ s.W →
        peek vx (y * (s.W + 1) + x) = peek s.velX (y * (s.W + 1) + x) -
          (peek s.pressure (y * s.W + min ((s.W : Int) - 1) x) -
            peek s.pressure (y * s.W + max 0 (x - 1))) / s.cellSize) ∧
      (∀ y x : Int, 0 ≤ y → y ≤ s.H → 0 ≤ x → x < s.W →
        peek vy (y * s.W + x) = peek s.velY (y * s.W + x) -
          (peek s.pressure (min ((s.H : Int) - 1) y * s.W + x) -
            peek s.pressure (max 0 (y - 1) * s.W + x)) / s.cellSize)) ∧
    ((∃ c, ∀ v ∈ s.pressure, v = c) →
      (gaussSeidelPressure s).bind subtractGradient = some s) := by
  have hg := gaussSeidelPressure_zero s h0
  refine ⟨hg, ?_, ?_⟩
  · obtain ⟨vx, vy, h, -, -, hx, hy⟩ := subtractGradient_spec s hs
    exact ⟨vx, vy, by rw [hg]; exact h, hx, hy⟩
  · rintro ⟨c, hc⟩
    rw [hg]
    exact subtractGradient_uniform s hs c hc

/-- C7 amended, at a concrete state: the `2 × 1` grid at rest with zero pressure and no sweeps. -/
theorem C7_zero_iterations_witness :
    ({ restDemo with gsIterations := 0 } : Main).Sized ∧
    ({ restDemo with gsIterations := 0 } : Main).gsIterations = 0 ∧
    ({ restDemo with gsIterations := 0 } : Main).cellSize ≠ 0 ∧
    (gaussSeidelPressure { restDemo with gsIterations := 0 }).bind subtractGradient =
      some { restDemo with gsIterations := 0 } :=
  have hs : ({ restDemo with gsIterations := 0 } : Main).Sized :=
    ⟨by decide, by decide, rfl, rfl, rfl, rfl, rfl⟩
  have hc : ({ restDemo with gsIterations := 0 } : Main).cellSize ≠ 0 := by
    norm_num [restDemo]
  ⟨hs, rfl, hc, (C7_zero_iterations _ hs rfl hc).2.2 ⟨0, by simp [restDemo]⟩⟩

theorem pairDemo_sized : pairDemo.Sized := ⟨by decide, by decide, rfl, rfl, rfl, rfl, rfl⟩

/-- One sweep on `pairDemo`: the first interior cell becomes `(5 + 7 + 2 + 10 - 4) / 4 = 5`,
and the second reads that new value: `(5 + 8 + 3 + 11 - 3) / 4 = 6`. -/
theorem pairDemo_sweep :
    ∃ q, gaussSeidelPressure pairDemo = some { pairDemo with pressure := q } ∧
      peek q 5 = 5 ∧ peek q 6 = 6 := by
  obtain ⟨-, -, -, -, -, hlp, hld⟩ := pairDemo_sized.casts
  obtain ⟨q, hq, hlen, hframe, heq⟩ := gaussSeidelSweep_spec pairDemo.W pairDemo.H
    pairDemo.divergence pairDemo.pressure hlp hld
  have hW : (pairDemo.W : Int) = 4 := rfl
  have hH : (pairDemo.H : Int) = 3 := rfl
  have hfr : ∀ j : Int, j ≠ 5 → j ≠ 6 → peek q j = peek pairDemo.pressure j := by
    intro j h5 h6
    apply hframe
    rintro ⟨y, x, ⟨a, b, c, d⟩, e⟩
    rw [hW] at b e
    rw [hH] at d
    omega
  have h5 := heq 1 1 ⟨by decide, by decide, by decide, by decide⟩
  have h6 := heq 1 2 ⟨by decide, by decide, by decide, by decide⟩
  simp only [hW] at h5 h6
  norm_num at h5 h6
  have e5 : peek q 5 = 5 := by
    rw [h5, hfr 4 (by decide) (by decide), hfr 1 (by decide) (by decide)]
    have a : peek pairDemo.pressure 4 = 5 := rfl
    have b : peek pairDemo.pressure 6 = 7 := rfl
    have c : peek pairDemo.pressure 1 = 2 := rfl
    have d : peek pairDemo.pressure 9 = 10 := rfl
    have e : peek pairDemo.divergence 5 = 4 := rfl
    rw [a, b, c, d, e]
    norm_num
  have e6 : peek q 6 = 6 := by
    rw [h6, e5, hfr 2 (by decide) (by decide)]
    have b : peek pairDemo.pressure 7 = 8 := rfl
    have c : peek pairDemo.pressure 2 = 3 := rfl
    have d : peek pairDemo.pressure 10 = 11 := rfl
    have e : peek pairDemo.divergence 6 = 3 := rfl
    rw [b, c, d, e]
    norm_num
  refine ⟨q, ?_, e5, e6⟩
  rw [gaussSeidelPressure_eq]
  have h1 : pairDemo.gsIterations.toNat = 1 := rfl
  rw [h1]
  simp only [sweepN, Option.some_bind, hq]
  rfl

/-- C8. Pressure border is frozen: on a grid with `W, H ≥ 1`, for every `gsIterations` and every
pressure and divergence field, `gaussSeidelPressure` returns a state that differs from the
old one in the pressure buffer only (divergence and velocity are untouched), where
`pressure[y * W + x]` keeps its value for every cell with `x = 0`, `x = W - 1`, `y = 0` or
`y = H - 1`; for `W ≤ 2` or `H ≤ 2` the whole state is returned unchanged. -/
theorem C8_pressure_border_frozen (s : Main) (hs : s.Sized) :
    ∃ q, gaussSeidelPressure s = some { s with pressure := q } ∧
      q.length = s.pressure.length ∧
      (∀ y x : Int, 0 ≤ y → y < s.H → 0 ≤ x → x < s.W →
        (x = 0 ∨ x = s.W - 1 ∨ y = 0 ∨ y = s.H - 1) →
        peek q (y * s.W + x) = peek s.pressure (y * s.W + x)) ∧
      ((s.W ≤ 2 ∨ s.H ≤ 2) → q = s.pressure) := by
  obtain ⟨q, h, hlen, hframe⟩ := gaussSeidelPressure_spec s hs
  refine ⟨q, h, hlen, ?_, ?_⟩
  · intro y x hy0 hy hx0 hx hb
    apply hframe
    rintro ⟨y', x', ⟨h1, h2, h3, h4⟩, e⟩
    have := idx_inj s.W y x y' x' hx0 hx (by omega) (by omega) e
    omega
  · intro hsmall
    apply ext_peek _ _ hlen
    intro j _ _
    apply hframe
    rintro ⟨y', x', ⟨h1, h2, h3, h4⟩, -⟩
    omega

/-- C8 at a concrete state: one sweep on the `4 × 3` grid of `pairDemo`, whose divergence is
not zero, rewrites both interior cells (pressure `6` becomes `5` at `(1, 1)`, `7` becomes `6`
at `(2, 1)`) and keeps the border, here the entries `0`, `1`, `4`, `7`, `9` and `11`. -/
theorem C8_pressure_border_frozen_witness :
    pairDemo.Sized ∧
    ∃ q, gaussSeidelPressure pairDemo = some { pairDemo with pressure := q } ∧
      (peek pairDemo.pressure 5 = 6 ∧ peek q 5 = 5) ∧
      (peek pairDemo.pressure 6 = 7 ∧ peek q 6 = 6) ∧
      peek q 0 = 1 ∧ peek q 1 = 2 ∧ peek q 4 = 5 ∧ peek q 7 = 8 ∧ peek q 9 = 10 ∧
      peek q 11 = 12 := by
  obtain ⟨q, hq, -, hb, -⟩ := C8_pressure_border_frozen pairDemo pairDemo_sized
  obtain ⟨q', hq', e5, e6⟩ := pairDemo_sweep
  have hqq : q' = q := by
    have h := hq'.symm.trans hq
    exact congrArg Main.pressure (Option.some.inj h)
  subst hqq
  have hW : (pairDemo.W : Int) = 4 := rfl
  have hH : (pairDemo.H : Int) = 3 := rfl
  have b0 := hb 0 0 (by decide) (by decide) (by decide) (by decide) (Or.inl rfl)
  have b1 := hb 0 1 (by decide) (by decide) (by decide) (by decide) (Or.inr (Or.inr (Or.inl rfl)))
  have b4 := hb 1 0 (by decide) (by decide) (by decide) (by decide) (Or.inl rfl)
  have b7 := hb 1 3 (by decide) (by decide) (by decide) (by decide) (Or.inr (Or.inl rfl))
  have b9 := hb 2 1 (by decide) (by decide) (by decide) (by decide)
    (Or.inr (Or.inr (Or.inr rfl)))
  have b11 := hb 2 3 (by decide) (by decide) (by decide) (by decide) (Or.inr (Or.inl rfl))
  simp only [hW] at b0 b1 b4 b7 b9 b11
  norm_num at b0 b1 b4 b7 b9 b11
  exact ⟨pairDemo_sized, q', hq, ⟨rfl, e5⟩, ⟨rfl, e6⟩, b0.trans rfl, b1.trans rfl, b4.trans rfl,
    b7.trans rfl, b9.trans rfl, b11.trans rfl⟩

/-- C9. Gauss-Seidel ordering: `gaussSeidelPressure` with `gsIterations = n` is the `n`-fold
iteration of one sweep; and one sweep over a pressure `p` returns a pressure `q` in which
every interior cell satisfies
`q(x,y) = (q(x-1,y) + p(x+1,y) + q(x,y-1) + p(x,y+1) - div(x,y)) / 4`, the left and bottom
neighbours being read at their values after the sweep and the right and top neighbours at
their old values, while every entry outside the interior (the border) keeps its old value. -/
theorem C9_gauss_seidel_ordering (s : Main) (hs : s.Sized) :
    (∀ n : Nat, s.gsIterations = n →
      gaussSeidelPressure s = (sweepN s.W s.H s.divergence n s.pressure).map
        (fun q => { s with pressure := q })) ∧
    (∀ (n : Nat) (p : List ℚ), sweepN s.W s.H s.divergence (n + 1) p =
      (sweepN s.W s.H s.divergence n p).bind (gaussSeidelSweep s.W s.H s.divergence)) ∧
    (s.gsIterations = 1 →
      ∃ q, gaussSeidelPressure s = some { s with pressure := q } ∧
        q.length = s.pressure.length ∧
        (∀ y x : Int, 1 ≤ x → x < (s.W : Int) - 1 → 1 ≤ y → y < (s.H : Int) - 1 →
          peek q (y * s.W + x) =
            (peek q (y * s.W + x - 1) + peek s.pressure (y * s.W + x + 1) +
              peek q (y * s.W + x - s.W) + peek s.pressure (y * s.W + x + s.W) -
              peek s.divergence (y * s.W + x)) / 4) ∧
        (∀ y x : Int, 0 ≤ y → y < s.H → 0 ≤ x → x < s.W →
          (x = 0 ∨ x = s.W - 1 ∨ y = 0 ∨ y = s.H - 1) →
          peek q (y * s.W + x) = peek s.pressure (y * s.W + x))) := by
  refine ⟨?_, fun n p => rfl, ?_⟩
  · intro n hn
    rw [gaussSeidelPressure_eq, hn]
    rfl
  · intro h1
    obtain ⟨-, -, -, -, -, hlp, hld⟩ := hs.casts
    obtain ⟨q, hq, hlen, hframe, heq⟩ := gaussSeidelSweep_spec s.W s.H s.divergence s.pressure
      hlp hld
    have h1' : s.gsIterations.toNat = 1 := by rw [h1]; rfl
    refine ⟨q, ?_, hlen, fun y x a b c d => heq y x ⟨a, b, c, d⟩, ?_⟩
    · rw [gaussSeidelPressure_eq, h1']
      simp only [sweepN, Option.some_bind, hq]
      rfl
    · intro y x hy0 hy hx0 hx hb
      apply hframe
      rintro ⟨y', x', ⟨a, b, c, d⟩, e⟩
      have := idx_inj s.W y x y' x' hx0 hx (by omega) (by omega) e
      omega

/-- C9 at a concrete state: one sweep on the `4 × 3` grid of `pairDemo`, with the adjacent
interior cells `(1, 1)` and `(2, 1)`.  The first becomes `(5 + 7 + 2 + 10 - 4) / 4 = 5`; the
second reads this new value of its left neighbour and becomes `(5 + 8 + 3 + 11 - 3) / 4 = 6`,
where the old value `6` of the left neighbour would give `25 / 4`. -/
theorem C9_gauss_seidel_ordering_witness :
    pairDemo.Sized ∧ pairDemo.gsIterations = 1 ∧
      ∃ q, gaussSeidelPressure pairDemo = some { pairDemo with pressure := q } ∧
        peek q 5 = 5 ∧ peek q 6 = 6 ∧
        (peek pairDemo.pressure 5 + peek pairDemo.pressure 7 + peek pairDemo.pressure 2 +
          peek pairDemo.pressure 10 - peek pairDemo.divergence 6) / 4 = 25 / 4 := by
  obtain ⟨q, hq, -, heq, hb⟩ := (C9_gauss_seidel_ordering pairDemo pairDemo_sized).2.2 rfl
  have hW : (pairDemo.W : Int) = 4 := rfl
  have h5 := heq 1 1 (by decide) (by decide) (by decide) (by decide)
  have h6 := heq 1 2 (by decide) (by decide) (by decide) (by decide)
  have b4 := hb 1 0 (by decide) (by decide) (by decide) (by decide) (Or.inl rfl)
  have b1 := hb 0 1 (by decide) (by decide) (by decide) (by decide) (Or.inr (Or.inr (Or.inl rfl)))
  have b2 := hb 0 2 (by decide) (by decide) (by decide) (by decide) (Or.inr (Or.inr (Or.inl rfl)))
  simp only [hW] at h5 h6 b4 b1 b2
  norm_num at h5 h6 b4 b1 b2
  have p1 : peek pairDemo.pressure 1 = 2 := rfl
  have p2 : peek pairDemo.pressure 2 = 3 := rfl
  have p4 : peek pairDemo.pressure 4 = 5 := rfl
  have p5 : peek pairDemo.pressure 5 = 6 := rfl
  have p6 : peek pairDemo.pressure 6 = 7 := rfl
  have p7 : peek pairDemo.pressure 7 = 8 := rfl
  have p9 : peek pairDemo.pressure 9 = 10 := rfl
  have p10 : peek pairDemo.pressure 10 = 11 := rfl
  have d5 : peek pairDemo.divergence 5 = 4 := rfl
  have d6 : peek pairDemo.divergence 6 = 3 := rfl
  have e5 : peek q 5 = 5 := by
    rw [h5, b4, b1, p4, p6, p1, p9, d5]
    norm_num
  have e6 : peek q 6 = 6 := by
    rw [h6, e5, b2, p7, p2, p10, d6]
    norm_num
  refine ⟨pairDemo_sized, rfl, q, hq, e5, e6, ?_⟩
  rw [p5, p7, p2, p10, d6]
  norm_num

theorem rd_isSome_iff (a : List ℚ) (i : Int) : (rd a i).isSome ↔ InBuf a i := by
  unfold rd InBuf
  by_cases h0 : 0 ≤ i
  · simp only [h0, if_true, true_and]
    rw [Option.isSome_iff_exists]
    constructor
    · rintro ⟨v, hv⟩
      have := (List.getElem?_eq_some_iff.mp hv).1
      omega
    · intro h
      exact ⟨_, List.getElem?_eq_getElem (by omega)⟩
  · simp [h0]

theorem wr_isSome_iff (a : List ℚ) (i : Int) (v : ℚ) : (wr a i v).isSome ↔ InBuf a i := by
  unfold wr InBuf
  by_cases h : 0 ≤ i ∧ i.toNat < a.length
  · rw [if_pos h]
    simp only [Option.isSome_some, true_iff]
    omega
  · rw [if_neg h]
    simp only [Option.isSome_none, Bool.false_eq_true, false_iff]
    omega

theorem clampFloor_bounds (m : Int) (hm : 0 ≤ m) (u : ℚ) :
    0 ≤ clampFloor m u ∧ clampFloor m u ≤ m :=
  floor_clamp m m rfl hm u

/-- C10. Index safety of the solver: the accessors `rd` and `wr` succeed exactly on indices
inside the buffer, and on a grid with `W, H ≥ 1` with buffers of the `initGrid` sizes, for every
velocity field and timestep, each of `advectVelocity`, `advectDensity`, `computeDivergence`,
`gaussSeidelPressure` and `subtractGradient` returns, so every read and store it performs is
inside its buffer; in particular, for any backtrace position `(u, v)`, the four bilinear
sample indices built from the clamped position are inside `density` (for each channel),
`velX` and `velY` respectively. -/
theorem C10_index_safety (s : Main) (hs : s.Sized) :
    ((∀ (a : List ℚ) (i : Int), (rd a i).isSome ↔ InBuf a i) ∧
      (∀ (a : List ℚ) (i : Int) (v : ℚ), (wr a i v).isSome ↔ InBuf a i)) ∧
    ((∃ s', advectVelocity s = some s') ∧ (∃ s', advectDensity s = some s') ∧
      (∃ s', computeDivergence s = some s') ∧ (∃ s', gaussSeidelPressure s = some s') ∧
      (∃ s', subtractGradient s = some s')) ∧
    (∀ (u v : ℚ) (k : Int), 0 ≤ k → k < 4 →
      ∀ i ∈ [clampFloor ((s.W : ℚ) - 1) u, min (clampFloor ((s.W : ℚ) - 1) u + 1) ((s.W : Int) - 1)],
      ∀ j ∈ [clampFloor ((s.H : ℚ) - 1) v, min (clampFloor ((s.H : ℚ) - 1) v + 1) ((s.H : Int) - 1)],
        InBuf s.density ((j * s.W + i) * 4 + k)) ∧
    (∀ (u v : ℚ),
      ∀ i ∈ [clampFloor (s.W : ℚ) u, min (clampFloor (s.W : ℚ) u + 1) (s.W : Int)],
      ∀ j ∈ [clampFloor ((s.H : ℚ) - 1) v, min (clampFloor ((s.H : ℚ) - 1) v + 1) ((s.H : Int) - 1)],
        InBuf s.velX (j * ((s.W : Int) + 1) + i)) ∧
    (∀ (u v : ℚ),
      ∀ i ∈ [clampFloor ((s.W : ℚ) - 1) u, min (clampFloor ((s.W : ℚ) - 1) u + 1) ((s.W : Int) - 1)],
      ∀ j ∈ [clampFloor (s.H : ℚ) v, min (clampFloor (s.H : ℚ) v + 1) (s.H : Int)],
        InBuf s.velY (j * (s.W : Int) + i)) := by
  obtain ⟨hW, hH, hlx, hly, hld, -, -⟩ := hs.casts
  have cW : ∀ u, 0 ≤ clampFloor ((s.W : ℚ) - 1) u ∧ clampFloor ((s.W : ℚ) - 1) u ≤ (s.W : Int) - 1 :=
    fun u => floor_clamp _ _ (by push_cast; ring) (by omega) u
  have cH : ∀ u, 0 ≤ clampFloor ((s.H : ℚ) - 1) u ∧ clampFloor ((s.H : ℚ) - 1) u ≤ (s.H : Int) - 1 :=
    fun u => floor_clamp _ _ (by push_cast; ring) (by omega) u
  have cW' : ∀ u, 0 ≤ clampFloor (s.W : ℚ) u ∧ clampFloor (s.W : ℚ) u ≤ (s.W : Int) :=
    fun u => floor_clamp _ _ (by push_cast; ring) (by omega) u
  have cH' : ∀ u, 0 ≤ clampFloor (s.H : ℚ) u ∧ clampFloor (s.H : ℚ) u ≤ (s.H : Int) :=
    fun u => floor_clamp _ _ (by push_cast; ring) (by omega) u
  refine ⟨⟨rd_isSome_iff, wr_isSome_iff⟩, ⟨?_, ?_, ?_, ?_, ?_⟩, ?_, ?_, ?_⟩
  · obtain ⟨nx, ny, h, -⟩ := advectVelocity_spec s hs
    exact ⟨_, h⟩
  · obtain ⟨nd, h, -⟩ := advectDensity_spec s hs
    exact ⟨_, h⟩
  · obtain ⟨d, h, -⟩ := computeDivergence_spec s hs
    exact ⟨_, h⟩
  · obtain ⟨q, h, -⟩ := gaussSeidelPressure_spec s hs
    exact ⟨_, h⟩
  · obtain ⟨vx, vy, h, -⟩ := subtractGradient_spec s hs
    exact ⟨_, h⟩
  · intro u v k hk0 hk i hi j hj
    have hi' : 0 ≤ i ∧ i ≤ (s.W : Int) - 1 := by
      simp only [List.mem_cons, List.mem_singleton, List.not_mem_nil, or_false] at hi
      rcases hi with rfl | rfl
      · exact cW u
      · exact min_succ_bounds _ _ (cW u).1 (by omega)
    have hj' : 0 ≤ j ∧ j ≤ (s.H : Int) - 1 := by
      simp only [List.mem_cons, List.mem_singleton, List.not_mem_nil, or_false] at hj
      rcases hj with rfl | rfl
      · exact cH v
      · exact min_succ_bounds _ _ (cH v).1 (by omega)
    have := idx_bound s.W s.H j i hj'.1 (by omega) hi'.1 (by omega)
    unfold InBuf
    rw [hld]
    constructor <;> omega
  · intro u v i hi j hj
    have hi' : 0 ≤ i ∧ i ≤ (s.W : Int) := by
      simp only [List.mem_cons, List.mem_singleton, List.not_mem_nil, or_false] at hi
      rcases hi with rfl | rfl
      · exact cW' u
      · exact min_succ_bounds _ _ (cW' u).1 (by omega)
    have hj' : 0 ≤ j ∧ j ≤ (s.H : Int) - 1 := by
      simp only [List.mem_cons, List.mem_singleton, List.not_mem_nil, or_false] at hj
      rcases hj with rfl | rfl
      · exact cH v
      · exact min_succ_bounds _ _ (cH v).1 (by omega)
    have := idx_bound (s.W + 1) s.H j i hj'.1 (by omega) hi'.1 (by omega)
    unfold InBuf
    rw [hlx]
    exact this
  · intro u v i hi j hj
    have hi' : 0 ≤ i ∧ i ≤ (s.W : Int) - 1 := by
      simp only [List.mem_cons, List.mem_singleton, List.not_mem_nil, or_false] at hi
      rcases hi with rfl | rfl
      · exact cW u
      · exact min_succ_bounds _ _ (cW u).1 (by omega)
    have hj' : 0 ≤ j ∧ j ≤ (s.H : Int) := by
      simp only [List.mem_cons, List.mem_singleton, List.not_mem_nil, or_false] at hj
      rcases hj with rfl | rfl
      · exact cH' v
      · exact min_succ_bounds _ _ (cH' v).1 (by omega)
    have := idx_bound s.W (s.H + 1) j i hj'.1 (by omega) hi'.1 (by omega)
    unfold InBuf
    rw [hly]
    exact this

/-- C10 at a concrete state: a `3 × 3` grid with a swirl of velocities. -/
theorem C10_index_safety_witness :
    flowDemo.Sized ∧
    ((∃ s', advectVelocity flowDemo = some s') ∧ (∃ s', advectDensity flowDemo = some s') ∧
      (∃ s', computeDivergence flowDemo = some s') ∧ (∃ s', gaussSeidelPressure flowDemo = some s') ∧
      (∃ s', subtractGradient flowDemo = some s')) :=
  have hs : flowDemo.Sized := ⟨by decide, by decide, rfl, rfl, rfl, rfl, rfl⟩
  ⟨hs, (C10_index_safety flowDemo hs).2.1⟩

/-- C2, as stated, fails: on the `3 × 3` grid at rest (zero velocity, zero pressure, one sweep,
`cellSize = 1`) the projection stage returns a state whose mean absolute interior divergence
is not strictly lower than before; both are zero. -/
theorem C2_divergence_reduction_counterexample :
    stillDemo.Sized ∧ 3 ≤ stillDemo.W ∧ 3 ≤ stillDemo.H ∧ stillDemo.cellSize = 1 ∧
      1 ≤ stillDemo.gsIterations ∧
      ∃ s', project stillDemo = some s' ∧
        ¬ (meanAbsInteriorDiv s' < meanAbsInteriorDiv stillDemo) := by
  have hs : stillDemo.Sized := ⟨by decide, by decide, rfl, rfl, rfl, rfl, rfl⟩
  obtain ⟨s', -, h, -⟩ := project_spec stillDemo hs rfl
  refine ⟨hs, by decide, by decide, rfl, by decide, s', h, ?_⟩
  have h0 : meanAbsInteriorDiv stillDemo = 0 := by
    unfold meanAbsInteriorDiv
    have : ∀ c ∈ interiorCells stillDemo.W stillDemo.H,
        |divAt stillDemo.velX stillDemo.velY stillDemo.W stillDemo.cellSize c.1 c.2| = 0 := by
      intro c _
      have hx : ∀ i, peek stillDemo.velX i = 0 := peek_replicate_zero 12
      have hy : ∀ i, peek stillDemo.velY i = 0 := peek_replicate_zero 12
      simp [divAt, hx, hy]
    rw [Finset.sum_eq_zero this, zero_div]
  rw [h0]
  exact not_lt.mpr (meanAbsInteriorDiv_nonneg s')

/-- C2, amended. On a grid with interior cells (`W, H ≥ 3`), with `cellSize = 1`, at least one
sweep and the pressure buffer zero on entry (as `initGrid` leaves it), for every velocity
field the projection stage (`computeDivergence`, `gaussSeidelPressure`, `subtractGradient`)
returns a velocity field whose mean absolute divergence over the interior cells is at most
the one before, and strictly lower whenever some interior cell had non-zero divergence. -/
theorem C2_divergence_reduction (s : Main) (hs : s.Sized) (hW : 3 ≤ s.W) (hH : 3 ≤ s.H)
    (hc : s.cellSize = 1) (hn : 1 ≤ s.gsIterations) (hp : ∀ v ∈ s.pressure, v = 0) :
    ∃ s', project s = some s' ∧ meanAbsInteriorDiv s' ≤ meanAbsInteriorDiv s ∧
      ((∃ y x : Int, interior s.W s.H y x ∧ divAt s.velX s.velY s.W s.cellSize y x ≠ 0) →
        meanAbsInteriorDiv s' < meanAbsInteriorDiv s) := by
  obtain ⟨s', h1, h2, h3, h4, hle, hlt⟩ := project_zero_pressure s hs hc hp
  have hcard := interiorCells_card_pos s.W s.H (by exact_mod_cast hW) (by exact_mod_cast hH)
  have e1 : meanAbsInteriorDiv s' =
      (∑ c in interiorCells s.W s.H, |divAt s'.velX s'.velY s.W 1 c.1 c.2|) /
        (interiorCells s.W s.H).card := by
    unfold meanAbsInteriorDiv
    rw [h2, h3, h4]
  have e2 : meanAbsInteriorDiv s =
      (∑ c in interiorCells s.W s.H, |divAt s.velX s.velY s.W 1 c.1 c.2|) /
        (interiorCells s.W s.H).card := by
    unfold meanAbsInteriorDiv
    rw [hc]
  refine ⟨s', h1, ?_, ?_⟩
  · rw [e1, e2]
    exact div_le_div_of_nonneg_right hle hcard.le
  · rintro ⟨y, x, hi, hne⟩
    rw [e1, e2]
    apply div_lt_div_of_pos_right _ hcard
    rcases hlt hn with h | h
    · exact h
    · exfalso
      have hmem : (y, x) ∈ interiorCells s.W s.H := (mem_interiorCells s.W s.H _).2 hi
      have := (Finset.sum_eq_zero_iff_of_nonneg (fun _ _ => abs_nonneg _)).1 h (y, x) hmem
      rw [hc] at hne
      exact hne (abs_eq_zero.mp this)

/-- C2 amended, at a concrete state: a `3 × 3` grid whose interior cell has divergence `2`. -/
theorem C2_divergence_reduction_witness :
    divDemo.Sized ∧ 3 ≤ divDemo.W ∧ 3 ≤ divDemo.H ∧ divDemo.cellSize = 1 ∧
      1 ≤ divDemo.gsIterations ∧ (∀ v ∈ divDemo.pressure, v = 0) ∧
      ∃ s', project divDemo = some s' ∧ meanAbsInteriorDiv s' < meanAbsInteriorDiv divDemo := by
  have hs : divDemo.Sized := ⟨by decide, by decide, rfl, rfl, rfl, rfl, rfl⟩
  have hp : ∀ v ∈ divDemo.pressure, v = 0 := fun _ hv => (List.mem_replicate.mp hv).2
  obtain ⟨s', h1, -, h3⟩ :=
    C2_divergence_reduction divDemo hs (by decide) (by decide) rfl (by decide) hp
  refine ⟨hs, by decide, by decide, rfl, by decide, hp, s', h1, h3 ⟨1, 1, ?_, ?_⟩⟩
  · exact ⟨by decide, by decide, by decide, by decide⟩
  · have a1 : peek divDemo.velX 6 = 5 := rfl
    have a2 : peek divDemo.velX 5 = 1 := rfl
    have a3 : peek divDemo.velY 7 = 0 := rfl
    have a4 : peek divDemo.velY 4 = 2 := rfl
    have hW : (divDemo.W : Int) = 3 := rfl
    have hc : divDemo.cellSize = 1 := rfl
    simp only [divAt, hW, hc]
    norm_num [a1, a2, a3, a4]

/-! ## Advection at integer source positions -/

theorem densitySample_of_int (s : Main) (y x k i j : Int)
    (h : densitySrc s y x = ((i : ℚ), (j : ℚ))) :
    densitySample s y x k = peek s.density ((j * s.W + i) * 4 + k) := by
  simp only [densitySrc, Prod.mk.injEq] at h
  obtain ⟨hu, hv⟩ := h
  simp only [densitySample, hu, hv, Int.floor_intCast, sub_self, sub_zero, one_mul, zero_mul,
    add_zero]

theorem velXSample_of_int (s : Main) (y x i j : Int)
    (h : velXSrc s y x = ((i : ℚ), (j : ℚ))) :
    velXSample s y x = peek s.velX (j * (s.W + 1) + i) := by
  simp only [velXSrc, Prod.mk.injEq] at h
  obtain ⟨hu, hv⟩ := h
  simp only [velXSample, hu, hv, Int.floor_intCast, sub_self, sub_zero, one_mul, zero_mul,
    add_zero]

theorem velYSample_of_int (s : Main) (y x i j : Int)
    (h : velYSrc s y x = ((i : ℚ), (j : ℚ))) :
    velYSample s y x = peek s.velY (j * s.W + i) := by
  simp only [velYSrc, Prod.mk.injEq] at h
  obtain ⟨hu, hv⟩ := h
  simp only [velYSample, hu, hv, Int.floor_intCast, sub_self, sub_zero, one_mul, zero_mul,
    add_zero]

theorem clamp_int (m x : Int) (c : ℚ) (hc : c = m) (hx0 : 0 ≤ x) (hx : x ≤ m) :
    max (0 : ℚ) (min c (x : ℚ)) = x := by
  have h1 : (x : ℚ) ≤ c := by rw [hc]; exact_mod_cast hx
  have h2 : (0 : ℚ) ≤ x := by exact_mod_cast hx0
  rw [min_eq_right h1, max_eq_right h2]

/-- C11. Bilinear interpolation exactness: in `advectDensity` and in both passes of
`advectVelocity`, whenever the clamped backtrace source position of a sample has integer
coordinates `(i, j)`, the value written for that sample is exactly the old field value stored
at `(i, j)` (for each of the four channels of density), with no contribution of a neighbour. -/
theorem C11_bilinear_exactness (s : Main) (hs : s.Sized) :
    (∃ nd, advectDensity s = some { s with density := nd } ∧
      ∀ y x k : Int, 0 ≤ y → y < s.H → 0 ≤ x → x < s.W → 0 ≤ k → k < 4 →
        ∀ i j : Int, densitySrc s y x = ((i : ℚ), (j : ℚ)) →
          peek nd ((y * s.W + x) * 4 + k) = peek s.density ((j * s.W + i) * 4 + k)) ∧
    (∃ nx ny, advectVelocity s = some { s with velX := nx, velY := ny } ∧
      (∀ y x : Int, 0 ≤ y → y < s.H → 0 ≤ x → x ≤ s.W →
        ∀ i j : Int, velXSrc s y x = ((i : ℚ), (j : ℚ)) →
          peek nx (y * (s.W + 1) + x) = peek s.velX (j * (s.W + 1) + i)) ∧
      (∀ y x : Int, 0 ≤ y → y ≤ s.H → 0 ≤ x → x < s.W →
        ∀ i j : Int, velYSrc s y x = ((i : ℚ), (j : ℚ)) →
          peek ny (y * s.W + x) = peek s.velY (j * s.W + i))) := by
  obtain ⟨nd, h1, -, hd⟩ := advectDensity_spec s hs
  obtain ⟨nx, ny, h2, -, -, hx, hy⟩ := advectVelocity_spec s hs
  refine ⟨⟨nd, h1, ?_⟩, nx, ny, h2, ?_, ?_⟩
  · intro y x k hy0 hy1 hx0 hx1 hk0 hk1 i j hsrc
    rw [hd y x k hy0 hy1 hx0 hx1 hk0 hk1, densitySample_of_int s y x k i j hsrc]
  · intro y x hy0 hy1 hx0 hx1 i j hsrc
    rw [hx y x hy0 hy1 hx0 hx1, velXSample_of_int s y x i j hsrc]
  · intro y x hy0 hy1 hx0 hx1 i j hsrc
    rw [hy y x hy0 hy1 hx0 hx1, velYSample_of_int s y x i j hsrc]

theorem advectDensity_zero_timestep (s : Main) (hs : s.Sized) (ht : s.timestep = 0) :
    advectDensity s = some s := by
  obtain ⟨hW, hH, -⟩ := hs.casts
  obtain ⟨nd, hnd, hlen, hval⟩ := advectDensity_spec s hs
  have : nd = s.density := by
    apply ext_peek _ _ (by rw [hlen, hs.density])
    intro i h0 h1
    obtain ⟨y, x, k, hy0, hy, hx0, hx, hk0, hk, rfl⟩ :=
      density_index_cases s.W s.H i h0 (by rw [hlen] at h1; exact_mod_cast h1)
    rw [hval y x k hy0 hy hx0 hx hk0 hk]
    apply densitySample_of_int
    simp only [densitySrc, ht, mul_zero, sub_zero,
      clamp_int ((s.W : Int) - 1) x (((s.W : Int) : ℚ) - 1) (by push_cast; ring) hx0 (by omega),
      clamp_int ((s.H : Int) - 1) y (((s.H : Int) : ℚ) - 1) (by push_cast; ring) hy0 (by omega)]
  rw [hnd, this]

theorem advectVelocity_zero_timestep (s : Main) (hs : s.Sized) (ht : s.timestep = 0) :
    advectVelocity s = some s := by
  obtain ⟨hW, hH, -⟩ := hs.casts
  obtain ⟨nx, ny, h, hlx, hly, hx, hy⟩ := advectVelocity_spec s hs
  have ex : nx = s.velX := by
    apply ext_peek _ _ (by rw [hlx, hs.velX])
    intro i h0 h1
    obtain ⟨y, x, hy0, hy1, hx0, hx1, rfl⟩ := grid_index_cases (s.W + 1) s.H i (by omega) h0
      (by rw [hlx] at h1; push_cast at h1; exact h1)
    rw [hx y x hy0 hy1 hx0 (by omega)]
    apply velXSample_of_int
    simp only [velXSrc, ht, mul_zero, sub_zero,
      clamp_int (s.W : Int) x ((s.W : Int) : ℚ) rfl hx0 (by omega),
      clamp_int ((s.H : Int) - 1) y (((s.H : Int) : ℚ) - 1) (by push_cast; ring) hy0 (by omega)]
  have ey : ny = s.velY := by
    apply ext_peek _ _ (by rw [hly, hs.velY])
    intro i h0 h1
    obtain ⟨y, x, hy0, hy1, hx0, hx1, rfl⟩ := grid_index_cases s.W (s.H + 1) i (by omega) h0
      (by rw [hly] at h1; push_cast at h1; exact h1)
    rw [hy y x hy0 (by omega) hx0 hx1]
    apply velYSample_of_int
    simp only [velYSrc, ht, mul_zero, sub_zero,
      clamp_int ((s.W : Int) - 1) x (((s.W : Int) : ℚ) - 1) (by push_cast; ring) hx0 (by omega),
      clamp_int (s.H : Int) y ((s.H : Int) : ℚ) rfl hy0 (by omega)]
  rw [h, ex, ey]

/-- C20. Zero timestep makes advection the identity: on a grid with `W, H ≥ 1`, for every
velocity and density field, with `timestep = 0` both `advectVelocity` and `advectDensity`
return the state unchanged. -/
theorem C20_zero_timestep (s : Main) (hs : s.Sized) (ht : s.timestep = 0) :
    advectVelocity s = some s ∧ advectDensity s = some s :=
  ⟨advectVelocity_zero_timestep s hs ht, advectDensity_zero_timestep s hs ht⟩


/-! ## Gradient subtraction and divergence: claims -/

/-- C13. Gradient subtraction formula: on a grid with `W, H ≥ 1`, for every pressure `p` and
`cellSize ≠ 0`, `subtractGradient` returns a state that differs from the old one in `velX` and
`velY` only (pressure, divergence and density are untouched), with `velX[y * (W + 1) + x]`
equal to its old value minus `(p[y * W + min(x, W - 1)] - p[y * W + max(x - 1, 0)]) / cellSize`
for `0 ≤ y < H`, `0 ≤ x ≤ W`, and `velY[y * W + x]` equal to its old value minus
`(p[min(y, H - 1) * W + x] - p[max(y - 1, 0) * W + x]) / cellSize` for `0 ≤ y ≤ H`, `0 ≤ x < W`. -/
theorem C13_gradient_subtraction (s : Main) (hs : s.Sized) (_hc : s.cellSize ≠ 0) :
    ∃ vx vy, subtractGradient s = some { s with velX := vx, velY := vy } ∧
      vx.length = s.velX.length ∧ vy.length = s.velY.length ∧
      (∀ y x : Int, 0 ≤ y → y < s.H → 0 ≤ x → x ≤ s.W →
        peek vx (y * (s.W + 1) + x) = peek s.velX (y * (s.W + 1) + x) -
          (peek s.pressure (y * s.W + min x ((s.W : Int) - 1)) -
            peek s.pressure (y * s.W + max (x - 1) 0)) / s.cellSize) ∧
      (∀ y x : Int, 0 ≤ y → y ≤ s.H → 0 ≤ x → x < s.W →
        peek vy (y * s.W + x) = peek s.velY (y * s.W + x) -
          (peek s.pressure (min y ((s.H : Int) - 1) * s.W + x) -
            peek s.pressure (max (y - 1) 0 * s.W + x)) / s.cellSize) := by
  obtain ⟨vx, vy, h, hlx, hly, hx, hy⟩ := subtractGradient_spec s hs
  refine ⟨vx, vy, h, by rw [hlx, hs.velX], by rw [hly, hs.velY], ?_, ?_⟩
  · intro y x hy0 hy1 hx0 hx1
    rw [hx y x hy0 hy1 hx0 hx1, min_comm, max_comm]
  · intro y x hy0 hy1 hx0 hx1
    rw [hy y x hy0 hy1 hx0 hx1, min_comm, max_comm]

/-- C14. Divergence operator: on a grid with `W, H ≥ 1`, for every velocity field,
`computeDivergence` returns a state that differs from the old one in the divergence buffer
only (the velocity field is untouched), with `divergence[y * W + x] =
(velX[y * (W + 1) + x + 1] - velX[y * (W + 1) + x] + velY[(y + 1) * W + x] - velY[y * W + x])
/ cellSize` at every cell; the result is fully recomputed: whatever the divergence buffer
held before, the same buffer comes out. -/
theorem C14_divergence_operator (s : Main) (hs : s.Sized) :
    ∃ d, computeDivergence s = some { s with divergence := d } ∧ d.length = s.W * s.H ∧
      (∀ y x : Int, 0 ≤ y → y < s.H → 0 ≤ x → x < s.W →
        peek d (y * s.W + x) =
          (peek s.velX (y * (s.W + 1) + x + 1) - peek s.velX (y * (s.W + 1) + x) +
            peek s.velY ((y + 1) * s.W + x) - peek s.velY (y * s.W + x)) / s.cellSize) ∧
      (∀ d0 : List ℚ, d0.length = s.W * s.H →
        computeDivergence { s with divergence := d0 } = some { s with divergence := d }) := by
  obtain ⟨d, h, hlen, hval⟩ := computeDivergence_spec s hs
  refine ⟨d, h, hlen, fun y x a b c e => hval y x a b c e, ?_⟩
  intro d0 hd0
  have hs0 : ({ s with divergence := d0 } : Main).Sized :=
    ⟨hs.hW, hs.hH, hs.velX, hs.velY, hs.density, hs.pressure, hd0⟩
  obtain ⟨d', h', hlen', hval'⟩ := computeDivergence_spec _ hs0
  have : d' = d := by
    apply ext_peek _ _ (by rw [hlen', hlen])
    intro i h0 h1
    obtain ⟨y, x, hy0, hy, hx0, hx, rfl⟩ := grid_index_cases s.W s.H i (by omega) h0
      (by rw [hlen'] at h1; push_cast at h1; exact h1)
    rw [hval' y x hy0 hy hx0 hx, hval y x hy0 hy hx0 hx]
  rw [h', this]

/-- C19. Wall faces are never corrected: on a grid with `W, H ≥ 1`, for every pressure field
(and `cellSize ≠ 0`) `subtractGradient` leaves `velX` unchanged on the faces `x = 0` and
`x = W` of every row and `velY` unchanged on the faces `y = 0` and `y = H` of every column;
there the two clamped neighbour indices coincide, so the pressure difference is zero. -/
theorem C19_wall_faces (s : Main) (hs : s.Sized) (_hc : s.cellSize ≠ 0) :
    ∃ vx vy, subtractGradient s = some { s with velX := vx, velY := vy } ∧
      (∀ y : Int, 0 ≤ y → y < s.H →
        peek vx (y * (s.W + 1) + 0) = peek s.velX (y * (s.W + 1) + 0) ∧
        peek vx (y * (s.W + 1) + s.W) = peek s.velX (y * (s.W + 1) + s.W)) ∧
      (∀ x : Int, 0 ≤ x → x < s.W →
        peek vy (0 * s.W + x) = peek s.velY (0 * s.W + x) ∧
        peek vy (s.H * s.W + x) = peek s.velY (s.H * s.W + x)) ∧
      (max 0 ((0 : Int) - 1) = min ((s.W : Int) - 1) 0 ∧
        max 0 ((s.W : Int) - 1) = min ((s.W : Int) - 1) s.W ∧
        max 0 ((0 : Int) - 1) = min ((s.H : Int) - 1) 0 ∧
        max 0 ((s.H : Int) - 1) = min ((s.H : Int) - 1) s.H) := by
  obtain ⟨hW, hH, -⟩ := hs.casts
  obtain ⟨vx, vy, h, -, -, hx, hy⟩ := subtractGradient_spec s hs
  have m1 : max 0 ((0 : Int) - 1) = min ((s.W : Int) - 1) 0 := by
    rw [max_eq_left (by omega), min_eq_right (by omega)]
  have m2 : max 0 ((s.W : Int) - 1) = min ((s.W : Int) - 1) s.W := by
    rw [max_eq_right (by omega), min_eq_left (by omega)]
  have m3 : max 0 ((0 : Int) - 1) = min ((s.H : Int) - 1) 0 := by
    rw [max_eq_left (by omega), min_eq_right (by omega)]
  have m4 : max 0 ((s.H : Int) - 1) = min ((s.H : Int) - 1) s.H := by
    rw [max_eq_right (by omega), min_eq_left (by omega)]
  refine ⟨vx, vy, h, ?_, ?_, m1, m2, m3, m4⟩
  · intro y hy0 hy1
    constructor
    · rw [hx y 0 hy0 hy1 le_rfl (by omega), m1]
      simp
    · rw [hx y s.W hy0 hy1 (by omega) le_rfl, m2]
      simp
  · intro x hx0 hx1
    constructor
    · rw [hy 0 x le_rfl (by omega) hx0 hx1, m3]
      simp
    · rw [hy s.H x (by omega) le_rfl hx0 hx1, m4]
      simp

/-- C18. Exact projection at a relaxation fixed point: with `cellSize = 1`, for every velocity
field with divergence `div` as `computeDivergence` stores it and every pressure field `p`,
the divergence recomputed after `subtractGradient` at an interior cell equals the old one
minus the 5-point Laplacian of `p` there; hence if the cell satisfies the relaxation equation
`p(x,y) = (p(x-1,y) + p(x+1,y) + p(x,y-1) + p(x,y+1) - div(x,y)) / 4`, the recomputed
divergence at that cell is exactly zero. -/
theorem C18_exact_projection (s : Main) (hs : s.Sized) (hc : s.cellSize = 1) :
    ∃ s1 s2 s3, computeDivergence s = some s1 ∧ subtractGradient s1 = some s2 ∧
      computeDivergence s2 = some s3 ∧ s1.pressure = s.pressure ∧
      ∀ y x : Int, 1 ≤ x → x < (s.W : Int) - 1 → 1 ≤ y → y < (s.H : Int) - 1 →
        peek s3.divergence (y * s.W + x) =
          peek s1.divergence (y * s.W + x) -
            (peek s.pressure (y * s.W + x - 1) + peek s.pressure (y * s.W + x + 1) +
              peek s.pressure (y * s.W + x - s.W) + peek s.pressure (y * s.W + x + s.W) -
              4 * peek s.pressure (y * s.W + x)) ∧
        (peek s.pressure (y * s.W + x) =
            (peek s.pressure (y * s.W + x - 1) + peek s.pressure (y * s.W + x + 1) +
              peek s.pressure (y * s.W + x - s.W) + peek s.pressure (y * s.W + x + s.W) -
              peek s1.divergence (y * s.W + x)) / 4 →
          peek s3.divergence (y * s.W + x) = 0) := by
  obtain ⟨d, h1, hdl, hd⟩ := computeDivergence_spec s hs
  have hs1 : ({ s with divergence := d } : Main).Sized :=
    ⟨hs.hW, hs.hH, hs.velX, hs.velY, hs.density, hs.pressure, hdl⟩
  obtain ⟨vx, vy, h2, hlx, hly, hdiv⟩ := subtractGradient_divAt _ hs1 hc
  have hs2 : ({ s with divergence := d, velX := vx, velY := vy } : Main).Sized :=
    ⟨hs.hW, hs.hH, hlx.trans hs.velX, hly.trans hs.velY, hs.density, hs.pressure, hdl⟩
  obtain ⟨d', h3, -, hd'⟩ := computeDivergence_spec _ hs2
  refine ⟨_, _, _, h1, h2, h3, rfl, ?_⟩
  intro y x x1 x2 y1 y2
  have key : peek d' (y * s.W + x) = peek d (y * s.W + x) - laplacian s.W s.pressure y x := by
    have a : peek d' (y * s.W + x) = divAt vx vy s.W s.cellSize y x :=
      hd' y x (show (0 : Int) ≤ y by omega) (show y < (s.H : Int) by omega)
        (show (0 : Int) ≤ x by omega) (show x < (s.W : Int) by omega)
    have b := hd y x (by omega) (by omega) (by omega) (by omega)
    have c : divAt vx vy s.W 1 y x = divAt s.velX s.velY s.W 1 y x - laplacian s.W s.pressure y x :=
      hdiv y x ⟨x1, x2, y1, y2⟩
    rw [hc] at a b
    rw [a, b]
    exact c
  refine ⟨by rw [key]; rfl, fun hfix => ?_⟩
  show peek d' (y * s.W + x) = 0
  rw [key]
  have hfix' : peek s.pressure (y * s.W + x) =
      (peek s.pressure (y * s.W + x - 1) + peek s.pressure (y * s.W + x + 1) +
        peek s.pressure (y * s.W + x - s.W) + peek s.pressure (y * s.W + x + s.W) -
        peek d (y * s.W + x)) / 4 := hfix
  unfold laplacian
  linarith


/-! ## The density range -/

theorem in01_peek {a : List ℚ} (h : In01 a) (i : Int) : 0 ≤ peek a i ∧ peek a i ≤ 1 := by
  by_cases hi : 0 ≤ i ∧ i < a.length
  · obtain ⟨n, rfl⟩ : ∃ n : Nat, i = n := ⟨i.toNat, by omega⟩
    have hn : n < a.length := by omega
    rw [peek_eq_getElem a n hn]
    exact h _ (List.getElem_mem hn)
  · rw [peek_of_not_mem a i hi]
    exact ⟨le_rfl, zero_le_one⟩

theorem in01_of_peek {a : List ℚ}
    (h : ∀ i : Int, 0 ≤ i → i < a.length → 0 ≤ peek a i ∧ peek a i ≤ 1) : In01 a := by
  intro v hv
  obtain ⟨n, hn, rfl⟩ := List.getElem_of_mem hv
  have := h n (by omega) (by exact_mod_cast hn)
  rwa [peek_eq_getElem a n hn] at this

theorem convex2 (t a b : ℚ) (ht0 : 0 ≤ t) (ht1 : t ≤ 1) (ha : 0 ≤ a ∧ a ≤ 1)
    (hb : 0 ≤ b ∧ b ≤ 1) : 0 ≤ (1 - t) * a + t * b ∧ (1 - t) * a + t * b ≤ 1 := by
  have h1 : 0 ≤ 1 - t := by linarith
  constructor
  · exact add_nonneg (mul_nonneg h1 ha.1) (mul_nonneg ht0 hb.1)
  · have e1 : (1 - t) * a ≤ (1 - t) * 1 := mul_le_mul_of_nonneg_left ha.2 h1
    have e2 : t * b ≤ t * 1 := mul_le_mul_of_nonneg_left hb.2 ht0
    linarith

theorem fract_bounds (u : ℚ) : 0 ≤ u - (Int.floor u : ℚ) ∧ u - (Int.floor u : ℚ) ≤ 1 := by
  have h1 := Int.floor_le u
  have h2 := Int.lt_floor_add_one u
  constructor <;> linarith

theorem densitySample_in01 (s : Main) (hd : In01 s.density) (y x k : Int) :
    0 ≤ densitySample s y x k ∧ densitySample s y x k ≤ 1 := by
  simp only [densitySample]
  have hs := fract_bounds (max 0 (min (((s.W : Int) : ℚ) - 1)
    (x - peek s.velX (y * (s.W + 1) + x) * s.timestep)))
  have ht := fract_bounds (max 0 (min (((s.H : Int) : ℚ) - 1)
    (y - peek s.velY (y * s.W + x) * s.timestep)))
  exact convex2 _ _ _ hs.1 hs.2
    (convex2 _ _ _ ht.1 ht.2 (in01_peek hd _) (in01_peek hd _))
    (convex2 _ _ _ ht.1 ht.2 (in01_peek hd _) (in01_peek hd _))

theorem advectDensity_keeps (s : Main) (hs : s.Sized) (hd : In01 s.density) :
    ∃ s', advectDensity s = some s' ∧ s'.Sized ∧ s'.smokeDecay = s.smokeDecay ∧
      In01 s'.density := by
  obtain ⟨nd, h, hlen, hval⟩ := advectDensity_spec s hs
  refine ⟨_, h, ⟨hs.hW, hs.hH, hs.velX, hs.velY, hlen, hs.pressure, hs.divergence⟩, rfl, ?_⟩
  apply in01_of_peek
  intro i h0 h1
  obtain ⟨y, x, k, hy0, hy, hx0, hx, hk0, hk, rfl⟩ :=
    density_index_cases s.W s.H i h0 (by
      have : ((nd.length : Nat) : Int) = s.W * s.H * 4 := by rw [hlen]; push_cast; ring
      rw [← this]; exact h1)
  show 0 ≤ peek nd _ ∧ peek nd _ ≤ 1
  rw [hval y x k hy0 hy hx0 hx hk0 hk]
  exact densitySample_in01 s hd y x k

theorem decayDensity_keeps (s : Main) (hd : In01 s.density)
    (h0 : 0 ≤ s.smokeDecay) (h1 : s.smokeDecay ≤ 1) :
    ∃ s', decayDensity s = some s' ∧ s'.density.length = s.density.length ∧ In01 s'.density := by
  refine ⟨_, decayDensity_spec s, by simp, ?_⟩
  intro v hv
  simp only [List.mem_map] at hv
  obtain ⟨w, hw, rfl⟩ := hv
  have := hd w hw
  exact ⟨mul_nonneg this.1 h0, by nlinarith⟩

theorem chan_in01 (c : ℚ × ℚ × ℚ × ℚ)
    (hc : (0 ≤ c.1 ∧ c.1 ≤ 1) ∧ (0 ≤ c.2.1 ∧ c.2.1 ≤ 1) ∧ (0 ≤ c.2.2.1 ∧ c.2.2.1 ≤ 1) ∧
      (0 ≤ c.2.2.2 ∧ c.2.2.2 ≤ 1)) (k : Int) : 0 ≤ chan c k ∧ chan c k ≤ 1 := by
  unfold chan
  split_ifs
  · exact hc.1
  · exact hc.2.1
  · exact hc.2.2.1
  · exact hc.2.2.2

theorem applyBrush_keeps (s : Main) (hs : s.Sized) (hd : In01 s.density)
    (hc : (0 ≤ s.brushColor.1 ∧ s.brushColor.1 ≤ 1) ∧ (0 ≤ s.brushColor.2.1 ∧ s.brushColor.2.1 ≤ 1) ∧
      (0 ≤ s.brushColor.2.2.1 ∧ s.brushColor.2.2.1 ≤ 1) ∧
      (0 ≤ s.brushColor.2.2.2 ∧ s.brushColor.2.2.2 ≤ 1)) :
    ∃ s', applyBrush s = some s' ∧ s'.Sized ∧ s'.smokeDecay = s.smokeDecay ∧
      In01 s'.density := by
  cases hdn : s.mouseDown
  · exact ⟨s, by simp [applyBrush, hdn], hs, rfl, hd⟩
  · cases hg : s.gridCoord with
    | none => exact ⟨s, by simp [applyBrush, hdn, hg], hs, rfl, hd⟩
    | some g =>
      obtain ⟨gx, gy⟩ := g
      obtain ⟨s', h, hr, ud, -, -⟩ := applyBrush_spec s hs gx gy hdn hg
      have hs' := hr.sized hs
      obtain ⟨d, vx, vy, rfl, -, -, -⟩ := hr
      refine ⟨_, h, hs', rfl, ?_⟩
      apply in01_of_peek
      intro i _ _
      by_cases hi : ∃ y, -s.radius ≤ y ∧ y < s.radius + 1 ∧ ∃ x, -s.radius ≤ x ∧
          x < s.radius + 1 ∧ (brushActive s gx gy y x ∧ s.mouseRight = false) ∧
          ∃ k, 0 ≤ k ∧ k < 4 ∧ i = ((gy + y) * s.W + (gx + x)) * 4 + k
      · rw [(ud.2 i).1 hi]
        exact chan_in01 _ hc _
      · rw [(ud.2 i).2 hi]
        exact in01_peek hd i

theorem advectVelocity_keeps (s : Main) (hs : s.Sized) :
    ∃ s', advectVelocity s = some s' ∧ s'.Sized ∧ s'.smokeDecay = s.smokeDecay ∧
      s'.brushColor = s.brushColor ∧ s'.density = s.density := by
  obtain ⟨nx, ny, h, hlx, hly, -⟩ := advectVelocity_spec s hs
  exact ⟨_, h, ⟨hs.hW, hs.hH, hlx, hly, hs.density, hs.pressure, hs.divergence⟩, rfl, rfl, rfl⟩

theorem computeDivergence_keeps (s : Main) (hs : s.Sized) :
    ∃ s', computeDivergence s = some s' ∧ s'.Sized ∧ s'.smokeDecay = s.smokeDecay ∧
      s'.density = s.density := by
  obtain ⟨d, h, hl, -⟩ := computeDivergence_spec s hs
  exact ⟨_, h, ⟨hs.hW, hs.hH, hs.velX, hs.velY, hs.density, hs.pressure, hl⟩, rfl, rfl⟩

theorem gaussSeidelPressure_keeps (s : Main) (hs : s.Sized) :
    ∃ s', gaussSeidelPressure s = some s' ∧ s'.Sized ∧ s'.smokeDecay = s.smokeDecay ∧
      s'.density = s.density := by
  obtain ⟨q, h, hl, -⟩ := gaussSeidelPressure_spec s hs
  exact ⟨_, h, ⟨hs.hW, hs.hH, hs.velX, hs.velY, hs.density, hl.trans hs.pressure,
    hs.divergence⟩, rfl, rfl⟩

theorem subtractGradient_keeps (s : Main) (hs : s.Sized) :
    ∃ s', subtractGradient s = some s' ∧ s'.Sized ∧ s'.smokeDecay = s.smokeDecay ∧
      s'.density = s.density := by
  obtain ⟨vx, vy, h, hlx, hly, -⟩ := subtractGradient_spec s hs
  exact ⟨_, h, ⟨hs.hW, hs.hH, hlx, hly, hs.density, hs.pressure, hs.divergence⟩, rfl, rfl⟩

/-- One whole `step` returns and keeps the density inside `[0, 1]`. -/
theorem step_keeps (s : Main) (hs : s.Sized) (hd : In01 s.density)
    (hc : (0 ≤ s.brushColor.1 ∧ s.brushColor.1 ≤ 1) ∧ (0 ≤ s.brushColor.2.1 ∧ s.brushColor.2.1 ≤ 1) ∧
      (0 ≤ s.brushColor.2.2.1 ∧ s.brushColor.2.2.1 ≤ 1) ∧
      (0 ≤ s.brushColor.2.2.2 ∧ s.brushColor.2.2.2 ≤ 1))
    (h0 : 0 ≤ s.smokeDecay) (h1 : s.smokeDecay ≤ 1) :
    ∃ s', step s = some s' ∧ In01 s'.density := by
  obtain ⟨s1, e1, z1, k1, d1⟩ := applyBrush_keeps s hs hd hc
  obtain ⟨s2, e2, z2, k2, -, d2⟩ := advectVelocity_keeps s1 z1
  obtain ⟨s3, e3, z3, k3, d3⟩ := advectDensity_keeps s2 z2 (by rw [d2]; exact d1)
  obtain ⟨s4, e4, z4, k4, d4⟩ := computeDivergence_keeps s3 z3
  obtain ⟨s5, e5, z5, k5, d5⟩ := gaussSeidelPressure_keeps s4 z4
  obtain ⟨s6, e6, z6, k6, d6⟩ := subtractGradient_keeps s5 z5
  have hk : s6.smokeDecay = s.smokeDecay := by rw [k6, k5, k4, k3, k2, k1]
  obtain ⟨s7, e7, -, d7⟩ := decayDensity_keeps s6 (by rw [d6, d5, d4]; exact d3)
    (by rw [hk]; exact h0) (by rw [hk]; exact h1)
  refine ⟨s7, ?_, d7⟩
  simp only [step, e1, e2, e3, e4, e5, e6, Option.bind_eq_bind, Option.some_bind]
  exact e7

/-- The value `advectDensity` stores is a convex combination of four entries of the old buffer. -/
theorem densitySample_convex (s : Main) (hs : s.Sized) (y x k : Int) (hk0 : 0 ≤ k) (hk : k < 4) :
    ∃ w00 w01 w10 w11 : ℚ, ∃ i00 i01 i10 i11 : Int,
      (0 ≤ w00 ∧ w00 ≤ 1) ∧ (0 ≤ w01 ∧ w01 ≤ 1) ∧ (0 ≤ w10 ∧ w10 ≤ 1) ∧ (0 ≤ w11 ∧ w11 ≤ 1) ∧
      w00 + w01 + w10 + w11 = 1 ∧
      InBuf s.density i00 ∧ InBuf s.density i01 ∧ InBuf s.density i10 ∧ InBuf s.density i11 ∧
      densitySample s y x k = w00 * peek s.density i00 + w01 * peek s.density i01 +
        w10 * peek s.density i10 + w11 * peek s.density i11 := by
  obtain ⟨hW, hH, -, -, hld, -, -⟩ := hs.casts
  have hfi := floor_clamp (s.W - 1) (((s.W : Int) : ℚ) - 1) (by push_cast; ring) (by omega)
    (x - peek s.velX (y * (s.W + 1) + x) * s.timestep)
  have hfj := floor_clamp (s.H - 1) (((s.H : Int) : ℚ) - 1) (by push_cast; ring) (by omega)
    (y - peek s.velY (y * s.W + x) * s.timestep)
  have hi1 := min_succ_bounds _ ((s.W : Int) - 1) hfi.1 (by omega)
  have hj1 := min_succ_bounds _ ((s.H : Int) - 1) hfj.1 (by omega)
  have hb : ∀ i j : Int, 0 ≤ i → i ≤ s.W - 1 → 0 ≤ j → j ≤ s.H - 1 →
      InBuf s.density ((j * s.W + i) * 4 + k) := by
    intro i j hi0 hi hj0 hj
    have := idx_bound s.W s.H j i hj0 (by omega) hi0 (by omega)
    unfold InBuf
    rw [hld]
    constructor <;> omega
  have hs' := fract_bounds (max 0 (min (((s.W : Int) : ℚ) - 1)
    (x - peek s.velX (y * (s.W + 1) + x) * s.timestep)))
  have ht' := fract_bounds (max 0 (min (((s.H : Int) : ℚ) - 1)
    (y - peek s.velY (y * s.W + x) * s.timestep)))
  set s1 := max 0 (min (((s.W : Int) : ℚ) - 1)
    (x - peek s.velX (y * (s.W + 1) + x) * s.timestep)) - (Int.floor (max 0 (min (((s.W : Int) : ℚ) - 1)
    (x - peek s.velX (y * (s.W + 1) + x) * s.timestep))) : ℚ) with hs1
  set t1 := max 0 (min (((s.H : Int) : ℚ) - 1)
    (y - peek s.velY (y * s.W + x) * s.timestep)) - (Int.floor (max 0 (min (((s.H : Int) : ℚ) - 1)
    (y - peek s.velY (y * s.W + x) * s.timestep))) : ℚ) with ht1
  have a0 : 0 ≤ 1 - s1 := by linarith [hs'.2]
  have b0 : 0 ≤ 1 - t1 := by linarith [ht'.2]
  refine ⟨(1 - s1) * (1 - t1), (1 - s1) * t1, s1 * (1 - t1), s1 * t1, _, _, _, _,
    ⟨mul_nonneg a0 b0, ?_⟩, ⟨mul_nonneg a0 ht'.1, ?_⟩, ⟨mul_nonneg hs'.1 b0, ?_⟩,
    ⟨mul_nonneg hs'.1 ht'.1, ?_⟩, by ring,
    hb _ _ hfi.1 hfi.2 hfj.1 hfj.2, hb _ _ hfi.1 hfi.2 hj1.1 hj1.2,
    hb _ _ hi1.1 hi1.2 hfj.1 hfj.2, hb _ _ hi1.1 hi1.2 hj1.1 hj1.2, ?_⟩
  · nlinarith [hs'.1, ht'.1]
  · nlinarith [hs'.1, ht'.1, ht'.2]
  · nlinarith [hs'.1, hs'.2, ht'.1]
  · nlinarith [hs'.1, hs'.2, ht'.1, ht'.2]
  · simp only [densitySample, ← hs1, ← ht1]
    ring


/-- C11 at a concrete state: on the `3 × 3` swirl with timestep `1/2`, density cell `(2, 0)`
traces back to the integer position `(1, 0)`, and its red channel takes the value `4` stored
there. -/
theorem C11_bilinear_exactness_witness :
    shiftDemo.Sized ∧ densitySrc shiftDemo 0 2 = (((1 : Int) : ℚ), ((0 : Int) : ℚ)) ∧
      ∃ nd, advectDensity shiftDemo = some { shiftDemo with density := nd } ∧ peek nd 8 = 4 := by
  have hs : shiftDemo.Sized := ⟨by decide, by decide, rfl, rfl, rfl, rfl, rfl⟩
  have hsrc : densitySrc shiftDemo 0 2 = (((1 : Int) : ℚ), ((0 : Int) : ℚ)) := by
    have e1 : peek shiftDemo.velX (0 * (((shiftDemo.W : Nat) : Int) + 1) + 2) = 2 := rfl
    have e2 : peek shiftDemo.velY (0 * ((shiftDemo.W : Nat) : Int) + 2) = 0 := rfl
    have e3 : shiftDemo.timestep = 1 / 2 := rfl
    have e4 : (((shiftDemo.W : Nat) : Int) : ℚ) = 3 := by norm_num [shiftDemo, flowDemo, restDemo]
    have e5 : (((shiftDemo.H : Nat) : Int) : ℚ) = 3 := by norm_num [shiftDemo, flowDemo, restDemo]
    simp only [densitySrc, e1, e2, e3, e4, e5]
    norm_num
  obtain ⟨nd, h, hv⟩ := (C11_bilinear_exactness shiftDemo hs).1
  refine ⟨hs, hsrc, nd, h, ?_⟩
  have := hv 0 2 0 (by decide) (by decide) (by decide) (by decide) (by decide) (by decide) 1 0 hsrc
  have hW : ((shiftDemo.W : Nat) : Int) = 3 := rfl
  simp only [hW] at this
  norm_num at this
  rw [this]
  rfl

/-- C12. Density range invariant: if every density value lies in `[0, 1]`, every `brushColor`
component lies in `[0, 1]` and `0 ≤ smokeDecay ≤ 1`, then for every velocity field, timestep
and brush state one whole `step` returns a state whose density values all lie in `[0, 1]`,
and so does each density-affecting stage on its own (`applyBrush`, `decayDensity`,
`advectDensity`); each value written by `advectDensity` is a combination of four entries of
the old density buffer with weights in `[0, 1]` that sum to `1`. -/
theorem C12_density_range (s : Main) (hs : s.Sized) (hd : In01 s.density)
    (hc : (0 ≤ s.brushColor.1 ∧ s.brushColor.1 ≤ 1) ∧ (0 ≤ s.brushColor.2.1 ∧ s.brushColor.2.1 ≤ 1) ∧
      (0 ≤ s.brushColor.2.2.1 ∧ s.brushColor.2.2.1 ≤ 1) ∧
      (0 ≤ s.brushColor.2.2.2 ∧ s.brushColor.2.2.2 ≤ 1))
    (h0 : 0 ≤ s.smokeDecay) (h1 : s.smokeDecay ≤ 1) :
    (∃ s', step s = some s' ∧ In01 s'.density) ∧
    (∃ s', applyBrush s = some s' ∧ In01 s'.density) ∧
    (∃ s', decayDensity s = some s' ∧ In01 s'.density) ∧
    (∃ nd, advectDensity s = some { s with density := nd } ∧ In01 nd ∧
      ∀ y x k : Int, 0 ≤ y → y < s.H → 0 ≤ x → x < s.W → 0 ≤ k → k < 4 →
        ∃ w00 w01 w10 w11 : ℚ, ∃ i00 i01 i10 i11 : Int,
          (0 ≤ w00 ∧ w00 ≤ 1) ∧ (0 ≤ w01 ∧ w01 ≤ 1) ∧ (0 ≤ w10 ∧ w10 ≤ 1) ∧
          (0 ≤ w11 ∧ w11 ≤ 1) ∧ w00 + w01 + w10 + w11 = 1 ∧
          InBuf s.density i00 ∧ InBuf s.density i01 ∧ InBuf s.density i10 ∧
          InBuf s.density i11 ∧
          peek nd ((y * s.W + x) * 4 + k) = w00 * peek s.density i00 + w01 * peek s.density i01 +
            w10 * peek s.density i10 + w11 * peek s.density i11) := by
  refine ⟨step_keeps s hs hd hc h0 h1, ?_, ?_, ?_⟩
  · obtain ⟨s', e, -, -, d⟩ := applyBrush_keeps s hs hd hc
    exact ⟨s', e, d⟩
  · obtain ⟨s', e, -, d⟩ := decayDensity_keeps s hd h0 h1
    exact ⟨s', e, d⟩
  · obtain ⟨nd, h, -, hval⟩ := advectDensity_spec s hs
    obtain ⟨s', e, -, -, d⟩ := advectDensity_keeps s hs hd
    have : s' = { s with density := nd } := Option.some.inj (e.symm.trans h)
    subst this
    refine ⟨nd, h, d, ?_⟩
    intro y x k hy0 hy hx0 hx hk0 hk
    rw [hval y x k hy0 hy hx0 hx hk0 hk]
    exact densitySample_convex s hs y x k hk0 hk

/-- C12 at a concrete state: one step of the `4 × 4` brush scenario. -/
theorem C12_density_range_witness :
    brushDemo.Sized ∧ In01 brushDemo.density ∧ 0 ≤ brushDemo.smokeDecay ∧
      brushDemo.smokeDecay ≤ 1 ∧ ∃ s', step brushDemo = some s' ∧ In01 s'.density := by
  have hs : brushDemo.Sized := ⟨by decide, by decide, rfl, rfl, rfl, rfl, rfl⟩
  have hd : In01 brushDemo.density := by
    intro v hv
    rw [(List.mem_replicate.mp hv).2]
    exact ⟨le_rfl, zero_le_one⟩
  have hc : (0 ≤ brushDemo.brushColor.1 ∧ brushDemo.brushColor.1 ≤ 1) ∧
      (0 ≤ brushDemo.brushColor.2.1 ∧ brushDemo.brushColor.2.1 ≤ 1) ∧
      (0 ≤ brushDemo.brushColor.2.2.1 ∧ brushDemo.brushColor.2.2.1 ≤ 1) ∧
      (0 ≤ brushDemo.brushColor.2.2.2 ∧ brushDemo.brushColor.2.2.2 ≤ 1) := by
    norm_num [brushDemo]
  have h0 : 0 ≤ brushDemo.smokeDecay := by norm_num [brushDemo]
  have h1 : brushDemo.smokeDecay ≤ 1 := by norm_num [brushDemo]
  exact ⟨hs, hd, h0, h1, (C12_density_range brushDemo hs hd hc h0 h1).1⟩

/-- C13 at a concrete state: on the `3 × 3` grid with pressure `1 .. 9` and zero velocity, the
face `(1, 1)` of `velX` becomes `0 - (5 - 4) / 1 = -1`. -/
theorem C13_gradient_subtraction_witness :
    sweepDemo.Sized ∧ sweepDemo.cellSize ≠ 0 ∧
      ∃ vx vy, subtractGradient sweepDemo = some { sweepDemo with velX := vx, velY := vy } ∧
        peek vx 5 = -1 := by
  have hs : sweepDemo.Sized := ⟨by decide, by decide, rfl, rfl, rfl, rfl, rfl⟩
  have hc : sweepDemo.cellSize ≠ 0 := by norm_num [sweepDemo, restDemo]
  obtain ⟨vx, vy, h, -, -, hx, -⟩ := C13_gradient_subtraction sweepDemo hs hc
  refine ⟨hs, hc, vx, vy, h, ?_⟩
  have := hx 1 1 (by decide) (by decide) (by decide) (by decide)
  have hW : ((sweepDemo.W : Nat) : Int) = 3 := rfl
  have e0 : peek sweepDemo.velX 5 = 0 := rfl
  have e1 : peek sweepDemo.pressure 4 = 5 := rfl
  have e2 : peek sweepDemo.pressure 3 = 4 := rfl
  have e3 : sweepDemo.cellSize = 1 := rfl
  simp only [hW] at this
  norm_num at this
  rw [this, e0, e1, e2, e3]
  norm_num

/-- C14 at a concrete state: the centre cell of `divDemo` gets `(5 - 1 + 0 - 2) / 1 = 2`. -/
theorem C14_divergence_operator_witness :
    divDemo.Sized ∧
      ∃ d, computeDivergence divDemo = some { divDemo with divergence := d } ∧ peek d 4 = 2 := by
  have hs : divDemo.Sized := ⟨by decide, by decide, rfl, rfl, rfl, rfl, rfl⟩
  obtain ⟨d, h, -, hv, -⟩ := C14_divergence_operator divDemo hs
  refine ⟨hs, d, h, ?_⟩
  have := hv 1 1 (by decide) (by decide) (by decide) (by decide)
  have hW : ((divDemo.W : Nat) : Int) = 3 := rfl
  have a1 : peek divDemo.velX 6 = 5 := rfl
  have a2 : peek divDemo.velX 5 = 1 := rfl
  have a3 : peek divDemo.velY 7 = 0 := rfl
  have a4 : peek divDemo.velY 4 = 2 := rfl
  have a5 : divDemo.cellSize = 1 := rfl
  simp only [hW] at this
  norm_num at this
  rw [this, a1, a2, a3, a4, a5]
  norm_num

/-- C19 at a concrete state: the `3 × 3` grid with pressure `1 .. 9`. -/
theorem C19_wall_faces_witness :
    sweepDemo.Sized ∧ sweepDemo.cellSize ≠ 0 ∧
      ∃ vx vy, subtractGradient sweepDemo = some { sweepDemo with velX := vx, velY := vy } ∧
        (∀ y : Int, 0 ≤ y → y < sweepDemo.H →
          peek vx (y * (sweepDemo.W + 1) + 0) = peek sweepDemo.velX (y * (sweepDemo.W + 1) + 0) ∧
          peek vx (y * (sweepDemo.W + 1) + sweepDemo.W) =
            peek sweepDemo.velX (y * (sweepDemo.W + 1) + sweepDemo.W)) ∧
        (∀ x : Int, 0 ≤ x → x < sweepDemo.W →
          peek vy (0 * sweepDemo.W + x) = peek sweepDemo.velY (0 * sweepDemo.W + x) ∧
          peek vy (sweepDemo.H * sweepDemo.W + x) =
            peek sweepDemo.velY (sweepDemo.H * sweepDemo.W + x)) := by
  have hs : sweepDemo.Sized := ⟨by decide, by decide, rfl, rfl, rfl, rfl, rfl⟩
  have hc : sweepDemo.cellSize ≠ 0 := by norm_num [sweepDemo, restDemo]
  obtain ⟨vx, vy, h, hx, hy, -⟩ := C19_wall_faces sweepDemo hs hc
  exact ⟨hs, hc, vx, vy, h, hx, hy⟩

/-- C20 at a concrete state: the `3 × 3` swirl with the timestep set to zero. -/
theorem C20_zero_timestep_witness :
    ({ flowDemo with timestep := 0 } : Main).Sized ∧
      ({ flowDemo with timestep := 0 } : Main).timestep = 0 ∧
      advectVelocity { flowDemo with timestep := 0 } = some { flowDemo with timestep := 0 } ∧
      advectDensity { flowDemo with timestep := 0 } = some { flowDemo with timestep := 0 } :=
  have hs : ({ flowDemo with timestep := 0 } : Main).Sized :=
    ⟨by decide, by decide, rfl, rfl, rfl, rfl, rfl⟩
  ⟨hs, rfl, C20_zero_timestep _ hs rfl⟩

/-- C18 at a concrete state: the centre cell of `fixedDemo` has divergence `2` and pressure
`-1/2 = (0 + 0 + 0 + 0 - 2) / 4`; after `subtractGradient` its recomputed divergence is `0`. -/
theorem C18_exact_projection_witness :
    fixedDemo.Sized ∧ fixedDemo.cellSize = 1 ∧
      ∃ s1 s2 s3, computeDivergence fixedDemo = some s1 ∧ subtractGradient s1 = some s2 ∧
        computeDivergence s2 = some s3 ∧ peek s1.divergence 4 = 2 ∧
        peek s3.divergence 4 = 0 := by
  have hs : fixedDemo.Sized := ⟨by decide, by decide, rfl, rfl, rfl, rfl, rfl⟩
  obtain ⟨s1, s2, s3, h1, h2, h3, -, hv⟩ := C18_exact_projection fixedDemo hs rfl
  obtain ⟨d, hd, -, hdv⟩ := computeDivergence_spec fixedDemo hs
  have e1 : s1 = { fixedDemo with divergence := d } := Option.some.inj (h1.symm.trans hd)
  have hW : ((fixedDemo.W : Nat) : Int) = 3 := rfl
  have hdiv : peek s1.divergence 4 = 2 := by
    rw [e1]
    have := hdv 1 1 (by decide) (by decide) (by decide) (by decide)
    have a1 : peek fixedDemo.velX 6 = 5 := rfl
    have a2 : peek fixedDemo.velX 5 = 1 := rfl
    have a3 : peek fixedDemo.velY 7 = 0 := rfl
    have a4 : peek fixedDemo.velY 4 = 2 := rfl
    have a5 : fixedDemo.cellSize = 1 := rfl
    simp only [hW, divAt] at this
    norm_num at this
    rw [this, a1, a2, a3, a4, a5]
    norm_num
  refine ⟨hs, rfl, s1, s2, s3, h1, h2, h3, hdiv, ?_⟩
  have := (hv 1 1 (by decide) (by decide) (by decide) (by decide)).2
  simp only [hW] at this
  norm_num at this
  apply this
  have p1 : peek fixedDemo.pressure 4 = -1 / 2 := rfl
  have p2 : peek fixedDemo.pressure 3 = 0 := rfl
  have p3 : peek fixedDemo.pressure 5 = 0 := rfl
  have p4 : peek fixedDemo.pressure 1 = 0 := rfl
  have p5 : peek fixedDemo.pressure 7 = 0 := rfl
  rw [p1, p2, p3, p4, p5, hdiv]
  norm_num

/-! ## Image import: what the canvas and the loops give -/

theorem peek_range_map (N : Nat) (f : Nat → ℚ) (i : Int) (h0 : 0 ≤ i) (h1 : i < N) :
    peek ((List.range N).map f) i = f i.toNat := by
  obtain ⟨n, rfl⟩ : ∃ n : Nat, i = n := ⟨i.toNat, by omega⟩
  have hn : n < N := by omega
  rw [peek_eq_getElem _ n (by simpa using hn)]
  simp

theorem peek_blackCanvas (W H : Nat) (c k : Int) (hc0 : 0 ≤ c) (hc : c < (W : Int) * H)
    (hk0 : 0 ≤ k) (hk : k < 4) :
    peek (blackCanvas W H) (c * 4 + k) = if k = 3 then 255 else 0 := by
  rw [blackCanvas, peek_range_map _ _ _ (by omega) (by push_cast; omega)]
  have : (c * 4 + k).toNat % 4 = 3 ↔ k = 3 := by omega
  simp only [this]

theorem loadImageCell_upd (data : List ℚ) (W H : Nat) (y x : Int) (hy0 : 0 ≤ y) (hy : y < H)
    (hx0 : 0 ≤ x) (hx : x < W) (d : List ℚ) (hd : d.length = W * H * 4)
    (hdata : data.length = W * H * 4) :
    ∃ d', loadImageCell data W y x d = some d' ∧
      Upd d d' (fun j => ∃ k, 0 ≤ k ∧ k < 4 ∧ j = (y * W + x) * 4 + k)
        (fun j => peek data j / 255) := by
  have hb := idx_bound W H y x hy0 hy hx0 hx
  have hld : ((data.length : Nat) : Int) = W * H * 4 := by rw [hdata]; push_cast; ring
  have hln : ((d.length : Nat) : Int) = W * H * 4 := by rw [hd]; push_cast; ring
  obtain ⟨d1, e1, u1⟩ := wr_upd d ((y * W + x) * 4 + 0) (peek data ((y * W + x) * 4 + 0) / 255)
    (fun j => peek data j / 255) (by omega) (by omega) rfl
  obtain ⟨d2, e2, u2⟩ := wr_upd d1 ((y * W + x) * 4 + 1) (peek data ((y * W + x) * 4 + 1) / 255)
    (fun j => peek data j / 255) (by omega) (by rw [u1.1]; omega) rfl
  have u12 := u1.then_const u2
  obtain ⟨d3, e3, u3⟩ := wr_upd d2 ((y * W + x) * 4 + 2) (peek data ((y * W + x) * 4 + 2) / 255)
    (fun j => peek data j / 255) (by omega) (by rw [u12.1]; omega) rfl
  have u123 := u12.then_const u3
  obtain ⟨d4, e4, u4⟩ := wr_upd d3 ((y * W + x) * 4 + 3) (peek data ((y * W + x) * 4 + 3) / 255)
    (fun j => peek data j / 255) (by omega) (by rw [u123.1]; omega) rfl
  have u := u123.then_const u4
  refine ⟨d4, ?_, u.mono (fun j => ⟨?_, ?_⟩) (fun _ _ => rfl)⟩
  · simp only [loadImageCell, rd_eq_some data _ (show 0 ≤ (y * W + x) * 4 + 0 by omega)
      (by omega), rd_eq_some data _ (show 0 ≤ (y * W + x) * 4 + 1 by omega) (by omega),
      rd_eq_some data _ (show 0 ≤ (y * W + x) * 4 + 2 by omega) (by omega),
      rd_eq_some data _ (show 0 ≤ (y * W + x) * 4 + 3 by omega) (by omega),
      Option.bind_eq_bind, Option.some_bind, e1, e2, e3, e4]
  · rintro (((h | h) | h) | h)
    · exact ⟨0, by omega, by omega, h⟩
    · exact ⟨1, by omega, by omega, h⟩
    · exact ⟨2, by omega, by omega, h⟩
    · exact ⟨3, by omega, by omega, h⟩
  · rintro ⟨k, hk0, hk, rfl⟩
    have : k = 0 ∨ k = 1 ∨ k = 2 ∨ k = 3 := by omega
    rcases this with rfl | rfl | rfl | rfl <;> simp

/-- What the loop nest of `loadImageToGrid` does: with a canvas of the size of the grid it
returns, and every channel of every cell holds the byte of the canvas divided by 255. -/
theorem loadImage_fill (data : List ℚ) (s : Main) (hs : s.Sized)
    (hdata : data.length = s.W * s.H * 4) :
    ∃ d, forRange 0 (s.H : Int) (fun y d => forRange 0 (s.W : Int)
        (fun x d => loadImageCell data s.W y x d) d) s.density = some d ∧
      d.length = s.W * s.H * 4 ∧
      ∀ y x k : Int, 0 ≤ y → y < s.H → 0 ≤ x → x < s.W → 0 ≤ k → k < 4 →
        peek d ((y * s.W + x) * 4 + k) = peek data ((y * s.W + x) * 4 + k) / 255 := by
  obtain ⟨d, hd, hU⟩ := forRange_upd_list 0 s.H
    (fun y d => forRange 0 s.W (fun x d => loadImageCell data s.W y x d) d)
    (fun y j => ∃ x : Int, 0 ≤ x ∧ x < s.W ∧ ∃ k, 0 ≤ k ∧ k < 4 ∧ j = (y * s.W + x) * 4 + k)
    (fun j => peek data j / 255) s.density
    (by
      rintro y y' j - hlt - ⟨x, hx0, hx, k, hk0, hk, rfl⟩ ⟨x', hx0', hx', k', hk0', hk', h⟩
      have := idx_inj s.W y x y' x' hx0 hx hx0' hx' (by omega)
      omega)
    (by
      intro y a hy0 hy ha _
      beta_reduce
      apply forRange_upd_list
      · rintro x x' j - hlt - ⟨k, hk0, hk, rfl⟩ ⟨k', hk0', hk', h⟩
        omega
      · intro x b hx0 hx hb _
        exact loadImageCell_upd data s.W s.H y x hy0 hy hx0 hx b (by rw [hb, ha, hs.density])
          hdata)
  refine ⟨d, hd, by rw [hU.1, hs.density], ?_⟩
  intro y x k hy0 hy hx0 hx hk0 hk
  exact (hU.2 _).1 ⟨y, hy0, hy, x, hx0, hx, k, hk0, hk, rfl⟩

theorem paintNearest_laws : CanvasLaws paintNearest := by
  refine ⟨?_, ?_, ?_⟩
  · intro W H img sx sy sw sh dx dy dw dh r hr
    unfold paintNearest
    split_ifs
    · exact hr
    · simp
  · intro W H img sx sy sw sh dx dy dw dh r h
    simp only [paintNearest, if_pos h]
  · intro W H img sx sy sw sh dx dy dw dh r y x k _ _ hy0 hy hx0 hx hk0 hk hout
    unfold paintNearest
    split_ifs with h0
    · rfl
    · have hb := idx_bound W H y x hy0 hy hx0 hx
      rw [peek_range_map _ _ _ (by omega) (by push_cast; omega)]
      have hn : (((y * W + x) * 4 + k).toNat : Int) = (y * W + x) * 4 + k :=
        Int.toNat_of_nonneg (by omega)
      have hd := decode_chan (y * W + x) k hk0 hk
      have hc := decode_cell W y x hx0 hx
      simp only [hn, hd.1, hc.1, hc.2]
      rw [if_neg]
      rintro ⟨h1, h2, h3, h4⟩
      rcases hout with h | h | h | h <;> linarith

/-! ## Double rounding -/

theorem roundHalfEven_nonneg (x : ℚ) (hx : 0 ≤ x) : 0 ≤ roundHalfEven x := by
  have h := Int.floor_nonneg.mpr hx
  unfold roundHalfEven
  split_ifs <;> omega

theorem roundHalfEven_near (x : ℚ) (m : Int) (h1 : (m : ℚ) - 1 / 2 < x) (h2 : x < m + 1 / 2) :
    roundHalfEven x = m := by
  have hf : Int.floor x = m ∨ Int.floor x = m - 1 := by
    have a : m - 1 ≤ Int.floor x := Int.le_floor.mpr (by push_cast; linarith)
    have b : Int.floor x < m + 1 := Int.floor_lt.mpr (by push_cast; linarith)
    omega
  have hfl := Int.floor_le x
  have hlt := Int.lt_floor_add_one x
  unfold roundHalfEven
  rcases hf with hf | hf
  · rw [hf] at hfl ⊢
    rw [if_pos (by linarith)]
  · rw [hf] at hlt ⊢
    push_cast at hlt ⊢
    rw [if_neg (by linarith), if_pos (by linarith)]
    ring

theorem roundHalfEven_intCast (m : Int) : roundHalfEven (m : ℚ) = m :=
  roundHalfEven_near _ m (by linarith) (by linarith)

theorem roundDouble_nonneg (q : ℚ) (hq : 0 ≤ q) : 0 ≤ roundDouble q := by
  unfold roundDouble
  split_ifs
  · exact le_rfl
  · have hu : (0 : ℚ) < 2 ^ (Int.log 2 |q| - 52) := zpow_pos (by norm_num) _
    exact mul_nonneg (by exact_mod_cast roundHalfEven_nonneg _ (div_nonneg hq hu.le)) hu.le

theorem log_two_eq (q : ℚ) (e : Int) (hlo : 2 ^ e ≤ |q|) (hhi : |q| < 2 ^ (e + 1)) :
    Int.log 2 |q| = e := by
  have hpos : 0 < |q| := lt_of_lt_of_le (zpow_pos (by norm_num) _) hlo
  have h1 : e ≤ Int.log 2 |q| :=
    (Int.zpow_le_iff_le_log (by norm_num) hpos).mp (by simpa using hlo)
  have h2 : Int.log 2 |q| < e + 1 :=
    (Int.lt_zpow_iff_log_lt (by norm_num) hpos).mp (by simpa using hhi)
  omega

/-- How a rounding is evaluated: for `2 ^ e ≤ |q| < 2 ^ (e + 1)`, `q` rounds to the multiple
`m * 2 ^ (e - 52)` that is less than half a unit `2 ^ (e - 52)` away. -/
theorem roundDouble_eval (q : ℚ) (e m : Int) (hlo : 2 ^ e ≤ |q|) (hhi : |q| < 2 ^ (e + 1))
    (h1 : ((m : ℚ) - 1 / 2) * 2 ^ (e - 52) < q) (h2 : q < ((m : ℚ) + 1 / 2) * 2 ^ (e - 52)) :
    roundDouble q = m * 2 ^ (e - 52) := by
  have hq : q ≠ 0 := by
    intro h
    rw [h, abs_zero] at hlo
    exact absurd hlo (not_le.mpr (zpow_pos (by norm_num) _))
  have hu : (0 : ℚ) < 2 ^ (e - 52) := zpow_pos (by norm_num) _
  rw [roundDouble, if_neg hq, log_two_eq q e hlo hhi,
    roundHalfEven_near _ m ((lt_div_iff₀ hu).mpr h1) ((div_lt_iff₀ hu).mpr h2)]

/-- A number that is a multiple of the unit of its binade is a double: it rounds to itself. -/
theorem roundDouble_exact (q : ℚ) (e m : Int) (hlo : 2 ^ e ≤ |q|) (hhi : |q| < 2 ^ (e + 1))
    (h : q = m * 2 ^ (e - 52)) : roundDouble q = q := by
  have hu : (0 : ℚ) < 2 ^ (e - 52) := zpow_pos (by norm_num) _
  rw [roundDouble_eval q e m hlo hhi (by rw [h]; nlinarith) (by rw [h]; nlinarith), h]

/-- Halving is exact: the half of a double is a double. -/
theorem roundDouble_half (q : ℚ) : roundDouble (q / 2) = roundDouble q / 2 := by
  by_cases hq : q = 0
  · simp [hq, roundDouble]
  · have hq2 : q / 2 ≠ 0 := by simpa using hq
    have hpos : 0 < |q| := abs_pos.mpr hq
    have hlog : Int.log 2 |q / 2| = Int.log 2 |q| - 1 := by
      apply log_two_eq (q / 2)
      · have := Int.zpow_log_le_self (b := 2) (r := |q|) (by norm_num) hpos
        rw [abs_div, zpow_sub_one₀ (by norm_num : (2 : ℚ) ≠ 0)]
        simp only [Nat.cast_ofNat] at this
        rw [abs_of_pos (by norm_num : (0 : ℚ) < 2)]
        rw [div_eq_mul_inv]
        exact mul_le_mul_of_nonneg_right this (by norm_num)
      · have := Int.lt_zpow_succ_log_self (b := 2) (by norm_num) |q|
        simp only [Nat.cast_ofNat] at this
        rw [abs_div, abs_of_pos (by norm_num : (0 : ℚ) < 2), sub_add_cancel]
        rw [zpow_add_one₀ (by norm_num : (2 : ℚ) ≠ 0)] at this
        linarith
    rw [roundDouble, if_neg hq2, roundDouble, if_neg hq, hlog]
    have e1 : (2 : ℚ) ^ (Int.log 2 |q| - 1 - 52) = 2 ^ (Int.log 2 |q| - 52) / 2 := by
      rw [show Int.log 2 |q| - 1 - 52 = Int.log 2 |q| - 52 - 1 by ring,
        zpow_sub_one₀ (by norm_num : (2 : ℚ) ≠ 0), div_eq_mul_inv]
    have hu : (2 : ℚ) ^ (Int.log 2 |q| - 52) ≠ 0 := (zpow_pos (by norm_num) _).ne'
    rw [e1, show q / 2 / (2 ^ (Int.log 2 |q| - 52) / 2) = q / 2 ^ (Int.log 2 |q| - 52) by
      field_simp]
    ring

theorem roundDouble_zero : roundDouble 0 = 0 := by
  simp [roundDouble]

theorem roundDouble_one : roundDouble 1 = 1 :=
  roundDouble_exact 1 0 (2 ^ 52) (by norm_num) (by norm_num) (by norm_num)

theorem roundDouble_two : roundDouble 2 = 2 :=
  roundDouble_exact 2 1 (2 ^ 52) (by norm_num) (by norm_num) (by norm_num)

theorem roundDouble_three : roundDouble 3 = 3 :=
  roundDouble_exact 3 1 (3 * 2 ^ 51) (by norm_num) (by norm_num) (by norm_num)

theorem roundDouble_four : roundDouble 4 = 4 :=
  roundDouble_exact 4 2 (2 ^ 52) (by norm_num) (by norm_num) (by norm_num)

theorem roundDouble_five : roundDouble 5 = 5 :=
  roundDouble_exact 5 2 (5 * 2 ^ 50) (by norm_num) (by norm_num) (by norm_num)

theorem roundDouble_eight : roundDouble 8 = 8 :=
  roundDouble_exact 8 3 (2 ^ 52) (by norm_num) (by norm_num) (by norm_num)

/-! ## Image import: the scale and the destination rectangle -/

theorem imageScale_nonneg (W H : Nat) (img : Image) : 0 ≤ imageScale W H img := by
  unfold imageScale
  split_ifs
  · exact roundDouble_nonneg _ (by positivity)
  · exact roundDouble_nonneg _ (by positivity)
  · exact le_min (roundDouble_nonneg _ (by positivity)) (roundDouble_nonneg _ (by positivity))

theorem imageDrawW_nonneg (W H : Nat) (img : Image) : 0 ≤ imageDrawW W H img :=
  roundDouble_nonneg _ (mul_nonneg (by positivity) (imageScale_nonneg W H img))

theorem imageDrawH_nonneg (W H : Nat) (img : Image) : 0 ≤ imageDrawH W H img :=
  roundDouble_nonneg _ (mul_nonneg (by positivity) (imageScale_nonneg W H img))

/-- What `loadImageToGrid` does on a canvas that obeys `CanvasLaws`: it returns, only the
density changes, and every channel of every cell holds the byte of the drawn canvas divided
by 255. -/
theorem loadImageToGrid_spec (drawImage : DrawImage) (hd : CanvasLaws drawImage) (s : Main)
    (hs : s.Sized) (img : Image) :
    ∃ d, loadImageToGrid drawImage s img = some { s with density := d } ∧
      d.length = s.W * s.H * 4 ∧
      ∀ y x k : Int, 0 ≤ y → y < s.H → 0 ≤ x → x < s.W → 0 ≤ k → k < 4 →
        peek d ((y * s.W + x) * 4 + k)
          = peek (drawImage s.W s.H img 0 0 img.width img.height (imageOffX s.W s.H img)
              (imageOffY s.W s.H img) (imageDrawW s.W s.H img)
              (imageDrawH s.W s.H img) (blackCanvas s.W s.H))
              ((y * s.W + x) * 4 + k) / 255 := by
  obtain ⟨d, h1, h2, h3⟩ := loadImage_fill
    (drawImage s.W s.H img 0 0 img.width img.height (imageOffX s.W s.H img)
      (imageOffY s.W s.H img) (imageDrawW s.W s.H img)
      (imageDrawH s.W s.H img) (blackCanvas s.W s.H)) s hs
    (hd.length _ _ _ _ _ _ _ _ _ _ _ _ (by simp [blackCanvas]))
  refine ⟨d, ?_, h2, h3⟩
  simp only [loadImageToGrid, h1, Option.bind_eq_bind, Option.some_bind]
  rfl

/-- The density that an untouched black canvas gives: `0, 0, 0, 1` in every cell. -/
theorem black_over_255 (W H : Nat) (y x k : Int) (hy0 : 0 ≤ y) (hy : y < H) (hx0 : 0 ≤ x)
    (hx : x < W) (hk0 : 0 ≤ k) (hk : k < 4) :
    peek (blackCanvas W H) ((y * W + x) * 4 + k) / 255 = if k = 3 then 1 else 0 := by
  have hb := idx_bound W H y x hy0 hy hx0 hx
  rw [peek_blackCanvas W H _ k hb.1 (by linarith [hb.2, mul_comm (W : Int) H]) hk0 hk]
  split_ifs <;> norm_num

/-- Cells outside the destination rectangle come out as the black background. -/
theorem loadImageToGrid_outside (drawImage : DrawImage) (hd : CanvasLaws drawImage) (s : Main)
    (hs : s.Sized) (img : Image) :
    ∃ d, loadImageToGrid drawImage s img = some { s with density := d } ∧
      d.length = s.W * s.H * 4 ∧
      ∀ y x k : Int, 0 ≤ y → y < s.H → 0 ≤ x → x < s.W → 0 ≤ k → k < 4 →
        (x < imageOffX s.W s.H img
          ∨ (imageOffX s.W s.H img : ℚ) + imageDrawW s.W s.H img ≤ x
          ∨ y < imageOffY s.W s.H img
          ∨ (imageOffY s.W s.H img : ℚ) + imageDrawH s.W s.H img ≤ y) →
        peek d ((y * s.W + x) * 4 + k) = if k = 3 then 1 else 0 := by
  obtain ⟨d, h1, h2, h3⟩ := loadImageToGrid_spec drawImage hd s hs img
  refine ⟨d, h1, h2, ?_⟩
  intro y x k hy0 hy hx0 hx hk0 hk hout
  rw [h3 y x k hy0 hy hx0 hx hk0 hk, hd.outside _ _ _ _ _ _ _ _ _ _ _ _ y x k
    (imageDrawW_nonneg s.W s.H img) (imageDrawH_nonneg s.W s.H img) hy0 hy hx0 hx hk0 hk ?_]
  · exact black_over_255 s.W s.H y x k hy0 hy hx0 hx hk0 hk
  · rcases hout with h | h | h | h
    · left; exact_mod_cast (show x + 1 ≤ imageOffX s.W s.H img by omega)
    · right; left; exact h
    · right; right; left; exact_mod_cast (show y + 1 ≤ imageOffY s.W s.H img by omega)
    · right; right; right; exact h

/-- An image with an empty side is not painted: the whole density comes out as the black
background. -/
theorem loadImageToGrid_empty (drawImage : DrawImage) (hd : CanvasLaws drawImage) (s : Main)
    (hs : s.Sized) (img : Image) (h0 : img.width = 0 ∨ img.height = 0) :
    ∃ d, loadImageToGrid drawImage s img = some { s with density := d } ∧
      d.length = s.W * s.H * 4 ∧
      ∀ y x k : Int, 0 ≤ y → y < s.H → 0 ≤ x → x < s.W → 0 ≤ k → k < 4 →
        peek d ((y * s.W + x) * 4 + k) = if k = 3 then 1 else 0 := by
  obtain ⟨d, h1, h2, h3⟩ := loadImageToGrid_spec drawImage hd s hs img
  refine ⟨d, h1, h2, ?_⟩
  intro y x k hy0 hy hx0 hx hk0 hk
  rw [h3 y x k hy0 hy hx0 hx hk0 hk, hd.empty _ _ _ _ _ _ _ _ _ _ _ _
    (by rcases h0 with h | h <;> simp [h])]
  exact black_over_255 s.W s.H y x k hy0 hy hx0 hx hk0 hk

/-! ## Letterbox geometry -/

/-- The exact minimum of the two quotients fits both sides and fills one. -/
theorem fit_exact (W H w h : ℚ) (hw : 0 < w) (hh : 0 < h) :
    w * min (W / w) (H / h) ≤ W ∧ h * min (W / w) (H / h) ≤ H ∧
    (w * min (W / w) (H / h) = W ∨ h * min (W / w) (H / h) = H) := by
  have e1 : w * (W / w) = W := by field_simp
  have e2 : h * (H / h) = H := by field_simp
  refine ⟨?_, ?_, ?_⟩
  · calc w * min (W / w) (H / h) ≤ w * (W / w) :=
        mul_le_mul_of_nonneg_left (min_le_left _ _) hw.le
      _ = W := e1
  · calc h * min (W / w) (H / h) ≤ h * (H / h) :=
        mul_le_mul_of_nonneg_left (min_le_right _ _) hh.le
      _ = H := e2
  · rcases min_choice (W / w) (H / h) with h' | h'
    · left; rw [h', e1]
    · right; rw [h', e2]

/-- A floor of half a non-negative gap: the offset is non-negative, offset plus extent stays
within the length, and the far margin exceeds the near one by less than two. -/
theorem half_gap (L e : ℚ) (he : e ≤ L) :
    0 ≤ Int.floor ((L - e) / 2) ∧ (Int.floor ((L - e) / 2) : ℚ) + e ≤ L ∧
    0 ≤ L - ((Int.floor ((L - e) / 2) : ℚ) + e) - Int.floor ((L - e) / 2) ∧
    L - ((Int.floor ((L - e) / 2) : ℚ) + e) - Int.floor ((L - e) / 2) < 2 := by
  have h1 := Int.floor_le ((L - e) / 2)
  have h2 := Int.lt_floor_add_one ((L - e) / 2)
  refine ⟨Int.floor_nonneg.mpr (by linarith), by linarith, by linarith, by linarith⟩

theorem loadDemo_sized : loadDemo.Sized := by
  constructor <;> simp [loadDemo, restDemo]

/-- C17 (amended). Letterbox geometry: for an image of size `w, h ≥ 1` and a grid `W, H ≥ 1` on
which the double arithmetic of the scale, products and differences incurs no rounding
(`ExactFit`), with the scale, products and offsets that `loadImageToGrid` computes, the scale
is positive and common to both sides (so the destination rectangle has the aspect ratio of
the image), the rectangle lies inside the grid, it spans the grid in at least one dimension,
and the far margin minus the near margin lies in `[0, 2)`, horizontally and vertically. -/
theorem C17_letterbox_geometry (W H : Nat) (img : Image) (hW : 1 ≤ W) (hH : 1 ≤ H)
    (hw : 1 ≤ img.width) (hh : 1 ≤ img.height) (hex : ExactFit W H img) :
    0 < imageScale W H img ∧
    imageDrawW W H img * img.height = imageDrawH W H img * img.width ∧
    0 ≤ imageOffX W H img ∧
    (imageOffX W H img : ℚ) + imageDrawW W H img ≤ W ∧
    0 ≤ imageOffY W H img ∧
    (imageOffY W H img : ℚ) + imageDrawH W H img ≤ H ∧
    (imageDrawW W H img = W ∨ imageDrawH W H img = H) ∧
    0 ≤ (W : ℚ) - ((imageOffX W H img : ℚ) + imageDrawW W H img) - imageOffX W H img ∧
    (W : ℚ) - ((imageOffX W H img : ℚ) + imageDrawW W H img) - imageOffX W H img < 2 ∧
    0 ≤ (H : ℚ) - ((imageOffY W H img : ℚ) + imageDrawH W H img) - imageOffY W H img ∧
    (H : ℚ) - ((imageOffY W H img : ℚ) + imageDrawH W H img) - imageOffY W H img < 2 := by
  obtain ⟨e1, e2, e3, e4, e5⟩ := hex
  have hW' : (0 : ℚ) < W := by exact_mod_cast hW
  have hH' : (0 : ℚ) < H := by exact_mod_cast hH
  have hw' : (0 : ℚ) < img.width := by exact_mod_cast hw
  have hh' : (0 : ℚ) < img.height := by exact_mod_cast hh
  obtain ⟨f1, f2, f3⟩ := fit_exact W H img.width img.height hw' hh'
  rw [← e1, ← e2] at f1
  rw [← e1, ← e3] at f2
  rw [← e1, ← e2, ← e3] at f3
  have oX : imageOffX W H img = Int.floor (((W : ℚ) - imageDrawW W H img) / 2) := by
    rw [imageOffX, roundDouble_half, e4, e4]
  have oY : imageOffY W H img = Int.floor (((H : ℚ) - imageDrawH W H img) / 2) := by
    rw [imageOffY, roundDouble_half, e5, e5]
  obtain ⟨a1, a2, a3, a4⟩ := half_gap W (imageDrawW W H img) f1
  obtain ⟨b1, b2, b3, b4⟩ := half_gap H (imageDrawH W H img) f2
  rw [← oX] at a1 a2 a3 a4
  rw [← oY] at b1 b2 b3 b4
  refine ⟨?_, ?_, a1, a2, b1, b2, f3, a3, a4, b3, b4⟩
  · rw [e1]
    exact lt_min (div_pos hW' hw') (div_pos hH' hh')
  · rw [e2, e3]
    ring

/-! ### The geometry at concrete images -/

theorem tallImage_scale : imageScale 8 8 tallImage = 1 := by
  have h1 : roundDouble (8 / 5) = 3602879701896397 / 2251799813685248 := by
    rw [roundDouble_eval (8 / 5) 0 7205759403792794 (by norm_num [abs_of_pos])
      (by norm_num [abs_of_pos]) (by norm_num) (by norm_num)]
    norm_num
  norm_num [imageScale, tallImage, h1, roundDouble_one]

theorem tallImage_drawW : imageDrawW 8 8 tallImage = 5 := by
  rw [imageDrawW, tallImage_scale]
  norm_num [tallImage, roundDouble_five]

theorem tallImage_drawH : imageDrawH 8 8 tallImage = 8 := by
  rw [imageDrawH, tallImage_scale]
  norm_num [tallImage, roundDouble_eight]

theorem tallImage_offX : imageOffX 8 8 tallImage = 1 := by
  rw [imageOffX, tallImage_drawW, roundDouble_half]
  norm_num [roundDouble_three]

theorem tallImage_offY : imageOffY 8 8 tallImage = 0 := by
  rw [imageOffY, tallImage_drawH, roundDouble_half]
  norm_num [roundDouble_zero]

theorem tallImage_exact : ExactFit 8 8 tallImage := by
  refine ⟨?_, ?_, ?_, ?_, ?_⟩
  · rw [tallImage_scale]
    norm_num [tallImage]
  · rw [tallImage_drawW, tallImage_scale]
    norm_num [tallImage]
  · rw [tallImage_drawH, tallImage_scale]
    norm_num [tallImage]
  · rw [tallImage_drawW]
    norm_num [roundDouble_three]
  · rw [tallImage_drawH]
    norm_num [roundDouble_zero]

theorem ribbonImage_drawH :
    imageDrawH 3 3 ribbonImage = 6755399441055745 / 2251799813685248 := by
  have h1 : roundDouble (3 / 187) = 2312008364853303 / 144115188075855872 := by
    rw [roundDouble_eval (3 / 187) (-6) 4624016729706606 (by norm_num [abs_of_pos])
      (by norm_num [abs_of_pos]) (by norm_num) (by norm_num)]
    norm_num
  have h2 : imageScale 3 3 ribbonImage = 2312008364853303 / 144115188075855872 := by
    norm_num [imageScale, ribbonImage, h1, roundDouble_three]
  rw [imageDrawH, h2]
  have h3 : ((ribbonImage.height : Nat) : ℚ) * (2312008364853303 / 144115188075855872)
      = 432345564227567661 / 144115188075855872 := by
    norm_num [ribbonImage]
  rw [h3, roundDouble_eval (432345564227567661 / 144115188075855872) 1 6755399441055745
    (by norm_num [abs_of_pos]) (by norm_num [abs_of_pos]) (by norm_num) (by norm_num)]
  norm_num

theorem ribbonImage_offY : imageOffY 3 3 ribbonImage = -1 := by
  rw [imageOffY, ribbonImage_drawH, roundDouble_half]
  have h : ((3 : Nat) : ℚ) - 6755399441055745 / 2251799813685248
      = -(1 / 2251799813685248) := by norm_num
  have hx := roundDouble_exact (-(1 / 2251799813685248)) (-51) (-(2 ^ 52))
    (by norm_num [abs_of_pos]) (by norm_num [abs_of_pos]) (by norm_num)
  rw [h, hx, hx, Int.floor_eq_iff]
  norm_num

/-- C17, as stated, fails twice.  A `5 × 8` image on an `8 × 8` grid gets scale 1 and
`offX = 1`, so the left margin is 1 and the right margin `8 - (1 + 5) = 2`; they differ by 1,
which is not in `[0, 1)`.  And a `1 × 187` image on a `3 × 3` grid gets the scale `3 / 187`
rounded to a double, whose product with 187 rounds to `3 + 2 ^ (-51)`, more than the height
of the grid: `offY = -1`, and the destination rectangle does not lie inside the grid. -/
theorem C17_letterbox_geometry_counterexample :
    (imageScale 8 8 tallImage = 1 ∧ imageOffX 8 8 tallImage = 1 ∧
      (8 : ℚ) - ((imageOffX 8 8 tallImage : ℚ) + imageDrawW 8 8 tallImage)
        - imageOffX 8 8 tallImage = 1 ∧
      ¬ ((8 : ℚ) - ((imageOffX 8 8 tallImage : ℚ) + imageDrawW 8 8 tallImage)
        - imageOffX 8 8 tallImage < 1)) ∧
    ((3 : ℚ) < imageDrawH 3 3 ribbonImage ∧ imageOffY 3 3 ribbonImage = -1 ∧
      ¬ (0 ≤ imageOffY 3 3 ribbonImage)) := by
  refine ⟨?_, ?_⟩
  · rw [tallImage_offX, tallImage_scale, tallImage_drawW]
    norm_num
  · rw [ribbonImage_offY, ribbonImage_drawH]
    norm_num

theorem redImage_scale : imageScale 8 8 redImage = 4 := by
  norm_num [imageScale, redImage, roundDouble_four]

theorem redImage_drawW : imageDrawW 8 8 redImage = 8 := by
  rw [imageDrawW, redImage_scale]
  norm_num [redImage, roundDouble_eight]

theorem redImage_drawH : imageDrawH 8 8 redImage = 8 := by
  rw [imageDrawH, redImage_scale]
  norm_num [redImage, roundDouble_eight]

theorem redImage_exact : ExactFit 8 8 redImage := by
  refine ⟨?_, ?_, ?_, ?_, ?_⟩
  · rw [redImage_scale]
    norm_num [redImage]
  · rw [redImage_drawW, redImage_scale]
    norm_num [redImage]
  · rw [redImage_drawH, redImage_scale]
    norm_num [redImage]
  · rw [redImage_drawW]
    norm_num [roundDouble_zero]
  · rw [redImage_drawH]
    norm_num [roundDouble_zero]

/-- The scenario of C17: a `2 × 2` image on an `8 × 8` grid gets scale 4 and offsets
`(0, 0)`, and the geometry of C17 holds of it: the rectangle spans the grid.  The geometry
also holds of the `5 × 8` image on the `8 × 8` grid, where the margins 1 and 2 differ by
less than two. -/
theorem C17_letterbox_geometry_witness :
    (ExactFit 8 8 redImage ∧
      imageScale 8 8 redImage = 4 ∧ imageOffX 8 8 redImage = 0 ∧ imageOffY 8 8 redImage = 0 ∧
      (imageDrawW 8 8 redImage = 8 ∨ imageDrawH 8 8 redImage = 8)) ∧
    (ExactFit 8 8 tallImage ∧ imageOffX 8 8 tallImage = 1 ∧
      (8 : ℚ) - ((imageOffX 8 8 tallImage : ℚ) + imageDrawW 8 8 tallImage)
        - imageOffX 8 8 tallImage < 2) := by
  have h := C17_letterbox_geometry 8 8 redImage (by decide) (by decide) (by decide) (by decide)
    redImage_exact
  have h' := C17_letterbox_geometry 8 8 tallImage (by decide) (by decide) (by decide)
    (by decide) tallImage_exact
  refine ⟨⟨redImage_exact, redImage_scale, ?_, ?_, by exact_mod_cast h.2.2.2.2.2.2.1⟩,
    tallImage_exact, tallImage_offX, by exact_mod_cast h'.2.2.2.2.2.2.2.2.1⟩
  · rw [imageOffX, redImage_drawW, roundDouble_half]
    norm_num [roundDouble_zero]
  · rw [imageOffY, redImage_drawH, roundDouble_half]
    norm_num [roundDouble_zero]

/-- C16 (amended). Image import fills the outside of the image with opaque black: for every
image of size `w, h ≥ 1` and every grid, on a canvas that obeys `CanvasLaws`,
`loadImageToGrid` returns, and every grid cell outside the destination rectangle
`[offX, offX + w * scale) × [offY, offY + h * scale)` (scale, products and offsets as the
code computes them) has the channels R, G, B equal to zero
and the channel A equal to one, whatever the density held before. -/
theorem C16_outside_opaque_black (drawImage : DrawImage) (hd : CanvasLaws drawImage)
    (s : Main) (hs : s.Sized) (img : Image) (_hw : 1 ≤ img.width) (_hh : 1 ≤ img.height) :
    ∃ s', loadImageToGrid drawImage s img = some s' ∧
      ∀ y x : Int, 0 ≤ y → y < s.H → 0 ≤ x → x < s.W →
        (x < imageOffX s.W s.H img
          ∨ (imageOffX s.W s.H img : ℚ) + imageDrawW s.W s.H img ≤ x
          ∨ y < imageOffY s.W s.H img
          ∨ (imageOffY s.W s.H img : ℚ) + imageDrawH s.W s.H img ≤ y) →
        peek s'.density ((y * s.W + x) * 4 + 0) = 0 ∧
        peek s'.density ((y * s.W + x) * 4 + 1) = 0 ∧
        peek s'.density ((y * s.W + x) * 4 + 2) = 0 ∧
        peek s'.density ((y * s.W + x) * 4 + 3) = 1 := by
  obtain ⟨d, h1, -, h3⟩ := loadImageToGrid_outside drawImage hd s hs img
  refine ⟨_, h1, ?_⟩
  intro y x hy0 hy hx0 hx hout
  have e0 := h3 y x 0 hy0 hy hx0 hx (by omega) (by omega) hout
  have e1 := h3 y x 1 hy0 hy hx0 hx (by omega) (by omega) hout
  have e2 := h3 y x 2 hy0 hy hx0 hx (by omega) (by omega) hout
  have e3 := h3 y x 3 hy0 hy hx0 hx (by omega) (by omega) hout
  exact ⟨by simpa using e0, by simpa using e1, by simpa using e2, by simpa using e3⟩

theorem stripImage_scale : imageScale 2 2 stripImage = 1 := by
  norm_num [imageScale, stripImage, roundDouble_two, roundDouble_one]

theorem stripImage_drawW : imageDrawW 2 2 stripImage = 1 := by
  rw [imageDrawW, stripImage_scale]
  norm_num [stripImage, roundDouble_one]

theorem stripImage_offX : imageOffX 2 2 stripImage = 0 := by
  rw [imageOffX, stripImage_drawW, roundDouble_half]
  norm_num [roundDouble_one]

/-- C16, as stated, fails: a `1 × 2` image on a `2 × 2` grid is drawn into the rectangle
`[0, 1) × [0, 2)`; the cell `(1, 0)` lies outside it, and its alpha comes out as 1, the
alpha of the black background, not as 0. -/
theorem C16_outside_opaque_black_counterexample :
    ∃ s', loadImageToGrid paintNearest loadDemo stripImage = some s' ∧
      (imageOffX 2 2 stripImage : ℚ) + imageDrawW 2 2 stripImage ≤ 1 ∧
      peek s'.density ((0 * 2 + 1) * 4 + 3) = 1 ∧
      peek s'.density ((0 * 2 + 1) * 4 + 3) ≠ 0 := by
  obtain ⟨d, h1, -, h3⟩ := loadImageToGrid_outside paintNearest paintNearest_laws loadDemo
    loadDemo_sized stripImage
  have hout : (imageOffX 2 2 stripImage : ℚ) + imageDrawW 2 2 stripImage
      ≤ 1 := by
    rw [stripImage_offX, stripImage_drawW]
    norm_num
  have e := h3 0 1 3 (by decide) (by decide) (by decide) (by decide) (by decide) (by decide)
    (Or.inr (Or.inl (by simpa using hout)))
  have e' : peek d ((0 * 2 + 1) * 4 + 3) = 1 := by simpa using e
  exact ⟨_, h1, hout, e', by rw [e']; norm_num⟩

/-- The amended C16 at the `1 × 2` image on the `2 × 2` grid. -/
theorem C16_outside_opaque_black_witness :
    ∃ s', loadImageToGrid paintNearest loadDemo stripImage = some s' ∧
      peek s'.density ((0 * 2 + 1) * 4 + 0) = 0 ∧
      peek s'.density ((1 * 2 + 1) * 4 + 3) = 1 := by
  obtain ⟨s', h1, h2⟩ := C16_outside_opaque_black paintNearest paintNearest_laws loadDemo
    loadDemo_sized stripImage (by decide) (by decide)
  have hout : (imageOffX 2 2 stripImage : ℚ) + imageDrawW 2 2 stripImage
      ≤ 1 := by
    rw [stripImage_offX, stripImage_drawW]
    norm_num
  have a := h2 0 1 (by decide) (by decide) (by decide) (by decide)
    (Or.inr (Or.inl (by simpa using hout)))
  have b := h2 1 1 (by decide) (by decide) (by decide) (by decide)
    (Or.inr (Or.inl (by simpa using hout)))
  exact ⟨s', h1, by simpa using a.1, by simpa using b.2.2.2⟩

/-- C15 (amended). Image import performs no validation: handed an image with zero width or
zero height, on a canvas that obeys `CanvasLaws`, `loadImageToGrid` returns normally,
changes nothing but the density, and overwrites every cell of the density with the black
background `0, 0, 0, 1`. -/
theorem C15_empty_image_overwrites (drawImage : DrawImage) (hd : CanvasLaws drawImage)
    (s : Main) (hs : s.Sized) (img : Image) (h0 : img.width = 0 ∨ img.height = 0) :
    ∃ d, loadImageToGrid drawImage s img = some { s with density := d } ∧
      d.length = s.W * s.H * 4 ∧
      ∀ y x : Int, 0 ≤ y → y < s.H → 0 ≤ x → x < s.W →
        peek d ((y * s.W + x) * 4 + 0) = 0 ∧
        peek d ((y * s.W + x) * 4 + 1) = 0 ∧
        peek d ((y * s.W + x) * 4 + 2) = 0 ∧
        peek d ((y * s.W + x) * 4 + 3) = 1 := by
  obtain ⟨d, h1, h2, h3⟩ := loadImageToGrid_empty drawImage hd s hs img h0
  refine ⟨d, h1, h2, ?_⟩
  intro y x hy0 hy hx0 hx
  have e0 := h3 y x 0 hy0 hy hx0 hx (by omega) (by omega)
  have e1 := h3 y x 1 hy0 hy hx0 hx (by omega) (by omega)
  have e2 := h3 y x 2 hy0 hy hx0 hx (by omega) (by omega)
  have e3 := h3 y x 3 hy0 hy hx0 hx (by omega) (by omega)
  exact ⟨by simpa using e0, by simpa using e1, by simpa using e2, by simpa using e3⟩

/-- C15, as stated, fails: handed an image of width zero, `loadImageToGrid` returns
normally on the `2 × 2` grid whose density is `1/2` throughout, and the first entry of the
density has changed from `1/2` to `0`. -/
theorem C15_empty_image_overwrites_counterexample :
    emptyImage.width = 0 ∧
    ∃ s', loadImageToGrid paintNearest loadDemo emptyImage = some s' ∧
      peek loadDemo.density 0 = 1 / 2 ∧ peek s'.density 0 = 0 ∧
      s'.density ≠ loadDemo.density := by
  obtain ⟨d, h1, -, h3⟩ := loadImageToGrid_empty paintNearest paintNearest_laws loadDemo
    loadDemo_sized emptyImage (Or.inl rfl)
  have e := h3 0 0 0 (by decide) (by decide) (by decide) (by decide) (by decide) (by decide)
  have e' : peek d 0 = 0 := by simpa using e
  have e0 : peek loadDemo.density 0 = 1 / 2 := rfl
  refine ⟨rfl, _, h1, e0, e', ?_⟩
  intro h
  have h' : d = loadDemo.density := h
  rw [h', e0] at e'
  norm_num at e'

/-- The amended C15 at the image of width zero on the `2 × 2` grid. -/
theorem C15_empty_image_overwrites_witness :
    ∃ d, loadImageToGrid paintNearest loadDemo emptyImage
        = some { loadDemo with density := d } ∧
      peek d 0 = 0 ∧ peek d 15 = 1 := by
  obtain ⟨d, h1, -, h3⟩ := C15_empty_image_overwrites paintNearest paintNearest_laws loadDemo
    loadDemo_sized emptyImage (Or.inl rfl)
  have a := h3 0 0 (by decide) (by decide) (by decide) (by decide)
  have b := h3 1 1 (by decide) (by decide) (by decide) (by decide)
  exact ⟨d, h1, by simpa using a.1, by simpa [loadDemo] using b.2.2.2⟩

/-! ## Shader include expansion -/

/-- With included files longer than their directives the search resumes inside the text just
inserted, and both directives are expanded. -/
theorem include_long_contents (n : Nat) :
    ShaderUtils.include shaderFilesLong (n + 3) "shaders/main.wgsl".toList
      = some (.ok "const N : u32 = 4u; // cells\nconst M : u32 = 8u; // sweeps\n".toList) := by
  rfl

/-- A file that is missing makes `include` fail with the message of the `catch` clause. -/
theorem include_missing_file :
    ShaderUtils.include (fun url => if url = "main.wgsl".toList then
        some "#include \"a.wgsl\"\n".toList else none) 2 "main.wgsl".toList
      = some (.error "Failed to include file: a.wgsl - Failed to load shader: /a.wgsl".toList) := by
  rfl

/-- C21. Shader include expansion, evaluated on a main file with the two directives
`#include "a.wgsl"` and `#include "b.wgsl"` on consecutive lines, where `a.wgsl` holds
`const N = 4;`, a text shorter than the directive that names it: for every bound of at least
two loop tests `include` returns, with the first directive replaced only.  The search for the
second directive resumes at the `lastIndex` 17 kept from the first match, past the position
13 to which the replacement has moved the second directive; so `#include "b.wgsl"` still
stands at the start of a line of the result, which is not the fully expanded text. -/
theorem C21_include_expansion :
    (∀ n, ShaderUtils.include shaderFiles (n + 2) "shaders/main.wgsl".toList
      = some (.ok "const N = 4;\n#include \"b.wgsl\"\n".toList)) ∧
    regexExec "#include \"a.wgsl\"\n#include \"b.wgsl\"\n".toList 0
      = some ⟨0, "#include \"a.wgsl\"".toList, "a.wgsl".toList, 17⟩ ∧
    regexExec "const N = 4;\n#include \"b.wgsl\"\n".toList 17 = none ∧
    regexExec "const N = 4;\n#include \"b.wgsl\"\n".toList 0
      = some ⟨13, "#include \"b.wgsl\"".toList, "b.wgsl".toList, 30⟩ ∧
    "const N = 4;\n#include \"b.wgsl\"\n".toList ≠ "const N = 4;\nconst M = 8;\n".toList := by
  refine ⟨fun n => rfl, by decide, by decide, by decide, by decide⟩

/-! ## The brush at a radius that is not an integer -/

theorem asIndex_intCast (i : Int) : asIndex (i : ℚ) = some i := by
  simp [asIndex]

theorem run_toSubscript (t : Main) (st : Store) :
    SubscriptStore.run t st.toSubscript = Store.run t st := by
  cases st <;> simp [Store.toSubscript, SubscriptStore.run, asIndex_intCast]

theorem brushStoresAt_int (s : Main) (gx gy y x : Int) :
    brushStoresAt (s.radius : ℚ) s gx gy (y : ℚ) (x : ℚ)
      = (brushStores s gx gy y x).map Store.toSubscript := by
  have c1 : ((x : ℚ) * x + y * y > (s.radius : ℚ) * s.radius) ↔
      (x * x + y * y > s.radius * s.radius) := by norm_cast
  have c2 : (((gx : ℚ) + x < 0 ∨ (gy : ℚ) + y < 0 ∨ (gx : ℚ) + x ≥ s.W ∨ (gy : ℚ) + y ≥ s.H)) ↔
      (gx + x < 0 ∨ gy + y < 0 ∨ gx + x ≥ s.W ∨ gy + y ≥ s.H) := by
    norm_cast
  unfold brushStoresAt brushStores
  simp only [c1, c2]
  split_ifs <;> simp [Store.toSubscript]

theorem foldlM_map_toSubscript (l : List Store) (t : Main) :
    (l.map Store.toSubscript).foldlM SubscriptStore.run t = l.foldlM Store.run t := by
  induction l generalizing t with
  | nil => rfl
  | cons a l ih =>
    simp only [List.map_cons, List.foldlM_cons, run_toSubscript]
    cases Store.run t a with
    | none => rfl
    | some t' => exact ih t'

theorem forRange_shift {σ : Type} (lo hi : Int) (body : Int → σ → Option σ) (s : σ) :
    forRange 0 (hi - lo) (fun j t => body (lo + j) t) s = forRange lo hi body s := by
  simp [forRange]

/-- For an integer radius the brush at a rational radius is the brush of `applyBrush`. -/
theorem applyBrushAt_int (s : Main) : applyBrushAt (s.radius : ℚ) s = applyBrush s := by
  have hfl : Int.floor (2 * (s.radius : ℚ)) + 1 = (s.radius + 1) - (-s.radius) := by
    have : (2 * (s.radius : ℚ)) = ((2 * s.radius : Int) : ℚ) := by push_cast; ring
    rw [this, Int.floor_intCast]
    ring
  unfold applyBrushAt applyBrush
  split_ifs
  · rfl
  · cases hg : s.gridCoord with
    | none => rfl
    | some g =>
      obtain ⟨gx, gy⟩ := g
      simp only []
      rw [hfl, ← forRange_shift (-s.radius) (s.radius + 1)]
      congr 1
      funext j t
      rw [← forRange_shift (-s.radius) (s.radius + 1)]
      congr 1
      funext i t'
      have e1 : (-(s.radius : ℚ) + (j : ℚ)) = ((-s.radius + j : Int) : ℚ) := by push_cast; ring
      have e2 : (-(s.radius : ℚ) + (i : ℚ)) = ((-s.radius + i : Int) : ℚ) := by push_cast; ring
      rw [e1, e2, brushStoresAt_int, foldlM_map_toSubscript]

theorem foldlM_flatMap {α β σ : Type} (l : List α) (f : α → List β) (g : σ → β → Option σ)
    (s : σ) : (l.flatMap f).foldlM g s = l.foldlM (fun acc a => (f a).foldlM g acc) s := by
  induction l generalizing s with
  | nil => rfl
  | cons a l ih =>
    rw [List.flatMap_cons, List.foldlM_append, List.foldlM_cons]
    cases (f a).foldlM g s with
    | none => rfl
    | some t => exact ih t

/-- The loops of `applyBrushAt` perform the stores of `brushScanAt`, in order. -/
theorem applyBrushAt_scan (radius : ℚ) (s : Main) (gx gy : Int) (hd : s.mouseDown = true)
    (hg : s.gridCoord = some (gx, gy)) :
    applyBrushAt radius s = (brushScanAt radius s gx gy).foldlM SubscriptStore.run s := by
  simp only [applyBrushAt, hd, hg, brushScanAt, forRange, foldlM_flatMap, sub_zero, zero_add,
    Bool.not_true, Bool.false_eq_true, if_false]

/-- A scan with a store whose subscript is not an integer does not return. -/
theorem foldlM_run_none (l1 l2 : List SubscriptStore) (st : SubscriptStore)
    (h : ∀ t, SubscriptStore.run t st = none) (s : Main) :
    (l1 ++ st :: l2).foldlM SubscriptStore.run s = none := by
  induction l1 generalizing s with
  | nil => simp [h]
  | cons a l ih =>
    rw [List.cons_append, List.foldlM_cons]
    cases SubscriptStore.run s a with
    | none => rfl
    | some t => exact ih t

theorem brushDemo_scan :
    brushScanAt (3 / 2) brushDemo 2 2 =
      [.density 30 1, .density 31 0.6, .density 32 0.2, .density 33 1,
        .velXAdd 9 2, .velYAdd (15 / 2) 0,
        .density 34 1, .density 35 0.6, .density 36 0.2, .density 37 1,
        .velXAdd 10 2, .velYAdd (17 / 2) 0,
        .density 46 1, .density 47 0.6, .density 48 0.2, .density 49 1,
        .velXAdd 14 2, .velYAdd (23 / 2) 0,
        .density 50 1, .density 51 0.6, .density 52 0.2, .density 53 1,
        .velXAdd 15 2, .velYAdd (25 / 2) 0] := by
  have hf : Int.floor (2 * (3 / 2 : ℚ)) = 3 := by
    rw [Int.floor_eq_iff]
    norm_num
  have hn : ((3 : Int) + 1).toNat = 4 := rfl
  have hr : List.range 4 = [0, 1, 2, 3] := rfl
  simp only [brushScanAt, hf, hn, hr, List.flatMap_cons, List.flatMap_nil]
  norm_num [brushStoresAt, brushDemo, brushIncrement]

theorem asIndex_half (n : Int) : asIndex ((2 * (n : ℚ) + 1) / 2) = none := by
  have hfl : Int.floor ((2 * (n : ℚ) + 1) / 2) = n := by
    rw [Int.floor_eq_iff]
    constructor <;> linarith
  have hne : (n : ℚ) ≠ (2 * (n : ℚ) + 1) / 2 := by
    intro h
    linarith
  simp only [asIndex, hfl, if_neg hne]

/-- C6. Hard stamp, evaluated at a radius that is not an integer, as the wheel handler can
leave it: radius `3/2`, pointer down (primary action) at the cell `(2, 2)` of the `4 × 4`
grid.  The offsets of the passes are `-3/2, -1/2, 1/2, 3/2`, and the four passes inside the
mask store `brushColor` at the density subscripts `30 .. 37` and `46 .. 53`.  These straddle
cells: all four channels of the cell `(0, 2)` (subscripts `32 .. 35`), which lies outside
the mask, are overwritten, and no pass stores to the brush cell `(2, 2)` itself (subscripts
`40 .. 43`).  The `velY` subscripts are not integers, so the scan performs a store that
addresses no entry of its buffer. -/
theorem C6_fractional_radius :
    brushScanAt (3 / 2) brushDemo 2 2 =
      [.density 30 1, .density 31 0.6, .density 32 0.2, .density 33 1,
        .velXAdd 9 2, .velYAdd (15 / 2) 0,
        .density 34 1, .density 35 0.6, .density 36 0.2, .density 37 1,
        .velXAdd 10 2, .velYAdd (17 / 2) 0,
        .density 46 1, .density 47 0.6, .density 48 0.2, .density 49 1,
        .velXAdd 14 2, .velYAdd (23 / 2) 0,
        .density 50 1, .density 51 0.6, .density 52 0.2, .density 53 1,
        .velXAdd 15 2, .velYAdd (25 / 2) 0] ∧
    (∀ q v : ℚ, SubscriptStore.density q v ∈ brushScanAt (3 / 2) brushDemo 2 2 →
      q < 40 ∨ 44 ≤ q) ∧
    applyBrushAt (3 / 2) brushDemo = none := by
  refine ⟨brushDemo_scan, ?_, ?_⟩
  · intro q v h
    rw [brushDemo_scan] at h
    simp only [List.mem_cons, SubscriptStore.density.injEq, List.mem_singleton, reduceCtorEq,
      false_or, or_false, List.not_mem_nil] at h
    rcases h with ⟨rfl, -⟩ | ⟨rfl, -⟩ | ⟨rfl, -⟩ | ⟨rfl, -⟩ | ⟨rfl, -⟩ | ⟨rfl, -⟩ | ⟨rfl, -⟩ | ⟨rfl, -⟩ | ⟨rfl, -⟩ | ⟨rfl, -⟩ | ⟨rfl, -⟩ | ⟨rfl, -⟩ | ⟨rfl, -⟩ | ⟨rfl, -⟩ | ⟨rfl, -⟩ | ⟨rfl, -⟩ <;> norm_num
  · rw [applyBrushAt_scan (3 / 2) brushDemo 2 2 rfl rfl, brushDemo_scan]
    exact foldlM_run_none
      [.density 30 1, .density 31 0.6, .density 32 0.2, .density 33 1, .velXAdd 9 2] _
      (.velYAdd (15 / 2) 0)
      (fun t => by
        have h := asIndex_half 7
        norm_num at h
        simp [SubscriptStore.run, h]) brushDemo

end Smoke
